import Mathlib

/-!
Shallow embedding of the Go package `html2mdutil` (`html2md.go`, `replacers.go`)
and proofs about it.

Go strings are modelled as lists of code points (`List Char`); the package
assumes UTF-8 input, so a string is the list of the runes it encodes and
`len(s)` is the sum of the UTF-8 sizes of its runes. The node tree of
`golang.org/x/net/html` is a tree of nodes owning their children; a node pointer
is a path of child indices, and the parent and sibling links are read from the
position in the tree.

The file first gives the definitions: the regular-expression substitutions,
the string helpers, the node tree, the substitution rules, the planner and the
engine. The lemmas and the theorems about the claims follow.
-/

namespace Html2md

/-! ## Character classes -/

/-- Class `\s` of Go's `regexp` syntax: `[\t\n\f\r ]`. -/
def reSpace (c : Char) : Bool :=
  c == '\t' || c == '\n' || c == Char.ofNat 12 || c == '\r' || c == ' '

/-- Class `[\t\r\n]`, the first alternative of `reMultiLTR`. -/
def reTRN (c : Char) : Bool :=
  c == '\t' || c == '\r' || c == '\n'

/-- Class `[\t\r\n\s]`, the second alternative of `reMultiLTR`. -/
def reTRNS (c : Char) : Bool :=
  c == '\t' || c == '\r' || c == '\n' || reSpace c

/-- The newline test used by the patterns. -/
def isNl (c : Char) : Bool := c == '\n'

/-! ## `Regexp.ReplaceAllString` for patterns that never match the empty string -/

/-- An anchored matcher: given whether the position is the beginning of the
text and the text from the position on, the length of the leftmost-first
match that starts at the position, if there is one. -/
abbrev Matcher := Bool → List Char → Option Nat

/-- Scan of `ReplaceAllString`: `skip` counts the characters of the current
match that are still to be dropped; at a position outside a match the matcher
is tried, a match is replaced by `repl` and the scan resumes after it,
otherwise the character is copied. -/
def replaceAllAux (m : Matcher) (repl : List Char) : Nat → Bool → List Char → List Char
  | _, _, [] => []
  | skip + 1, _, _ :: rest => replaceAllAux m repl skip false rest
  | 0, b, c :: rest =>
    match m b (c :: rest) with
    | some (k + 1) => repl ++ replaceAllAux m repl k false rest
    | _ => c :: replaceAllAux m repl 0 false rest

/-- `re.ReplaceAllString(s, repl)` for a pattern given by its anchored matcher. -/
def replaceAllString (m : Matcher) (s repl : List Char) : List Char :=
  replaceAllAux m repl 0 true s

/-- Pattern `\n\n\n+`: the greedy run of newlines at the position, when it has
at least three of them. -/
def reMultiNl : Matcher := fun _ s =>
  let n := (s.takeWhile isNl).length
  if 3 ≤ n then some n else none

/-- Largest index of a newline in `w`. -/
def lastNl : List Char → Option Nat
  | [] => none
  | c :: rest =>
    match lastNl rest with
    | some j => some (j + 1)
    | none => if isNl c then some 0 else none

/-- Pattern `\n\s+\n`: a newline, then the greedy `\s+` takes the whole run of
`\s` characters and backtracks to the last newline of the run that leaves it
at least one character. -/
def reMultiNlW : Matcher := fun _ s =>
  match s with
  | [] => none
  | c :: rest =>
    if isNl c then
      match rest.takeWhile reSpace with
      | [] => none
      | _ :: w => (lastNl w).map (· + 3)
    else none

/-- Pattern `^[\t\r\n]+|[\t\r\n\s]+$` (no multi-line flag: `^` and `$` are the
ends of the text); the first alternative is preferred. -/
def reMultiLTR : Matcher := fun atStart s =>
  let n := (s.takeWhile reTRN).length
  if atStart && decide (0 < n) then some n
  else if !s.isEmpty && s.all reTRNS then some s.length
  else none

/-- Source: `normalizeMd` (html2md.go:102). -/
def normalizeMd (s : List Char) : List Char :=
  let out := replaceAllString reMultiLTR s []
  let out := replaceAllString reMultiNlW out ['\n', '\n']
  let out := replaceAllString reMultiNl out ['\n', '\n']
  out


/-! ## Lines of a text -/

/-- First line of a text: the characters before its first newline. -/
def firstLine (u : List Char) : List Char := u.takeWhile (fun c => !isNl c)

/-- Last line of a text: the characters after its last newline. -/
def lastLine (u : List Char) : List Char := (u.reverse.takeWhile (fun c => !isNl c)).reverse

/-- A line is blank-only when it is empty or made of `\s` characters only. -/
def blankOnly (l : List Char) : Bool := l.all reSpace

/-! ## Strings, runes and the `strings`, `unicode`, `utf8` helpers -/

/-- Go's `unicode.IsSpace`: the Latin-1 spaces `\t \n \v \f \r`, space, U+0085,
U+00A0, and the other code points of the `White_Space` property. -/
def unicodeIsSpace (c : Char) : Bool :=
  let n := c.toNat
  (9 ≤ n && n ≤ 13) || n == 0x20 || n == 0x85 || n == 0xA0 || n == 0x1680 ||
  (0x2000 ≤ n && n ≤ 0x200A) || n == 0x2028 || n == 0x2029 || n == 0x202F ||
  n == 0x205F || n == 0x3000

/-- Go's `utf8.RuneError`, U+FFFD. -/
def runeError : Char := Char.ofNat 0xFFFD

/-- Go's `len(s)`: the number of bytes of the UTF-8 encoding. -/
def goLen : List Char → Nat
  | [] => 0
  | c :: rest => c.utf8Size + goLen rest

/-- The rune of `utf8.DecodeRuneInString(s[0:1])`: the one-byte slice decodes to
the first character when it is ASCII and to `RuneError` when it is the first
byte of a longer encoding. Both call sites take the slice after testing
`len(s) == 0`; the empty case is given `RuneError`. -/
def decodeFirstByte : List Char → Char
  | [] => runeError
  | c :: _ => if c.toNat < 0x80 then c else runeError

/-- The rune of `utf8.DecodeLastRuneInString(s)`. -/
def decodeLastRune (s : List Char) : Char :=
  match s.getLast? with
  | some c => c
  | none => runeError

/-- Go's `strings.TrimLeftFunc`. -/
def trimLeftFunc (s : List Char) (f : Char → Bool) : List Char := s.dropWhile f

/-- Go's `strings.TrimRightFunc`. -/
def trimRightFunc (s : List Char) (f : Char → Bool) : List Char :=
  (s.reverse.dropWhile f).reverse

/-- Go's `strings.TrimSpace`. -/
def trimSpace (s : List Char) : List Char :=
  trimRightFunc (trimLeftFunc s unicodeIsSpace) unicodeIsSpace

/-- Go's `strings.Replace(s, "\n", "\n    ", -1)`. -/
def indentNewlines (s : List Char) : List Char :=
  s.flatMap (fun c => if isNl c then ['\n', ' ', ' ', ' ', ' '] else [c])

/-- Go's `strings.Repeat`. -/
def stringsRepeat (s : List Char) (count : Nat) : List Char :=
  (List.replicate count s).flatten

/-- Go's `strings.Join`. -/
def stringsJoin : List (List Char) → List Char → List Char
  | [], _ => []
  | [a], _ => a
  | a :: b :: rest, sep => a ++ sep ++ stringsJoin (b :: rest) sep

/-- The verb `%d` of `fmt.Sprintf` for a non-negative integer. -/
def fmtDecimal (i : Nat) : List Char := Nat.toDigits 10 i

/-- Pattern `\s+`. -/
def reMultiWs : Matcher := fun _ s =>
  let n := (s.takeWhile reSpace).length
  if 0 < n then some n else none

/-- Source: `normalizeText` (html2md.go:114). -/
def normalizeText (s : List Char) : List Char :=
  let out := replaceAllString reMultiWs s [' ']
  trimSpace out

/-- Replacement of the pattern `(?m)^` by `repl`: the empty match at the
beginning of the text and after every newline. -/
def replaceLineStarts (s repl : List Char) : List Char :=
  repl ++ s.flatMap (fun c => if isNl c then c :: repl else [c])

/-! ## The node tree of `golang.org/x/net/html` -/

/-- Kinds of nodes, `html.NodeType`. -/
inductive NodeType where
  | ErrorNode | TextNode | DocumentNode | ElementNode | CommentNode | DoctypeNode
  deriving DecidableEq, Repr

/-- Tag identities, `atom.Atom`: `Unknown` is the value 0 given to tags outside
the atom table; the atoms the package names are listed, and `Known k` stands
for every other atom of the table. Atoms are compared by the tests below. -/
inductive Atom where
  | Unknown
  | A | Address | Article | Aside | Audio | B | Blockquote | Body | Br | Canvas | Center
  | Code | Dd | Dir | Div | Dl | Dt | Em | Fieldset | Figcaption | Figure | Footer | Form
  | Frameset | H1 | H2 | H3 | H4 | H5 | H6 | Header | Hgroup | Hr | Html | I | Isindex | Li
  | Menu | Nav | Noframes | Noscript | Ol | Output | P | Pre | Section | Span | Strong
  | Table | Tbody | Td | Tfoot | Th | Thead | Tr | Ul
  | Head | Img | Script | Title | U
  | Known (k : Nat)

/-- An attribute, `html.Attribute`. -/
structure Attribute where
  Namespace : List Char
  Key : List Char
  Val : List Char
  deriving DecidableEq, Repr

/-- A node, `html.Node`, with its children owned in order; the parent and
sibling links of the Go structure are recovered from the position in the tree. -/
structure Node where
  Typ : NodeType
  DataAtom : Atom
  Data : List Char
  Attr : List Attribute
  Children : List Node

/-- A `*html.Node` seen from the code: the node, its parent and its index among
the parent's children (the document root has no parent). -/
structure Ptr where
  node : Node
  parent : Option Node
  idx : Nat

/-- The siblings before the node, nearest first (`n.PrevSibling`, then on). -/
def Ptr.prevSiblings (p : Ptr) : List Node :=
  match p.parent with
  | none => []
  | some q => (q.Children.take p.idx).reverse

/-- The siblings after the node, nearest first (`n.NextSibling`, then on). -/
def Ptr.nextSiblings (p : Ptr) : List Node :=
  match p.parent with
  | none => []
  | some q => q.Children.drop (p.idx + 1)

/-- Field `n.FirstChild`. -/
def Node.FirstChild (n : Node) : Option Node := n.Children.head?

/-- Source: `isBlock` (html2md.go:175). -/
def isBlock : Atom → Bool
  | .Address | .Article | .Aside | .Audio | .Blockquote | .Body | .Canvas | .Center | .Dd
  | .Dir | .Div | .Dl | .Dt | .Fieldset | .Figcaption | .Figure | .Footer | .Form | .Frameset
  | .H1 | .H2 | .H3 | .H4 | .H5 | .H6 | .Header | .Hgroup | .Hr | .Html | .Isindex | .Li
  | .Menu | .Nav | .Noframes | .Noscript | .Ol | .Output | .P | .Pre | .Section | .Table
  | .Tbody | .Td | .Tfoot | .Th | .Thead | .Tr | .Ul => true
  | _ => false

/-- One round of the loop of `getNodeContent`: what the child adds to `out`. -/
def childContent (normalize : Bool) (c : Node) : List Char :=
  if goLen c.Data = 0 then []
  else match c.Typ with
    | .ElementNode => c.Data
    | .TextNode => if normalize then normalizeText c.Data else c.Data
    | _ => []

/-- Loop of `getNodeContent` over the children, in sibling order. -/
def contentLoop (normalize : Bool) : List Node → List Char
  | [] => []
  | c :: rest => childContent normalize c ++ contentLoop normalize rest

/-- Source: `getNodeContent` (html2md.go:69). -/
def getNodeContent (n : Node) (normalize : Bool) : List Char :=
  if n.Typ = .TextNode then
    if normalize then normalizeText n.Data else n.Data
  else contentLoop normalize n.Children

/-- The test `s.Type == html.ElementNode || s.Type == html.TextNode`. -/
def isElementOrText (s : Node) : Bool :=
  s.Typ = .ElementNode || s.Typ = .TextNode

/-- Source: `checkNodeSiblingWs` (html2md.go:230). -/
def checkNodeSiblingWs (n : Ptr) (next : Bool) : Bool :=
  match (if next then n.nextSiblings else n.prevSiblings).find? isElementOrText with
  | none => false
  | some s =>
    if isBlock s.DataAtom then false
    else
      let content := if s.Typ = .TextNode then s.Data else getNodeContent s true
      if goLen content = 0 then false
      else
        let rn := if next then decodeFirstByte content else decodeLastRune content
        if unicodeIsSpace rn && decide (goLen content > 1) then true else false

/-- Source: `getNodeSpaces` (html2md.go:280). -/
def getNodeSpaces (n : Ptr) : List Char × List Char :=
  let c := getNodeContent n.node false
  if goLen c = 0 then ([], [])
  else if isBlock n.node.DataAtom then ([], [])
  else
    let sL := decodeFirstByte c
    let sT := decodeLastRune c
    let l := if unicodeIsSpace sL || checkNodeSiblingWs n false then [' '] else []
    let t := if unicodeIsSpace sT || checkNodeSiblingWs n true then [' '] else []
    (l, t)

/-! ## Substitution rules (`replacers.go`) -/

/-- The type `replaceFn`: `func(c string, n *html.Node) string`. -/
abbrev replaceFn := List Char → Ptr → List Char

/-- Source: `replaceTagsBlocks` (replacers.go:12). -/
def replaceTagsBlocks : replaceFn := fun c _ =>
  if goLen c = 0 then [] else ['\n', '\n'] ++ c ++ ['\n', '\n']

/-- Source: `replaceTagsBr` (replacers.go:20). -/
def replaceTagsBr : replaceFn := fun _ _ => [' ', ' ', '\n']

/-- The `switch n.DataAtom` of `replaceTagsH`. -/
def headingCount : Atom → Nat
  | .H2 => 2
  | .H3 => 3
  | .H4 => 4
  | .H5 => 5
  | .H6 => 6
  | _ => 1

/-- Source: `replaceTagsH` (replacers.go:24). -/
def replaceTagsH : replaceFn := fun c n =>
  ['\n', '\n'] ++ stringsRepeat ['#'] (headingCount n.node.DataAtom) ++ [' '] ++ c ++ ['\n', '\n']

/-- Source: `replaceTagsHr` (replacers.go:44). -/
def replaceTagsHr : replaceFn := fun _ _ => "\n\n* * *\n\n".toList

/-- Source: `replaceTagsEmI` (replacers.go:48). -/
def replaceTagsEmI : replaceFn := fun c _ => ['_'] ++ c ++ ['_']

/-- Source: `replaceTagsStrongB` (replacers.go:52). -/
def replaceTagsStrongB : replaceFn := fun c _ => ['*', '*'] ++ c ++ ['*', '*']

/-- Test `a == atom.Pre`. -/
def Atom.isPre : Atom → Bool
  | .Pre => true
  | _ => false

/-- Test `a == atom.Code`. -/
def Atom.isCode : Atom → Bool
  | .Code => true
  | _ => false

/-- Test `a == atom.Li`. -/
def Atom.isLi : Atom → Bool
  | .Li => true
  | _ => false

/-- Test `a == atom.Ol`. -/
def Atom.isOl : Atom → Bool
  | .Ol => true
  | _ => false

/-- The backtick. -/
def backtick : Char := Char.ofNat 96

/-- The test `n.PrevSibling == nil && n.NextSibling == nil`. -/
def Ptr.noSiblings (n : Ptr) : Bool :=
  n.prevSiblings.isEmpty && n.nextSiblings.isEmpty

/-- Source: `replaceTagsCodePre` (replacers.go:56). -/
def replaceTagsCodePre : replaceFn := fun c n =>
  let block : Option (List Char) :=
    if n.node.DataAtom.isPre then
      match n.node.FirstChild with
      | some fc =>
        if fc.DataAtom.isCode then
          match fc.FirstChild with
          | some t => some (['\n', '\n', ' ', ' ', ' ', ' '] ++ indentNewlines t.Data ++ ['\n', '\n'])
          | none => none
        else none
      | none => none
    else none
  match block with
  | some out => out
  | none =>
    if n.node.DataAtom.isCode then
      let siblings := n.noSiblings
      let code := match n.parent with
        | some p => p.DataAtom.isPre && siblings
        | none => false
      if !code && decide (goLen c > 0) then [backtick] ++ c ++ [backtick] else c
    else c

/-- The loop over `n.Attr` of `replaceTagsA`: every `href` entry overwrites
`href`, every `title` entry overwrites `title`. -/
def linkAttrs : List Attribute → List Char × List Char → List Char × List Char
  | [], acc => acc
  | a :: rest, (href, title) =>
    if a.Key = "href".toList then linkAttrs rest (a.Val, title)
    else if a.Key = "title".toList then linkAttrs rest (href, [' '] ++ a.Val)
    else linkAttrs rest (href, title)

/-- Source: `replaceTagsA` (replacers.go:74). -/
def replaceTagsA : replaceFn := fun c n =>
  let (href, title) := linkAttrs n.node.Attr ([], [])
  if goLen href ≠ 0 then ['['] ++ c ++ [']', '('] ++ href ++ title ++ [')'] else href

/-- The loop over `n.Attr` of `replaceTagsImg`, on `(src, alt, title)`. -/
def imgAttrs : List Attribute → List Char × List Char × List Char →
    List Char × List Char × List Char
  | [], acc => acc
  | a :: rest, (src, alt, title) =>
    if a.Key = "src".toList then imgAttrs rest (a.Val, alt, title)
    else if a.Key = "alt".toList then imgAttrs rest (src, a.Val, title)
    else if a.Key = "title".toList then imgAttrs rest (src, alt, [' '] ++ a.Val)
    else imgAttrs rest (src, alt, title)

/-- Source: `replaceTagsImg` (replacers.go:96). -/
def replaceTagsImg : replaceFn := fun _ n =>
  let (src, alt, title) := imgAttrs n.node.Attr ([], [], [])
  if goLen src ≠ 0 then ['!', '['] ++ alt ++ [']', '('] ++ src ++ title ++ [')'] else src

/-- Source: `replaceTagsBlockquote` (replacers.go:123). -/
def replaceTagsBlockquote : replaceFn := fun c _ =>
  let data := trimSpace c
  let data := replaceAllString reMultiNl data ['\n', '\n']
  let data := replaceLineStarts data ['>', ' ']
  ['\n', '\n'] ++ data ++ ['\n', '\n']

/-- The counting loop of `replaceTagsLi` over the parent's children: `j` is the
position of the child looked at, `i` the count so far; the loop stops at the
node itself (position `idx`), which is tested only on `li` children. -/
def liCount (idx : Nat) : Nat → List Node → Nat → Nat
  | _, [], i => i
  | j, c :: rest, i =>
    if c.DataAtom.isLi then
      if j = idx then i + 1 else liCount idx (j + 1) rest (i + 1)
    else liCount idx (j + 1) rest i

/-- Source: `replaceTagsLi` (replacers.go:134). -/
def replaceTagsLi : replaceFn := fun c n =>
  let data := trimLeftFunc c unicodeIsSpace
  let data := indentNewlines data
  let pref : List Char :=
    match n.parent with
    | some p =>
      let i := liCount n.idx 0 p.Children 0
      if p.DataAtom.isOl then fmtDecimal i ++ ['.', ' ', ' ', ' '] else ['*', ' ', ' ', ' ']
    | none => ['*', ' ', ' ', ' ']
  pref ++ data

/-- The collecting loop of `replaceTagsUlOl`: the `Data` of the `li` children. -/
def liData : List Node → List (List Char)
  | [] => []
  | c :: rest => if c.DataAtom.isLi then c.Data :: liData rest else liData rest

/-- Source: `replaceTagsUlOl` (replacers.go:161). -/
def replaceTagsUlOl : replaceFn := fun _ n =>
  let l := liData n.node.Children
  let nested := match n.parent with
    | some p => p.DataAtom.isLi
    | none => false
  if nested then ['\n'] ++ stringsJoin l ['\n']
  else ['\n', '\n'] ++ stringsJoin l ['\n'] ++ ['\n', '\n']

/-- Source: `replaceTagsOther` (replacers.go:177). -/
def replaceTagsOther : replaceFn := fun c n =>
  ['<'] ++ n.node.Data ++ ['>'] ++ c ++ ['<', '/'] ++ n.node.Data ++ ['>']

/-- Source: `replaceText` (replacers.go:181). -/
def replaceText : replaceFn := fun _ n => n.node.Data

/-! ## Planner and engine (`html2md.go`) -/

/-- A worklist entry, `htmlReplace`; the node pointer is the path of child
indices from the document root. -/
structure htmlReplace where
  nodePtr : List Nat
  replacer : replaceFn

/-- The `switch c.DataAtom` of `prepareChildrenReplacers` for an element: the
rule to register, or `none` where the code clears `c.Data`. -/
def atomReplacer (strip : Bool) : Atom → Option replaceFn
  | .Br => some replaceTagsBr
  | .H1 | .H2 | .H3 | .H4 | .H5 | .H6 => some replaceTagsH
  | .Hr => some replaceTagsHr
  | .I | .Em => some replaceTagsEmI
  | .B | .Strong => some replaceTagsStrongB
  | .Code | .Pre => some replaceTagsCodePre
  | .A => some replaceTagsA
  | .Blockquote => some replaceTagsBlockquote
  | .Li => some replaceTagsLi
  | .Ul | .Ol => some replaceTagsUlOl
  | .Address | .Article | .Aside | .Audio | .Body | .Canvas | .Center | .Dd
  | .Dir | .Div | .Dl | .Dt | .Fieldset | .Figcaption | .Figure | .Footer
  | .Form | .Frameset | .Header | .Hgroup | .Html | .Isindex | .Menu | .Nav
  | .Noframes | .Noscript | .Output | .P | .Span | .Section | .Table | .Tbody
  | .Td | .Tfoot | .Th | .Thead | .Tr => some replaceTagsBlocks
  | .Unknown => if !strip then some replaceTagsOther else none
  | _ => none

/-- The branch on `c.Type` of `prepareChildrenReplacers`: the rule registered
for the child, or `none` where its `Data` is cleared. -/
def childReplacer (strip : Bool) (c : Node) : Option replaceFn :=
  match c.Typ with
  | .ElementNode => atomReplacer strip c.DataAtom
  | .TextNode => some replaceText
  | _ => none

mutual
/-- Source: `prepareChildrenReplacers` (html2md.go:120), for the node at `path`:
the worklist and the subtree after the clearing of `Data`. -/
def prepareChildrenReplacers (path : List Nat) (strip : Bool) :
    Node → List htmlReplace × Node
  | ⟨ty, a, d, attr, cs⟩ =>
    let r := prepareChildrenLoop path strip 0 cs
    (r.1, ⟨ty, a, d, attr, r.2⟩)
termination_by structural n => n
/-- The loop `for c := n.FirstChild; c != nil; c = c.NextSibling`, `i` being the
index of the child looked at. The recursive call is made for every child: on a
child without children, where the code skips it, it returns no entry. -/
def prepareChildrenLoop (path : List Nat) (strip : Bool) :
    Nat → List Node → List htmlReplace × List Node
  | _, [] => ([], [])
  | i, c :: rest =>
    let own : List htmlReplace :=
      match childReplacer strip c with
      | some f => [⟨path ++ [i], f⟩]
      | none => []
    let sub := prepareChildrenReplacers (path ++ [i]) strip c
    let c1 : Node :=
      match childReplacer strip c with
      | some _ => sub.2
      | none => { sub.2 with Data := [] }
    let r := prepareChildrenLoop path strip (i + 1) rest
    (own ++ sub.1 ++ r.1, c1 :: r.2)
termination_by structural _ l => l
end

/-- The pointer to the node at a path below `n`; `parent` and `idx` describe `n`. -/
def getPtrFrom (parent : Option Node) (idx : Nat) (n : Node) : List Nat → Option Ptr
  | [] => some ⟨n, parent, idx⟩
  | i :: rest =>
    match n.Children[i]? with
    | some c => getPtrFrom (some n) i c rest
    | none => none

/-- The pointer to the node at a path of the document. -/
def getPtr (doc : Node) (path : List Nat) : Option Ptr := getPtrFrom none 0 doc path

/-- The assignment `nodePtr.Data = d` at a path. -/
def setData (n : Node) : List Nat → List Char → Node
  | [], d => { n with Data := d }
  | i :: rest, d =>
    match n.Children[i]? with
    | some c => { n with Children := n.Children.set i (setData c rest d) }
    | none => n

/-- One round of the loop of `process` (html2md.go:54-59). -/
def runReplacer (hr : htmlReplace) (doc : Node) : Node :=
  match getPtr doc hr.nodePtr with
  | none => doc
  | some p =>
    let lt := getNodeSpaces p
    let replaced := hr.replacer (getNodeContent p.node true) p
    setData doc hr.nodePtr (lt.1 ++ replaced ++ lt.2)

/-- The loop of `process`: the worklist is run from its last entry to its first. -/
def runReplacers (replacers : List htmlReplace) (doc : Node) : Node :=
  replacers.foldr runReplacer doc

/-- The tree after the planner and the engine have run (html2md.go:51-59). -/
def convertTree (doc : Node) (strip : Bool) : Node :=
  let r := prepareChildrenReplacers [] strip doc
  runReplacers r.1 r.2

/-- Source: `parser.process` (html2md.go:44), from the parsed document to the
text written. -/
def process (doc : Node) (strip : Bool) : List Char :=
  let doc := convertTree doc strip
  let out := getNodeContent doc true
  normalizeMd out

/-! ## Trees of the examples -/

/-- An element node. -/
def elem (a : Atom) (name : String) (attr : List Attribute) (children : List Node) : Node :=
  ⟨.ElementNode, a, name.toList, attr, children⟩

/-- A text node. -/
def text (s : List Char) : Node := ⟨.TextNode, .Unknown, s, [], []⟩

/-- The tree `html.Parse` builds around body content:
document > html > [head, body > content]. -/
def docOf (content : List Node) : Node :=
  ⟨.DocumentNode, .Unknown, [], [],
    [elem .Html "html" [] [elem .Head "head" [] [], elem .Body "body" [] content]]⟩

/-! ## Positions in the tree -/

/-- The node at a path of child indices. -/
def nodeAt (n : Node) : List Nat → Option Node
  | [] => some n
  | i :: rest =>
    match n.Children[i]? with
    | some c => nodeAt c rest
    | none => none

/-- The tree with `g` applied to the node at a path. -/
def updateAt (g : Node → Node) (n : Node) : List Nat → Node
  | [] => g n
  | i :: rest =>
    match n.Children[i]? with
    | some c => { n with Children := n.Children.set i (updateAt g c rest) }
    | none => n

/-! ## The engine, child by child

The reverse worklist order handles, for every node, its following siblings
and their subtrees first, then its own descendants, then the node itself:
`runChildren` follows that order on a list of children. -/

/-- The node of a worklist entry after its round of the loop of `process`: its
`Data` is the padded output of the rule. -/
def applyReplacer (f : replaceFn) (p : Ptr) : Node :=
  { p.node with
    Data := (getNodeSpaces p).1 ++ f (getNodeContent p.node true) p ++ (getNodeSpaces p).2 }

mutual
/-- The children of a node once the engine has handled all its descendants. -/
def runInside (strip : Bool) : Node → List Node
  | ⟨ty, a, d, attr, cs⟩ => runChildren strip (fun cs1 => ⟨ty, a, d, attr, cs1⟩) [] cs
termination_by structural n => n
/-- The children `cs` of a parent once the engine has handled them and their
descendants: `mk` rebuilds the parent from its children and `prevs` are the
children before `cs`, which the engine has not reached yet. -/
def runChildren (strip : Bool) (mk : List Node → Node) (prevs : List Node) :
    List Node → List Node
  | [] => []
  | c :: rest =>
    let rest1 := runChildren strip mk (prevs ++ [c]) rest
    let c1 : Node := { c with Children := runInside strip c }
    match childReplacer strip c with
    | none => c1 :: rest1
    | some f => applyReplacer f ⟨c1, some (mk (prevs ++ c1 :: rest1)), prevs.length⟩ :: rest1
termination_by structural l => l
end

/-- The document once the engine has handled every node below the root. -/
def runTree (strip : Bool) (doc : Node) : Node :=
  { doc with Children := runInside strip doc }

/-! ## Vocabulary of the claims -/

/-- The atom of the heading of level `k`. -/
def headingAtom : Nat → Atom
  | 1 => .H1
  | 2 => .H2
  | 3 => .H3
  | 4 => .H4
  | 5 => .H5
  | 6 => .H6
  | _ => .Unknown

/-- A text without any character of `unicode.IsSpace`. -/
def WsFree (s : List Char) : Prop := ∀ c ∈ s, unicodeIsSpace c = false

instance (s : List Char) : Decidable (WsFree s) := by
  unfold WsFree
  infer_instance

/-- The list item `li[text a]`. -/
def liOf (a : List Char) : Node := elem .Li "li" [] [text a]

/-- The lines of an unordered list with the item texts `items`. -/
def ulLines (items : List (List Char)) : List (List Char) :=
  items.map (fun a => ['*', ' ', ' ', ' '] ++ a)

/-- The lines of an ordered list with the item texts `items`, numbered in decimal
from `i` on. -/
def olLines : Nat → List (List Char) → List (List Char)
  | _, [] => []
  | i, a :: rest => (Nat.toDigits 10 i ++ ['.', ' ', ' ', ' '] ++ a) :: olLines (i + 1) rest

/-- A line of output: not empty, without newline, beginning and ending with a
character outside `\s`. -/
def GoodLine (l : List Char) : Prop :=
  l ≠ [] ∧ (∀ c, l.head? = some c → reSpace c = false) ∧ (∀ c ∈ l, isNl c = false) ∧
    (∀ d, l.getLast? = some d → reSpace d = false)

/-- The value of the last attribute with the given key, if there is one. -/
def lastAttr (key : List Char) : List Attribute → Option (List Char)
  | [] => none
  | a :: rest =>
    match lastAttr key rest with
    | some v => some v
    | none => if a.Key = key then some a.Val else none

/-- The tree of `<pre><code>t</code></pre>`. -/
def preCodeDoc (t : List Char) : Node :=
  docOf [elem .Pre "pre" [] [elem .Code "code" [] [text t]]]

/-- The tree of `<foo>bar</foo>`, `foo` being outside the atom table. -/
def fooDoc : Node := docOf [elem .Unknown "foo" [] [text "bar".toList]]

/-- The lines of a text: the pieces between its newlines (one empty line for
the empty text). -/
def splitLines : List Char → List (List Char)
  | [] => [[]]
  | c :: rest =>
    if isNl c then [] :: splitLines rest
    else
      match splitLines rest with
      | [] => [[c]]
      | l :: ls => (c :: l) :: ls

/-- The known atoms outside the dispatch table of `prepareChildrenReplacers`:
the `default` case of its `switch`. -/
def Atom.unhandled : Atom → Bool
  | .Head | .Img | .Script | .Title | .U | .Known _ => true
  | _ => false

/-- An image node with a `src` attribute, on which the image rule returns
`![](s)`. -/
def imgProbe : Ptr :=
  ⟨elem .Img "img" [⟨[], "src".toList, ['s']⟩] [], none, 0⟩

/-- The tree of `<img src="s">`. -/
def imgDoc : Node := docOf [elem .Img "img" [⟨[], "src".toList, ['s']⟩] []]

/-- Document order of node positions: `a` comes before `b` when `a` is a proper
ancestor of `b`, or when at the first index where they differ `a` takes the
earlier sibling. -/
def docBefore : List Nat → List Nat → Prop
  | [], [] => False
  | [], _ :: _ => True
  | _ :: _, [] => False
  | i :: p, j :: q => i < j ∨ (i = j ∧ docBefore p q)

/-- The tree of `<em>a</em><T>inner</T><em>b</em>` for an element `T` with the
atom `a` and the tag name `name`. -/
def betweenDoc (a : Atom) (name : String) (inner : List Node) : Node :=
  docOf [elem .Em "em" [] [text ['a']], elem a name [] inner, elem .Em "em" [] [text ['b']]]

/-- The no-break space U+00A0, a `unicode.IsSpace` rune whose UTF-8 encoding
takes two bytes. -/
def nbsp : Char := Char.ofNat 0xA0

/-- The rounds of the loop of `process` taken in the order of the list `rs`,
its first entry first. -/
def runInOrder (rs : List htmlReplace) (doc : Node) : Node :=
  rs.foldl (fun d hr => runReplacer hr d) doc

/-- Whether the node at the first path is a proper ancestor of the node at the
second. -/
def properAncestor : List Nat → List Nat → Bool
  | [], [] => false
  | [], _ :: _ => true
  | _ :: _, [] => false
  | i :: p, j :: q => i == j && properAncestor p q

/-- Whether in a sequence of rounds every node comes after all of its
descendants: no path is a proper ancestor of a later one. -/
def childrenFirst : List (List Nat) → Bool
  | [] => true
  | a :: rest => rest.all (fun b => !properAncestor a b) && childrenFirst rest

/-- The entries of a worklist at the indices `order`, in that order. -/
def pickEntries (w : List htmlReplace) (order : List Nat) : List htmlReplace :=
  order.filterMap (fun i => w[i]?)

mutual
/-- The children of a node after the left-to-right recursive conversion. -/
def runInsideLR (strip : Bool) : Node → List Node
  | ⟨ty, a, d, attr, cs⟩ => runChildrenLR strip (fun cs1 => ⟨ty, a, d, attr, cs1⟩) [] cs
termination_by structural n => n
/-- Left-to-right recursive conversion of the children `cs` of a parent: each
child has its own children converted, then its rule applied, before the next
child is taken; `prevs` are the converted children before `cs`. -/
def runChildrenLR (strip : Bool) (mk : List Node → Node) (prevs : List Node) :
    List Node → List Node
  | [] => []
  | c :: rest =>
    let c1 : Node := { c with Children := runInsideLR strip c }
    let c2 : Node :=
      match childReplacer strip c with
      | none => c1
      | some f => applyReplacer f ⟨c1, some (mk (prevs ++ c1 :: rest)), prevs.length⟩
    c2 :: runChildrenLR strip mk (prevs ++ [c2]) rest
termination_by structural l => l
end

/-- The text written when the planned tree is converted by the left-to-right
recursion in place of the worklist loop. -/
def processLR (doc : Node) (strip : Bool) : List Char :=
  let planned := (prepareChildrenReplacers [] strip doc).2
  normalizeMd (getNodeContent { planned with Children := runInsideLR strip planned } true)

/-- The tree of `<i><b>x </b></i><em>y</em>`. -/
def orderDoc : Node :=
  docOf [elem .I "i" [] [elem .B "b" [] [text ['x', ' ']]], elem .Em "em" [] [text ['y']]]

/-- First-match lookup, in the words of the spec: the value of the first entry
of the attribute list with the given key, if there is one. -/
def firstAttr (key : List Char) : List Attribute → Option (List Char)
  | [] => none
  | a :: rest => if a.Key = key then some a.Val else firstAttr key rest

/-- Modelled from the spec: the attribute list of the node that `html.Parse`
(package `golang.org/x/net/html`, not under `src/`) builds from the attributes
written in a start tag. The spec describes the attributes of a node as an
"ordered mapping from attribute name to string value" in which "only
first-match matters per key": of the written entries the first one of each
name is kept, in order, and a later entry with a name already seen is
dropped. -/
def parsedAttrs : List Attribute → List Attribute
  | [] => []
  | a :: rest => a :: (parsedAttrs rest).filter (fun b => b.Key != a.Key)

/-- The output of the link rule for the content `c` and the looked-up values
of `href` and `title` (replacers.go:89-93). -/
def linkOutput (c : List Char) (href title : Option (List Char)) : List Char :=
  match href with
  | none => []
  | some h =>
    if h = [] then []
    else ['['] ++ c ++ [']', '('] ++ h
      ++ (match title with
          | some t => [' '] ++ t
          | none => [])
      ++ [')']

/-! ## The core with its run-time checks

Go panics when a string is sliced out of range and when a nil pointer is
dereferenced. The definitions below repeat the functions of the core that take
a slice or follow a pointer, with these checks made explicit: a checked
function returns the fault in place of a value. -/

/-- The run-time faults of the core. -/
inductive Fault where
  | sliceBounds
  | nilDeref

/-- The expression `utf8.DecodeRuneInString(s[0:1])` with the bounds check of
the slice: `s[0:1]` is out of range for the empty string. -/
def decodeFirstByteE : List Char → Except Fault Char
  | [] => .error .sliceBounds
  | c :: _ => .ok (if c.toNat < 0x80 then c else runeError)

/-- A field access through a node pointer, with its nil check. -/
def deref : Option Node → Except Fault Node
  | some n => .ok n
  | none => .error .nilDeref

/-- Source: `checkNodeSiblingWs` (html2md.go:230), with the slice checked. -/
def checkNodeSiblingWsE (n : Ptr) (next : Bool) : Except Fault Bool :=
  match (if next then n.nextSiblings else n.prevSiblings).find? isElementOrText with
  | none => .ok false
  | some s =>
    if isBlock s.DataAtom then .ok false
    else
      let content := if s.Typ = .TextNode then s.Data else getNodeContent s true
      if goLen content = 0 then .ok false
      else
        match (if next then decodeFirstByteE content else .ok (decodeLastRune content)) with
        | .error e => .error e
        | .ok rn => .ok (if unicodeIsSpace rn && decide (goLen content > 1) then true else false)

/-- The condition `unicode.IsSpace(r) || checkNodeSiblingWs(n, next)`: the
sibling test runs only when the first operand is false. -/
def spaceOrSiblingE (r : Char) (n : Ptr) (next : Bool) : Except Fault Bool :=
  if unicodeIsSpace r then .ok true else checkNodeSiblingWsE n next

/-- Source: `getNodeSpaces` (html2md.go:280), with the slice checked. -/
def getNodeSpacesE (n : Ptr) : Except Fault (List Char × List Char) :=
  let c := getNodeContent n.node false
  if goLen c = 0 then .ok ([], [])
  else if isBlock n.node.DataAtom then .ok ([], [])
  else
    match decodeFirstByteE c with
    | .error e => .error e
    | .ok sL =>
      let sT := decodeLastRune c
      match spaceOrSiblingE sL n false with
      | .error e => .error e
      | .ok padL =>
        match spaceOrSiblingE sT n true with
        | .error e => .error e
        | .ok padT => .ok (if padL then [' '] else [], if padT then [' '] else [])

/-- A rule that may fault. -/
abbrev replaceFnE := List Char → Ptr → Except Fault (List Char)

/-- A rule without slices and pointer chains never faults. -/
def liftRule (f : replaceFn) : replaceFnE := fun c n => .ok (f c n)

/-- The condition of the first `if` of `replaceTagsCodePre`, its operands
taken from left to right: `n.FirstChild` is followed only when the operands
before are true. -/
def preCodeCondE (n : Ptr) : Except Fault Bool :=
  if n.node.DataAtom.isPre && n.node.FirstChild.isSome then
    match deref n.node.FirstChild with
    | .error e => .error e
    | .ok fc => .ok (fc.DataAtom.isCode && fc.FirstChild.isSome)
  else .ok false

/-- The condition `n.Parent != nil && a == n.Parent.DataAtom`, `test` being the
comparison with the atom. -/
def parentAtomE (n : Ptr) (test : Atom → Bool) : Except Fault Bool :=
  if n.parent.isSome then
    match deref n.parent with
    | .error e => .error e
    | .ok p => .ok (test p.DataAtom)
  else .ok false

/-- Source: `replaceTagsCodePre` (replacers.go:56), with the pointers checked. -/
def replaceTagsCodePreE : replaceFnE := fun c n =>
  match preCodeCondE n with
  | .error e => .error e
  | .ok true =>
    match deref n.node.FirstChild with
    | .error e => .error e
    | .ok fc =>
      match deref fc.FirstChild with
      | .error e => .error e
      | .ok t => .ok (['\n', '\n', ' ', ' ', ' ', ' '] ++ indentNewlines t.Data ++ ['\n', '\n'])
  | .ok false =>
    if n.node.DataAtom.isCode then
      let siblings := n.noSiblings
      match parentAtomE n Atom.isPre with
      | .error e => .error e
      | .ok isPre =>
        let code := isPre && siblings
        .ok (if !code && decide (goLen c > 0) then [backtick] ++ c ++ [backtick] else c)
    else .ok c

/-- Source: `replaceTagsLi` (replacers.go:134), with the pointers checked. -/
def replaceTagsLiE : replaceFnE := fun c n =>
  let data := trimLeftFunc c unicodeIsSpace
  let data := indentNewlines data
  if n.parent.isSome then
    match deref n.parent with
    | .error e => .error e
    | .ok p =>
      let i := liCount n.idx 0 p.Children 0
      .ok ((if p.DataAtom.isOl then fmtDecimal i ++ ['.', ' ', ' ', ' ']
        else ['*', ' ', ' ', ' ']) ++ data)
  else .ok (['*', ' ', ' ', ' '] ++ data)

/-- Source: `replaceTagsUlOl` (replacers.go:161), with the pointers checked. -/
def replaceTagsUlOlE : replaceFnE := fun _ n =>
  let l := liData n.node.Children
  match parentAtomE n Atom.isLi with
  | .error e => .error e
  | .ok nested =>
    .ok (if nested then ['\n'] ++ stringsJoin l ['\n']
      else ['\n', '\n'] ++ stringsJoin l ['\n'] ++ ['\n', '\n'])

/-- A worklist entry whose rule may fault. -/
structure htmlReplaceE where
  nodePtr : List Nat
  replacer : replaceFnE

/-- The `switch c.DataAtom` of `prepareChildrenReplacers`, registering the
checked rules. -/
def atomReplacerE (strip : Bool) : Atom → Option replaceFnE
  | .Br => some (liftRule replaceTagsBr)
  | .H1 | .H2 | .H3 | .H4 | .H5 | .H6 => some (liftRule replaceTagsH)
  | .Hr => some (liftRule replaceTagsHr)
  | .I | .Em => some (liftRule replaceTagsEmI)
  | .B | .Strong => some (liftRule replaceTagsStrongB)
  | .Code | .Pre => some replaceTagsCodePreE
  | .A => some (liftRule replaceTagsA)
  | .Blockquote => some (liftRule replaceTagsBlockquote)
  | .Li => some replaceTagsLiE
  | .Ul | .Ol => some replaceTagsUlOlE
  | .Address | .Article | .Aside | .Audio | .Body | .Canvas | .Center | .Dd
  | .Dir | .Div | .Dl | .Dt | .Fieldset | .Figcaption | .Figure | .Footer
  | .Form | .Frameset | .Header | .Hgroup | .Html | .Isindex | .Menu | .Nav
  | .Noframes | .Noscript | .Output | .P | .Span | .Section | .Table | .Tbody
  | .Td | .Tfoot | .Th | .Thead | .Tr => some (liftRule replaceTagsBlocks)
  | .Unknown => if !strip then some (liftRule replaceTagsOther) else none
  | _ => none

/-- The branch on `c.Type` of `prepareChildrenReplacers`, registering the
checked rules. -/
def childReplacerE (strip : Bool) (c : Node) : Option replaceFnE :=
  match c.Typ with
  | .ElementNode => atomReplacerE strip c.DataAtom
  | .TextNode => some (liftRule replaceText)
  | _ => none

mutual
/-- Source: `prepareChildrenReplacers` (html2md.go:120), registering the
checked rules. -/
def prepareChildrenReplacersE (path : List Nat) (strip : Bool) :
    Node → List htmlReplaceE × Node
  | ⟨ty, a, d, attr, cs⟩ =>
    let r := prepareChildrenLoopE path strip 0 cs
    (r.1, ⟨ty, a, d, attr, r.2⟩)
termination_by structural n => n
/-- The loop over the children of `prepareChildrenReplacers`, registering the
checked rules. -/
def prepareChildrenLoopE (path : List Nat) (strip : Bool) :
    Nat → List Node → List htmlReplaceE × List Node
  | _, [] => ([], [])
  | i, c :: rest =>
    let own : List htmlReplaceE :=
      match childReplacerE strip c with
      | some f => [⟨path ++ [i], f⟩]
      | none => []
    let sub := prepareChildrenReplacersE (path ++ [i]) strip c
    let c1 : Node :=
      match childReplacerE strip c with
      | some _ => sub.2
      | none => { sub.2 with Data := [] }
    let r := prepareChildrenLoopE path strip (i + 1) rest
    (own ++ sub.1 ++ r.1, c1 :: r.2)
termination_by structural _ l => l
end

/-- One round of the loop of `process` (html2md.go:54-59) with its checks: the
node pointer of the entry has to address a node of the tree. -/
def runReplacerE (hr : htmlReplaceE) (doc : Node) : Except Fault Node :=
  match getPtr doc hr.nodePtr with
  | none => .error .nilDeref
  | some p =>
    match getNodeSpacesE p with
    | .error e => .error e
    | .ok lt =>
      match hr.replacer (getNodeContent p.node true) p with
      | .error e => .error e
      | .ok replaced => .ok (setData doc hr.nodePtr (lt.1 ++ replaced ++ lt.2))

/-- The loop of `process` with its checks, from the last entry to the first;
a fault ends the run. -/
def runReplacersE : List htmlReplaceE → Node → Except Fault Node
  | [], doc => .ok doc
  | hr :: rest, doc =>
    match runReplacersE rest doc with
    | .error e => .error e
    | .ok d => runReplacerE hr d

/-- Source: `parser.process` (html2md.go:44) with its checks, from the parsed
document to the text written. -/
def processE (doc : Node) (strip : Bool) : Except Fault (List Char) :=
  let r := prepareChildrenReplacersE [] strip doc
  match runReplacersE r.1 r.2 with
  | .error e => .error e
  | .ok d => .ok (normalizeMd (getNodeContent d true))

/-! ## Vocabulary of the proofs -/

/-- No suffix of the text has a match (the matcher being asked away from the
beginning of the text). -/
def NoMatch (m : Matcher) : List Char → Prop
  | [] => True
  | c :: rest => m false (c :: rest) = none ∧ NoMatch m rest

/-- The second pass of `normalizeMd`, from any position. -/
abbrev passNlW (s : List Char) : List Char :=
  replaceAllAux reMultiNlW ['\n', '\n'] 0 false s

/-- The text is empty or starts with a character outside `\s`. -/
def StartsNonWs (v : List Char) : Prop := ∀ c, v.head? = some c → reSpace c = false

/-- The text does not begin with a character of `[\t\r\n]` and does not end
with a character of `\s`. -/
def Edge (u : List Char) : Prop :=
  (∀ c, u.head? = some c → reTRN c = false) ∧ (∀ d, u.getLast? = some d → reSpace d = false)

/-- The edge trim away from the beginning of the text. -/
abbrev trimEnd (s : List Char) : List Char := replaceAllAux reMultiLTR [] 0 false s

/-- The tree with the children of the node at a path replaced. -/
abbrev withChildrenAt (D : Node) (p : List Nat) (X : List Node) : Node :=
  updateAt (fun m => { m with Children := X }) D p

/-- The pass `\s+` of `normalizeText`, from any position. -/
abbrev passWs (s : List Char) : List Char := replaceAllAux reMultiWs [' '] 0 false s

/-- The body of the tree of `docOf`, with the children `cs`. -/
abbrev bodyOf (cs : List Node) : Node := ⟨.ElementNode, .Body, "body".toList, [], cs⟩

/-- The output of `replaceTagsBlocks`, which does not look at the node. -/
abbrev blockFrame (c : List Char) : List Char :=
  if goLen c = 0 then [] else ['\n', '\n'] ++ c ++ ['\n', '\n']

/-- The content of the body of `docOf content` once the engine has run. -/
abbrev bodyContent (content : List Node) (strip : Bool) : List Char :=
  contentLoop true (runChildren strip bodyOf [] (prepareChildrenLoop [0, 1] strip 0 content).2)

/-- A checked rule that returns, on every input, the value of a rule. -/
def RuleOk (g : replaceFnE) (f : replaceFn) : Prop := ∀ c n, g c n = .ok (f c n)

/-- A checked worklist entry for the same node as a worklist entry, with a
rule that never faults. -/
def EntryOk (e : htmlReplaceE) (h : htmlReplace) : Prop :=
  e.nodePtr = h.nodePtr ∧ RuleOk e.replacer h.replacer

/-! ## Generic facts about the replacement scan -/

theorem replaceAllAux_skip (m : Matcher) (repl : List Char) (k : Nat) (b : Bool) (s : List Char) :
    replaceAllAux m repl (k + 1) b s = replaceAllAux m repl 0 false (s.drop (k + 1)) := by
  induction s generalizing k b with
  | nil => simp [replaceAllAux]
  | cons c rest ih =>
    cases k with
    | zero => simp [replaceAllAux]
    | succ k => simp only [replaceAllAux, List.drop_succ_cons]; exact ih k false

theorem replaceAllAux_none (m : Matcher) (repl : List Char) (b : Bool) (c : Char)
    (rest : List Char) (h : m b (c :: rest) = none) :
    replaceAllAux m repl 0 b (c :: rest) = c :: replaceAllAux m repl 0 false rest := by
  simp [replaceAllAux, h]

theorem replaceAllAux_some (m : Matcher) (repl : List Char) (b : Bool) (c : Char)
    (rest : List Char) (k : Nat) (h : m b (c :: rest) = some (k + 1)) :
    replaceAllAux m repl 0 b (c :: rest)
      = repl ++ replaceAllAux m repl 0 false (rest.drop k) := by
  simp only [replaceAllAux, h]
  cases k with
  | zero => simp
  | succ k => rw [replaceAllAux_skip]

theorem replaceAllAux_noMatch (m : Matcher) (repl : List Char) (s : List Char)
    (h : NoMatch m s) : replaceAllAux m repl 0 false s = s := by
  induction s with
  | nil => simp [replaceAllAux]
  | cons c rest ih =>
    obtain ⟨h1, h2⟩ := h
    rw [replaceAllAux_none m repl false c rest h1, ih h2]

theorem replaceAllString_noMatch (m : Matcher) (repl : List Char) (s : List Char)
    (h0 : m true s = none) (h : NoMatch m s) : replaceAllString m s repl = s := by
  unfold replaceAllString
  cases s with
  | nil => simp [replaceAllAux]
  | cons c rest =>
    rw [replaceAllAux_none m repl true c rest h0, replaceAllAux_noMatch m repl rest h.2]

/-! ## The pass `\n\s+\n` -/

theorem isNl_reSpace {c : Char} (h : isNl c = true) : reSpace c = true := by
  simp only [isNl, beq_iff_eq] at h
  subst h
  decide

theorem reMultiNlW_of_not_nl (b : Bool) (c : Char) (rest : List Char) (h : isNl c = false) :
    reMultiNlW b (c :: rest) = none := by
  simp [reMultiNlW, h]

theorem lastNl_eq_none {w : List Char} : lastNl w = none ↔ ∀ c ∈ w, isNl c = false := by
  induction w with
  | nil => simp [lastNl]
  | cons c rest ih =>
    simp only [lastNl, List.mem_cons, forall_eq_or_imp]
    cases h : lastNl rest with
    | none =>
      have := ih.mp h
      cases hc : isNl c
      · simpa using this
      · simp
    | some j =>
      simp only [reduceCtorEq, false_iff, not_and]
      intro _ hall
      rw [ih.mpr hall] at h
      cases h

theorem lastNl_some {w : List Char} {j : Nat} (h : lastNl w = some j) :
    j < w.length ∧ ∀ c ∈ w.drop (j + 1), isNl c = false := by
  induction w generalizing j with
  | nil => simp [lastNl] at h
  | cons c rest ih =>
    simp only [lastNl] at h
    cases h1 : lastNl rest with
    | none =>
      rw [h1] at h
      cases hc : isNl c
      · simp [hc] at h
      · simp only [hc, if_true, Option.some.injEq] at h
        subst h
        simpa using lastNl_eq_none.mp h1
    | some i =>
      rw [h1] at h
      simp only [Option.some.injEq] at h
      subst h
      obtain ⟨h2, h3⟩ := ih h1
      exact ⟨by simpa using h2, by simpa using h3⟩

theorem startsNonWs_dropWhile (l : List Char) : StartsNonWs (l.dropWhile reSpace) := by
  induction l with
  | nil => intro c h; simp at h
  | cons a rest ih =>
    cases ha : reSpace a
    · intro c h
      rw [List.dropWhile_cons_of_neg (by simp [ha])] at h
      simp only [List.head?_cons, Option.some.injEq] at h
      subst h
      exact ha
    · rw [List.dropWhile_cons_of_pos ha]
      exact ih

theorem takeWhile_append_startsNonWs {w v : List Char} (hw : ∀ c ∈ w, reSpace c = true)
    (hv : StartsNonWs v) : (w ++ v).takeWhile reSpace = w := by
  induction w with
  | nil =>
    cases v with
    | nil => rfl
    | cons a rest =>
      have := hv a rfl
      simp [List.takeWhile_cons, this]
  | cons a rest ih =>
    have ha := hw a (List.mem_cons_self _ _)
    simp only [List.cons_append, List.takeWhile_cons, ha, if_true]
    rw [ih (fun c hc => hw c (List.mem_cons_of_mem _ hc))]

theorem passNlW_append_of_no_nl (w v : List Char) (hw : ∀ c ∈ w, isNl c = false) :
    passNlW (w ++ v) = w ++ passNlW v := by
  induction w with
  | nil => rfl
  | cons a rest ih =>
    have ha := hw a (List.mem_cons_self _ _)
    simp only [passNlW, List.cons_append]
    rw [replaceAllAux_none _ _ _ _ _ (reMultiNlW_of_not_nl false a _ ha)]
    exact congrArg _ (ih (fun c hc => hw c (List.mem_cons_of_mem _ hc)))

theorem startsNonWs_passNlW {v : List Char} (hv : StartsNonWs v) : StartsNonWs (passNlW v) := by
  cases v with
  | nil => intro c h; simp [passNlW, replaceAllAux] at h
  | cons a rest =>
    have ha := hv a rfl
    have hnl : isNl a = false := by
      cases h : isNl a
      · rfl
      · rw [isNl_reSpace h] at ha; cases ha
    simp only [passNlW]
    rw [replaceAllAux_none _ _ _ _ _ (reMultiNlW_of_not_nl false a _ hnl)]
    intro c h
    simp only [List.head?_cons, Option.some.injEq] at h
    subst h
    exact ha

/-- Shape of a text at a newline: the run of `\s` after it and the rest. -/
theorem split_run (rest : List Char) :
    rest = rest.takeWhile reSpace ++ rest.dropWhile reSpace ∧
    (∀ c ∈ rest.takeWhile reSpace, reSpace c = true) ∧
    StartsNonWs (rest.dropWhile reSpace) :=
  ⟨(List.takeWhile_append_dropWhile _ _).symm,
   fun _ hc => (List.mem_takeWhile_imp hc), startsNonWs_dropWhile rest⟩

theorem reMultiNlW_run_none (b : Bool) (c : Char) (w v : List Char)
    (hw : ∀ x ∈ w, reSpace x = true) (hv : StartsNonWs v)
    (ht : ∀ x ∈ w.tail, isNl x = false) : reMultiNlW b (c :: (w ++ v)) = none := by
  simp only [reMultiNlW, takeWhile_append_startsNonWs hw hv]
  cases w with
  | nil => simp
  | cons a w1 =>
    simp only [List.tail_cons] at ht
    simp [lastNl_eq_none.mpr ht]

/-- A run of `\s` with no newline after its first character is copied. -/
theorem passNlW_run_copy (w v : List Char) (hw : ∀ x ∈ w, reSpace x = true)
    (hv : StartsNonWs v) (ht : ∀ x ∈ w.tail, isNl x = false) :
    passNlW (w ++ v) = w ++ passNlW v := by
  cases w with
  | nil => rfl
  | cons a w1 =>
    simp only [List.tail_cons] at ht
    have hw1 : ∀ x ∈ w1, reSpace x = true := fun x hx => hw x (List.mem_cons_of_mem _ hx)
    have hnone : reMultiNlW false (a :: (w1 ++ v)) = none :=
      reMultiNlW_run_none false a w1 v hw1 hv
        (fun x hx => ht x (List.mem_of_mem_tail hx))
    simp only [passNlW, List.cons_append]
    rw [replaceAllAux_none _ _ _ _ _ hnone]
    exact congrArg _ (passNlW_append_of_no_nl w1 v ht)

/-- At a position without a match the character is copied, and the run of `\s`
after it too. -/
theorem passNlW_nomatch (c : Char) (rest : List Char)
    (h : reMultiNlW false (c :: rest) = none) :
    passNlW (c :: rest) = c :: passNlW rest := replaceAllAux_none _ _ _ _ _ h

/-- At a match, the two newlines are followed by what is left of the run
after its last newline, then by the converted rest. -/
theorem passNlW_match (c a : Char) (rest w1 : List Char) (j : Nat) (hc : isNl c = true)
    (hrun : rest.takeWhile reSpace = a :: w1) (hj : lastNl w1 = some j) :
    passNlW (c :: rest)
      = '\n' :: '\n' :: (w1.drop (j + 1) ++ passNlW (rest.dropWhile reSpace)) := by
  have hm : reMultiNlW false (c :: rest) = some (j + 2 + 1) := by
    simp [reMultiNlW, hc, hrun, hj]
  obtain ⟨hlt, hno⟩ := lastNl_some hj
  have hsplit : rest = a :: (w1 ++ rest.dropWhile reSpace) := by
    have := (List.takeWhile_append_dropWhile reSpace rest).symm
    rw [hrun] at this
    simpa using this
  simp only [passNlW]
  rw [replaceAllAux_some _ _ _ _ _ _ hm]
  have hdrop : rest.drop (j + 2) = w1.drop (j + 1) ++ rest.dropWhile reSpace := by
    conv_lhs => rw [hsplit]
    rw [List.drop_succ_cons, List.drop_append_of_le_length (by omega)]
  rw [hdrop]
  have := passNlW_append_of_no_nl (w1.drop (j + 1)) (rest.dropWhile reSpace) hno
  simp only [passNlW] at this
  rw [this]
  rfl

theorem noMatch_append_of_no_nl (w v : List Char) (hw : ∀ x ∈ w, isNl x = false)
    (hv : NoMatch reMultiNlW v) : NoMatch reMultiNlW (w ++ v) := by
  induction w with
  | nil => exact hv
  | cons a rest ih =>
    exact ⟨reMultiNlW_of_not_nl false a _ (hw a (List.mem_cons_self _ _)),
      ih (fun x hx => hw x (List.mem_cons_of_mem _ hx))⟩

theorem noMatch_passNlW_aux (n : Nat) : ∀ u : List Char, u.length ≤ n →
    NoMatch reMultiNlW (passNlW u) := by
  induction n with
  | zero =>
    intro u hu
    have : u = [] := List.length_eq_zero.mp (Nat.le_zero.mp hu)
    subst this
    simp [passNlW, replaceAllAux, NoMatch]
  | succ n ih =>
    intro u hu
    cases u with
    | nil => simp [passNlW, replaceAllAux, NoMatch]
    | cons c rest =>
      have hrest : rest.length ≤ n := by simpa using hu
      obtain ⟨hsplit, hws, hsn⟩ := split_run rest
      cases hc : isNl c with
      | false =>
        rw [passNlW_nomatch c rest (reMultiNlW_of_not_nl false c rest hc)]
        exact ⟨reMultiNlW_of_not_nl false c _ hc, ih rest hrest⟩
      | true =>
        cases hrun : rest.takeWhile reSpace with
        | nil =>
          have hnone : reMultiNlW false (c :: rest) = none := by
            simp [reMultiNlW, hrun]
          rw [passNlW_nomatch c rest hnone]
          refine ⟨?_, ih rest hrest⟩
          rw [hrun] at hsplit
          have hs2 : StartsNonWs rest := by
            have := hsn; rw [← List.nil_append (List.dropWhile reSpace rest), ← hsplit] at this
            exact this
          have := reMultiNlW_run_none false c [] (passNlW rest) (by simp)
            (startsNonWs_passNlW hs2) (by simp)
          simpa using this
        | cons a w1 =>
          rw [hrun] at hsplit hws
          have hw1 : ∀ x ∈ w1, reSpace x = true := fun x hx => hws x (List.mem_cons_of_mem _ hx)
          have hsn2 := startsNonWs_passNlW hsn
          cases hj : lastNl w1 with
          | none =>
            have hnone : reMultiNlW false (c :: rest) = none := by
              simp [reMultiNlW, hrun, hj]
            rw [passNlW_nomatch c rest hnone]
            refine ⟨?_, ih rest hrest⟩
            have hcopy := passNlW_run_copy (a :: w1) (rest.dropWhile reSpace) hws hsn
              (by simpa using lastNl_eq_none.mp hj)
            rw [← hsplit] at hcopy
            rw [hcopy]
            exact reMultiNlW_run_none false c (a :: w1) _ hws hsn2
              (by simpa using lastNl_eq_none.mp hj)
          | some j =>
            obtain ⟨hlt, hno⟩ := lastNl_some hj
            rw [passNlW_match c a rest w1 j hc hrun hj]
            have hw2 : ∀ x ∈ w1.drop (j + 1), reSpace x = true :=
              fun x hx => hw1 x (List.mem_of_mem_drop hx)
            have hlen : (rest.dropWhile reSpace).length ≤ n := by
              have := congrArg List.length hsplit
              simp only [List.length_append, List.length_cons] at this
              omega
            refine ⟨?_, ?_, ?_⟩
            · have := reMultiNlW_run_none false '\n' ('\n' :: w1.drop (j + 1)) _
                (by
                  intro x hx
                  rcases List.mem_cons.mp hx with h | h
                  · subst h; decide
                  · exact hw2 x h) hsn2 (by simpa using hno)
              simpa using this
            · exact reMultiNlW_run_none false '\n' (w1.drop (j + 1)) _ hw2 hsn2
                (fun x hx => hno x (List.mem_of_mem_tail hx))
            · exact noMatch_append_of_no_nl _ _ hno (ih _ hlen)

/-- After the second pass no position of the text matches `\n\s+\n`. -/
theorem noMatch_passNlW (u : List Char) : NoMatch reMultiNlW (passNlW u) :=
  noMatch_passNlW_aux u.length u (Nat.le_refl _)

/-! ## Last characters -/

theorem getLast?_cons_of_some {l : List Char} {d : Char} (c : Char)
    (h : l.getLast? = some d) : (c :: l).getLast? = some d := by
  rw [List.getLast?_cons, h]; rfl

theorem getLast?_append_of_some {l2 : List Char} {d : Char} (l1 : List Char)
    (h : l2.getLast? = some d) : (l1 ++ l2).getLast? = some d := by
  rw [List.getLast?_append, h]; rfl

theorem mem_of_getLast? {l : List Char} {d : Char} (h : l.getLast? = some d) : d ∈ l := by
  obtain ⟨ys, rfl⟩ := List.getLast?_eq_some_iff.mp h
  simp

theorem getLast?_dropWhile {l : List Char} {d : Char} (p : Char → Bool)
    (h : l.getLast? = some d) (hd : p d = false) : (l.dropWhile p).getLast? = some d := by
  induction l with
  | nil => simp at h
  | cons a rest ih =>
    cases ha : p a
    · rw [List.dropWhile_cons_of_neg (by simp [ha])]; exact h
    · rw [List.dropWhile_cons_of_pos ha]
      cases rest with
      | nil =>
        simp only [List.getLast?_singleton, Option.some.injEq] at h
        subst h
        rw [ha] at hd; cases hd
      | cons b r => exact ih (by simpa using h)

theorem getLast?_passNlW_aux (n : Nat) : ∀ (u : List Char) (d : Char), u.length ≤ n →
    u.getLast? = some d → reSpace d = false → (passNlW u).getLast? = some d := by
  induction n with
  | zero =>
    intro u d hu h _
    have : u = [] := List.length_eq_zero.mp (Nat.le_zero.mp hu)
    subst this
    simp at h
  | succ n ih =>
    intro u d hu h hd
    cases u with
    | nil => simp at h
    | cons c rest =>
      have hrest : rest.length ≤ n := by simpa using hu
      have hcopy : reMultiNlW false (c :: rest) = none →
          (passNlW (c :: rest)).getLast? = some d := by
        intro hnone
        rw [passNlW_nomatch c rest hnone]
        cases rest with
        | nil => simpa [passNlW, replaceAllAux] using h
        | cons b r =>
          exact getLast?_cons_of_some c (ih (b :: r) d hrest (by simpa using h) hd)
      cases hc : isNl c with
      | false => exact hcopy (reMultiNlW_of_not_nl false c rest hc)
      | true =>
        cases hrun : rest.takeWhile reSpace with
        | nil => exact hcopy (by simp [reMultiNlW, hrun])
        | cons a w1 =>
          cases hj : lastNl w1 with
          | none => exact hcopy (by simp [reMultiNlW, hrun, hj])
          | some j =>
            rw [passNlW_match c a rest w1 j hc hrun hj]
            have hne : rest ≠ [] := by
              intro h0; subst h0; simp at hrun
            have hlast : rest.getLast? = some d := by
              cases rest with
              | nil => exact absurd rfl hne
              | cons b r => simpa using h
            have htail := getLast?_dropWhile reSpace hlast hd
            have hlen : (rest.dropWhile reSpace).length ≤ n := by
              have := congrArg List.length (List.takeWhile_append_dropWhile reSpace rest)
              simp only [List.length_append] at this
              omega
            have := ih _ d hlen htail hd
            exact getLast?_cons_of_some _ (getLast?_cons_of_some _
              (getLast?_append_of_some _ this))

theorem getLast?_passNlW (u : List Char) (d : Char) (h : u.getLast? = some d)
    (hd : reSpace d = false) : (passNlW u).getLast? = some d :=
  getLast?_passNlW_aux u.length u d (Nat.le_refl _) h hd

/-! ## The edge trim `^[\t\r\n]+|[\t\r\n\s]+$` -/

theorem reTRNS_eq (c : Char) : reTRNS c = reSpace c := by
  unfold reTRNS reSpace
  cases c == '\t' <;> cases c == '\n' <;> cases c == '\r' <;> simp

theorem reTRN_reSpace {c : Char} (h : reTRN c = true) : reSpace c = true := by
  unfold reTRN at h
  unfold reSpace
  cases h1 : c == '\t' <;> cases h2 : c == '\n' <;> cases h3 : c == '\r' <;> simp_all

theorem reMultiLTR_false (s : List Char) :
    reMultiLTR false s = if !s.isEmpty && s.all reSpace then some s.length else none := by
  have h : reTRNS = reSpace := funext reTRNS_eq
  simp [reMultiLTR, h]

theorem trimEnd_spec (u : List Char) :
    (u.all reSpace = true → trimEnd u = []) ∧
    (u.all reSpace = false →
      (trimEnd u).head? = u.head? ∧ ∃ d, (trimEnd u).getLast? = some d ∧ reSpace d = false) := by
  induction u with
  | nil => simp [trimEnd, replaceAllAux]
  | cons c rest ih =>
    constructor
    · intro hall
      have hm : reMultiLTR false (c :: rest) = some (rest.length + 1) := by
        rw [reMultiLTR_false]; simp [hall]
      simp only [trimEnd]
      rw [replaceAllAux_some _ _ _ _ _ _ hm]
      simp [replaceAllAux]
    · intro hall
      have hm : reMultiLTR false (c :: rest) = none := by
        rw [reMultiLTR_false]; simp [hall]
      simp only [trimEnd]
      rw [replaceAllAux_none _ _ _ _ _ hm]
      refine ⟨rfl, ?_⟩
      cases hr : rest.all reSpace with
      | true =>
        have := ih.1 hr
        simp only [trimEnd] at this
        rw [this]
        refine ⟨c, rfl, ?_⟩
        simp only [List.all_cons, hr, Bool.and_true] at hall
        exact hall
      | false =>
        obtain ⟨_, d, h1, h2⟩ := ih.2 hr
        exact ⟨d, getLast?_cons_of_some c h1, h2⟩

theorem edge_trimEnd (u : List Char) (h : ∀ c, u.head? = some c → reTRN c = false) :
    Edge (trimEnd u) := by
  cases hall : u.all reSpace with
  | true =>
    rw [(trimEnd_spec u).1 hall]
    exact ⟨fun c hc => by simp at hc, fun d hd => by simp at hd⟩
  | false =>
    obtain ⟨h1, d, h2, h3⟩ := (trimEnd_spec u).2 hall
    refine ⟨fun c hc => h c (h1 ▸ hc), fun e he => ?_⟩
    rw [h2] at he
    cases he
    exact h3

theorem head?_dropWhile_reTRN (s : List Char) :
    ∀ c, (s.dropWhile reTRN).head? = some c → reTRN c = false := by
  induction s with
  | nil => intro c h; simp at h
  | cons a rest ih =>
    cases ha : reTRN a
    · intro c h
      rw [List.dropWhile_cons_of_neg (by simp [ha])] at h
      simp only [List.head?_cons, Option.some.injEq] at h
      subst h; exact ha
    · rw [List.dropWhile_cons_of_pos ha]; exact ih

theorem drop_length_takeWhile (p : Char → Bool) (s : List Char) :
    s.drop (s.takeWhile p).length = s.dropWhile p := by
  have h := List.drop_left (s.takeWhile p) (s.dropWhile p)
  rwa [List.takeWhile_append_dropWhile] at h

/-- The first pass yields a text with trimmed edges. -/
theorem edge_passLTR (s : List Char) : Edge (replaceAllString reMultiLTR s []) := by
  unfold replaceAllString
  cases s with
  | nil => exact ⟨fun c hc => by simp [replaceAllAux] at hc, fun d hd => by simp [replaceAllAux] at hd⟩
  | cons c rest =>
    cases hc : reTRN c with
    | true =>
      have hm : reMultiLTR true (c :: rest)
          = some ((rest.takeWhile reTRN).length + 1) := by
        simp [reMultiLTR, List.takeWhile_cons, hc]
      rw [replaceAllAux_some _ _ _ _ _ _ hm, drop_length_takeWhile, List.nil_append]
      exact edge_trimEnd _ (head?_dropWhile_reTRN rest)
    | false =>
      have hm : reMultiLTR true (c :: rest) = reMultiLTR false (c :: rest) := by
        simp [reMultiLTR, List.takeWhile_cons, hc]
      have : replaceAllAux reMultiLTR [] 0 true (c :: rest) = trimEnd (c :: rest) := by
        simp only [trimEnd, replaceAllAux, hm]
      rw [this]
      exact edge_trimEnd _ (fun x hx => by
        simp only [List.head?_cons, Option.some.injEq] at hx
        subst hx; exact hc)

theorem noMatch_LTR_of_last (u : List Char) (h : ∀ d, u.getLast? = some d → reSpace d = false) :
    NoMatch reMultiLTR u := by
  induction u with
  | nil => trivial
  | cons c rest ih =>
    obtain ⟨d, hd⟩ : ∃ d, (c :: rest).getLast? = some d :=
      ⟨_, List.getLast?_eq_getLast _ (List.cons_ne_nil _ _)⟩
    have hmem := mem_of_getLast? hd
    have hall : (c :: rest).all reSpace = false := by
      rw [List.all_eq_false]
      exact ⟨d, hmem, by simp [h d hd]⟩
    refine ⟨by rw [reMultiLTR_false]; simp [hall], ih (fun e he => ?_)⟩
    exact h e (getLast?_cons_of_some c he)

/-- The first pass leaves a text with trimmed edges unchanged. -/
theorem passLTR_of_edge (u : List Char) (h : Edge u) : replaceAllString reMultiLTR u [] = u := by
  apply replaceAllString_noMatch _ _ _ _ (noMatch_LTR_of_last u h.2)
  cases u with
  | nil => simp [reMultiLTR]
  | cons c rest =>
    have hc := h.1 c rfl
    have hnm := (noMatch_LTR_of_last (c :: rest) h.2).1
    have : reMultiLTR true (c :: rest) = reMultiLTR false (c :: rest) := by
      simp [reMultiLTR, List.takeWhile_cons, hc]
    rw [this, hnm]

/-! ## The three passes together -/

theorem replaceAllString_NlW (s : List Char) :
    replaceAllString reMultiNlW s ['\n', '\n'] = passNlW s := by
  cases s with
  | nil => rfl
  | cons c rest => rfl

theorem reMultiNl_flag (b : Bool) (s : List Char) : reMultiNl b s = reMultiNl false s := rfl

theorem reMultiNl_none_of_NlW (c : Char) (rest : List Char)
    (h : reMultiNlW false (c :: rest) = none) : reMultiNl false (c :: rest) = none := by
  unfold reMultiNl
  simp only [ite_eq_right_iff, reduceCtorEq, imp_false, not_le]
  by_contra hlen
  simp only [not_lt] at hlen
  cases hc : isNl c with
  | false => simp [List.takeWhile_cons, hc] at hlen
  | true =>
    cases rest with
    | nil => simp [List.takeWhile_cons, hc] at hlen
    | cons a r1 =>
      cases ha : isNl a with
      | false => simp [List.takeWhile_cons, hc, ha] at hlen
      | true =>
        cases r1 with
        | nil => simp [List.takeWhile_cons, hc, ha] at hlen
        | cons b r2 =>
          cases hb : isNl b with
          | false => simp [List.takeWhile_cons, hc, ha, hb] at hlen
          | true =>
            have hsome : ∃ j, lastNl (List.takeWhile reSpace (b :: r2)) = some j := by
              cases hl : lastNl (List.takeWhile reSpace (b :: r2)) with
              | some j => exact ⟨j, rfl⟩
              | none =>
                have := lastNl_eq_none.mp hl b
                  (by simp [List.takeWhile_cons, isNl_reSpace hb])
                rw [hb] at this; cases this
            obtain ⟨j, hj⟩ := hsome
            have hrun : List.takeWhile reSpace (a :: b :: r2)
                = a :: List.takeWhile reSpace (b :: r2) := by
              rw [List.takeWhile_cons_of_pos (isNl_reSpace ha)]
            simp only [reMultiNlW, hc, if_true, hrun, hj] at h
            cases h

theorem noMatch_Nl_of_NlW (u : List Char) (h : NoMatch reMultiNlW u) : NoMatch reMultiNl u := by
  induction u with
  | nil => trivial
  | cons c rest ih => exact ⟨reMultiNl_none_of_NlW c rest h.1, ih h.2⟩

/-- The third pass finds nothing to do after the second. -/
theorem passNl_passNlW (u : List Char) :
    replaceAllString reMultiNl (passNlW u) ['\n', '\n'] = passNlW u := by
  have h := noMatch_Nl_of_NlW _ (noMatch_passNlW u)
  apply replaceAllString_noMatch _ _ _ _ h
  cases hp : passNlW u with
  | nil => rfl
  | cons c rest => rw [hp] at h; exact h.1

theorem normalizeMd_eq (s : List Char) :
    normalizeMd s = passNlW (replaceAllString reMultiLTR s []) := by
  simp only [normalizeMd, replaceAllString_NlW, passNl_passNlW]

theorem edge_passNlW (u : List Char) (h : Edge u) : Edge (passNlW u) := by
  constructor
  · cases u with
    | nil => intro c hc; simp [passNlW, replaceAllAux] at hc
    | cons a rest =>
      have ha := h.1 a rfl
      have hnl : isNl a = false := by
        cases hn : isNl a
        · rfl
        · simp only [isNl, beq_iff_eq] at hn
          subst hn
          exact absurd ha (by decide)
      rw [passNlW_nomatch a rest (reMultiNlW_of_not_nl false a rest hnl)]
      intro c hc
      simp only [List.head?_cons, Option.some.injEq] at hc
      subst hc; exact ha
  · cases hl : u.getLast? with
    | none =>
      rw [List.getLast?_eq_none_iff] at hl
      subst hl
      intro d hd; simp [passNlW, replaceAllAux] at hd
    | some e =>
      have he := h.2 e hl
      rw [getLast?_passNlW u e hl he]
      intro d hd; cases hd; exact he

theorem edge_normalizeMd (s : List Char) : Edge (normalizeMd s) := by
  rw [normalizeMd_eq]
  exact edge_passNlW _ (edge_passLTR s)

theorem noMatch_normalizeMd (s : List Char) : NoMatch reMultiNlW (normalizeMd s) := by
  rw [normalizeMd_eq]
  exact noMatch_passNlW _

/-- A text with trimmed edges and no match of `\n\s+\n` is a fixed point. -/
theorem normalizeMd_fixed (u : List Char) (he : Edge u) (hn : NoMatch reMultiNlW u) :
    normalizeMd u = u := by
  rw [normalizeMd_eq, passLTR_of_edge u he]
  exact replaceAllAux_noMatch _ _ _ hn

theorem noMatch_of_append (m : Matcher) (p t : List Char) (h : NoMatch m (p ++ t)) :
    NoMatch m t := by
  induction p with
  | nil => exact h
  | cons a rest ih => exact ih h.2

theorem reMultiNlW_blank_run (w post : List Char) (hne : w ≠ [])
    (hw : ∀ c ∈ w, reSpace c = true) :
    reMultiNlW false ('\n' :: (w ++ '\n' :: post)) ≠ none := by
  cases w with
  | nil => exact absurd rfl hne
  | cons a w1 =>
    have hrun : List.takeWhile reSpace (a :: w1 ++ '\n' :: post)
        = a :: (w1 ++ '\n' :: List.takeWhile reSpace post) := by
      rw [List.takeWhile_append_of_pos hw]
      simp [List.takeWhile_cons, reSpace]
    intro hnone
    simp only [reMultiNlW, hrun] at hnone
    have hd : isNl '\n' = true := by decide
    simp only [hd, if_true, Option.map_eq_none'] at hnone
    have := lastNl_eq_none.mp hnone '\n' (by simp)
    rw [hd] at this; cases this

/-! ## Paths: reading and writing a node of the tree -/

theorem setData_eq_updateAt (n : Node) (p : List Nat) (d : List Char) :
    setData n p d = updateAt (fun m => { m with Data := d }) n p := by
  induction p generalizing n with
  | nil => rfl
  | cons i rest ih =>
    simp only [setData, updateAt]
    cases n.Children[i]? with
    | none => rfl
    | some c => simp only [ih]

theorem getPtrFrom_snoc (par : Option Node) (idx : Nat) (n : Node) (p : List Nat) (i : Nat) :
    getPtrFrom par idx n (p ++ [i])
      = match nodeAt n p with
        | some P => (P.Children[i]?).map (fun c => (⟨c, some P, i⟩ : Ptr))
        | none => none := by
  induction p generalizing par idx n with
  | nil =>
    simp only [List.nil_append, getPtrFrom, nodeAt]
    cases n.Children[i]? <;> rfl
  | cons j rest ih =>
    simp only [List.cons_append, getPtrFrom, nodeAt]
    cases n.Children[j]? with
    | none => rfl
    | some c => exact ih _ _ _

theorem nodeAt_updateAt (g : Node → Node) (n m : Node) (p : List Nat)
    (h : nodeAt n p = some m) : nodeAt (updateAt g n p) p = some (g m) := by
  induction p generalizing n with
  | nil => simp only [nodeAt, Option.some.injEq] at h; subst h; rfl
  | cons i rest ih =>
    simp only [nodeAt] at h
    simp only [updateAt]
    cases hc : n.Children[i]? with
    | none => rw [hc] at h; cases h
    | some c =>
      rw [hc] at h
      have hi : i < n.Children.length := by
        by_contra hlt
        rw [List.getElem?_eq_none (by omega)] at hc
        cases hc
      simp only [nodeAt, List.getElem?_set_self hi]
      exact ih c h

theorem updateAt_updateAt (g h : Node → Node) (n : Node) (p : List Nat) :
    updateAt h (updateAt g n p) p = updateAt (fun m => h (g m)) n p := by
  induction p generalizing n with
  | nil => rfl
  | cons i rest ih =>
    simp only [updateAt]
    cases hc : n.Children[i]? with
    | none => simp only [updateAt, hc]
    | some c =>
      have hi : i < n.Children.length := by
        by_contra hlt
        rw [List.getElem?_eq_none (by omega)] at hc
        cases hc
      simp only [updateAt, List.getElem?_set_self hi, List.set_set, ih]

theorem updateAt_append (g : Node → Node) (n : Node) (p q : List Nat) :
    updateAt g n (p ++ q) = updateAt (fun m => updateAt g m q) n p := by
  induction p generalizing n with
  | nil => rfl
  | cons i rest ih =>
    simp only [List.cons_append, updateAt]
    cases n.Children[i]? with
    | none => rfl
    | some c =>
      have := ih c
      simp only [List.append_eq, this]

theorem updateAt_congr (g h : Node → Node) (n m : Node) (p : List Nat)
    (hm : nodeAt n p = some m) (hg : g m = h m) : updateAt g n p = updateAt h n p := by
  induction p generalizing n with
  | nil => simp only [nodeAt, Option.some.injEq] at hm; subst hm; exact hg
  | cons i rest ih =>
    simp only [nodeAt] at hm
    simp only [updateAt]
    cases hc : n.Children[i]? with
    | none => rfl
    | some c =>
      rw [hc] at hm
      simp only [ih c hm]

theorem getElem?_append_length (prevs : List Node) (c : Node) (R : List Node) :
    (prevs ++ c :: R)[prevs.length]? = some c := by
  rw [List.getElem?_append_right (Nat.le_refl _)]
  simp

theorem set_append_length (prevs : List Node) (c c1 : Node) (R : List Node) :
    (prevs ++ c :: R).set prevs.length c1 = prevs ++ c1 :: R := by
  simp

/-- Writing below a node whose children have just been replaced. -/
theorem updateAt_withChildrenAt (g : Node → Node) (D N : Node) (p : List Nat)
    (prevs : List Node) (c : Node) (R : List Node) (q : List Nat)
    (hN : nodeAt D p = some N) :
    updateAt g (withChildrenAt D p (prevs ++ c :: R)) (p ++ prevs.length :: q)
      = withChildrenAt D p (prevs ++ updateAt g c q :: R) := by
  rw [updateAt_append, updateAt_updateAt]
  apply updateAt_congr _ _ _ _ _ hN
  simp only [updateAt, getElem?_append_length, set_append_length]

theorem getPtr_withChildrenAt (D N : Node) (p : List Nat)
    (prevs : List Node) (c : Node) (R : List Node) (hN : nodeAt D p = some N) :
    getPtr (withChildrenAt D p (prevs ++ c :: R)) (p ++ [prevs.length])
      = some ⟨c, some { N with Children := prevs ++ c :: R }, prevs.length⟩ := by
  unfold getPtr
  rw [getPtrFrom_snoc, nodeAt_updateAt _ _ _ _ hN]
  simp only [getElem?_append_length, Option.map_some']

theorem nodeAt_snoc (n : Node) (p : List Nat) (i : Nat) :
    nodeAt n (p ++ [i])
      = match nodeAt n p with
        | some P => P.Children[i]?
        | none => none := by
  induction p generalizing n with
  | nil =>
    simp only [List.nil_append, nodeAt]
    cases n.Children[i]? <;> rfl
  | cons j rest ih =>
    simp only [List.cons_append, nodeAt]
    cases n.Children[j]? with
    | none => rfl
    | some c => exact ih _

/-! ## The worklist run, child by child -/

theorem updateAt_self (n : Node) (p : List Nat) : updateAt (fun m => m) n p = n := by
  induction p generalizing n with
  | nil => rfl
  | cons i rest ih =>
    simp only [updateAt]
    cases hc : n.Children[i]? with
    | none => rfl
    | some c =>
      simp only [ih]
      have : n.Children.set i c = n.Children := by
        apply List.ext_getElem? ; intro j
        by_cases hj : i = j
        · subst hj
          have hi : i < n.Children.length := by
            by_contra hlt
            rw [List.getElem?_eq_none (by omega)] at hc
            cases hc
          rw [List.getElem?_set_self hi, hc]
        · rw [List.getElem?_set_ne hj]
      rw [this]
      cases n; rfl

theorem withChildrenAt_self (D N : Node) (p : List Nat) (h : nodeAt D p = some N) :
    withChildrenAt D p N.Children = D := by
  have := updateAt_congr (fun m => { m with Children := N.Children }) (fun m => m) D N p h
    (by cases N; rfl)
  simp only [withChildrenAt]
  rw [this, updateAt_self]

theorem childReplacer_congr (strip : Bool) (c c1 : Node) (h1 : c1.Typ = c.Typ)
    (h2 : c1.DataAtom = c.DataAtom) : childReplacer strip c1 = childReplacer strip c := by
  unfold childReplacer
  rw [h1, h2]

theorem prepareChildrenLoop_cons (p : List Nat) (strip : Bool) (i : Nat)
    (ty : NodeType) (a : Atom) (d : List Char) (attr : List Attribute) (ccs rest : List Node) :
    prepareChildrenLoop p strip i (⟨ty, a, d, attr, ccs⟩ :: rest)
      = ((match childReplacer strip ⟨ty, a, d, attr, ccs⟩ with
          | some f => [(⟨p ++ [i], f⟩ : htmlReplace)]
          | none => [])
          ++ (prepareChildrenLoop (p ++ [i]) strip 0 ccs).1
          ++ (prepareChildrenLoop p strip (i + 1) rest).1,
         (match childReplacer strip ⟨ty, a, d, attr, ccs⟩ with
          | some _ => (⟨ty, a, d, attr, (prepareChildrenLoop (p ++ [i]) strip 0 ccs).2⟩ : Node)
          | none => ⟨ty, a, [], attr, (prepareChildrenLoop (p ++ [i]) strip 0 ccs).2⟩)
          :: (prepareChildrenLoop p strip (i + 1) rest).2) := by
  rw [prepareChildrenLoop]
  simp only [prepareChildrenReplacers]

theorem runInside_mk (strip : Bool) (ty : NodeType) (a : Atom) (d : List Char)
    (attr : List Attribute) (cs : List Node) :
    runInside strip ⟨ty, a, d, attr, cs⟩
      = runChildren strip (fun cs1 => ⟨ty, a, d, attr, cs1⟩) [] cs := by
  rw [runInside]

theorem runChildren_cons (strip : Bool) (mk : List Node → Node) (prevs : List Node)
    (c : Node) (rest : List Node) :
    runChildren strip mk prevs (c :: rest)
      = match childReplacer strip c with
        | none =>
          { c with Children := runInside strip c } :: runChildren strip mk (prevs ++ [c]) rest
        | some f =>
          applyReplacer f ⟨{ c with Children := runInside strip c },
              some (mk (prevs ++ { c with Children := runInside strip c }
                :: runChildren strip mk (prevs ++ [c]) rest)), prevs.length⟩
            :: runChildren strip mk (prevs ++ [c]) rest := by
  rw [runChildren]

theorem run_loop_aux (strip : Bool) (n : Nat) : ∀ (cs : List Node), sizeOf cs ≤ n →
    ∀ (p : List Nat) (D N : Node) (prevs : List Node),
    nodeAt D p = some N →
    N.Children = prevs ++ (prepareChildrenLoop p strip prevs.length cs).2 →
    (prepareChildrenLoop p strip prevs.length cs).1.foldr runReplacer D
      = withChildrenAt D p
          (prevs ++ runChildren strip (fun cs1 => { N with Children := cs1 }) prevs
            (prepareChildrenLoop p strip prevs.length cs).2) := by
  induction n with
  | zero =>
    intro cs hsz
    cases cs with
    | nil =>
      intro p D N prevs hN hch
      simp only [prepareChildrenLoop, List.foldr_nil, runChildren] at hch ⊢
      rw [← hch, withChildrenAt_self D N p hN]
    | cons c rest => simp at hsz
  | succ n ih =>
    intro cs hsz
    cases cs with
    | nil =>
      intro p D N prevs hN hch
      simp only [prepareChildrenLoop, List.foldr_nil, runChildren] at hch ⊢
      rw [← hch, withChildrenAt_self D N p hN]
    | cons c rest =>
      intro p D N prevs hN hch
      obtain ⟨ty, a, d, attr, ccs⟩ := c
      have hsz1 : sizeOf ccs ≤ n := by
        simp only [List.cons.sizeOf_spec, Node.mk.sizeOf_spec] at hsz
        omega
      have hsz2 : sizeOf rest ≤ n := by
        simp only [List.cons.sizeOf_spec, Node.mk.sizeOf_spec] at hsz
        omega
      rw [prepareChildrenLoop_cons] at hch ⊢
      simp only at hch ⊢
      -- the planned child, whatever its data
      obtain ⟨d1, hpc⟩ : ∃ d1 : List Char,
          (match childReplacer strip ⟨ty, a, d, attr, ccs⟩ with
            | some _ => (⟨ty, a, d, attr,
                (prepareChildrenLoop (p ++ [prevs.length]) strip 0 ccs).2⟩ : Node)
            | none => ⟨ty, a, [], attr,
                (prepareChildrenLoop (p ++ [prevs.length]) strip 0 ccs).2⟩)
          = ⟨ty, a, d1, attr, (prepareChildrenLoop (p ++ [prevs.length]) strip 0 ccs).2⟩ := by
        cases childReplacer strip ⟨ty, a, d, attr, ccs⟩
        · exact ⟨[], rfl⟩
        · exact ⟨d, rfl⟩
      rw [hpc] at hch ⊢
      generalize hL : prepareChildrenLoop (p ++ [prevs.length]) strip 0 ccs = L at hch ⊢
      generalize hr : prepareChildrenLoop p strip (prevs.length + 1) rest = r at hch ⊢
      have hcr : childReplacer strip ⟨ty, a, d1, attr, L.2⟩
          = childReplacer strip ⟨ty, a, d, attr, ccs⟩ := childReplacer_congr _ _ _ rfl rfl
      -- the following siblings
      have h1 := ih rest hsz2 p D N (prevs ++ [⟨ty, a, d1, attr, L.2⟩]) hN
        (by simp only [List.length_append, List.length_singleton, hr, List.append_assoc,
              List.singleton_append]; exact hch)
      simp only [List.length_append, List.length_singleton, hr, List.append_assoc,
        List.singleton_append] at h1
      rw [runChildren_cons, hcr]
      generalize runChildren strip (fun cs1 => { N with Children := cs1 })
        (prevs ++ [⟨ty, a, d1, attr, L.2⟩]) r.2 = R at h1 ⊢
      -- the descendants
      have hN1 := nodeAt_updateAt
        (fun m => { m with Children := (prevs ++ ⟨ty, a, d1, attr, L.2⟩ :: R) }) D N p hN
      have h2 := ih ccs hsz1 (p ++ [prevs.length])
        (withChildrenAt D p (prevs ++ ⟨ty, a, d1, attr, L.2⟩ :: R))
        ⟨ty, a, d1, attr, L.2⟩ []
        (by rw [nodeAt_snoc, hN1]; exact getElem?_append_length _ _ _)
        (by simp only [List.length_nil, hL, List.nil_append])
      simp only [List.length_nil, hL, List.nil_append] at h2
      simp only [runInside_mk]
      generalize runChildren strip (fun cs1 => (⟨ty, a, d1, attr, cs1⟩ : Node)) [] L.2 = C at h2 ⊢
      have h3 := updateAt_withChildrenAt (fun m => { m with Children := C }) D N p prevs
        ⟨ty, a, d1, attr, L.2⟩ R [] hN
      simp only [withChildrenAt] at h2 h3
      rw [List.foldr_append, List.foldr_append, h1, h2, h3]
      simp only [updateAt]
      cases hc : childReplacer strip ⟨ty, a, d, attr, ccs⟩ with
      | none =>
        simp only [List.foldr_nil]
      | some f =>
        simp only [List.foldr_cons, List.foldr_nil]
        unfold runReplacer
        have hp := getPtr_withChildrenAt D N p prevs ⟨ty, a, d1, attr, C⟩ R hN
        simp only [withChildrenAt] at hp
        rw [hp]
        simp only [setData_eq_updateAt]
        simp only [applyReplacer]
        generalize (getNodeSpaces ⟨⟨ty, a, d1, attr, C⟩,
            some { N with Children := (prevs ++ ⟨ty, a, d1, attr, C⟩ :: R) }, prevs.length⟩).1
          ++ f (getNodeContent ⟨ty, a, d1, attr, C⟩ true) ⟨⟨ty, a, d1, attr, C⟩,
            some { N with Children := (prevs ++ ⟨ty, a, d1, attr, C⟩ :: R) }, prevs.length⟩
          ++ (getNodeSpaces ⟨⟨ty, a, d1, attr, C⟩,
            some { N with Children := (prevs ++ ⟨ty, a, d1, attr, C⟩ :: R) }, prevs.length⟩).2
          = newData
        have h4 := updateAt_withChildrenAt (fun m => { m with Data := newData }) D N p prevs
          ⟨ty, a, d1, attr, C⟩ R [] hN
        simp only [withChildrenAt] at h4
        rw [h4]
        simp only [updateAt]

/-- The engine run equals the child-by-child description on the planned tree. -/
theorem convertTree_eq (doc : Node) (strip : Bool) :
    convertTree doc strip = runTree strip (prepareChildrenReplacers [] strip doc).2 := by
  obtain ⟨ty, a, d, attr, cs⟩ := doc
  have h := run_loop_aux strip (sizeOf cs) cs (Nat.le_refl _) []
    ⟨ty, a, d, attr, (prepareChildrenLoop [] strip 0 cs).2⟩
    ⟨ty, a, d, attr, (prepareChildrenLoop [] strip 0 cs).2⟩ [] rfl
    (by simp only [List.length_nil, List.nil_append])
  simp only [List.length_nil, List.nil_append, withChildrenAt, updateAt] at h
  simp only [convertTree, runReplacers, prepareChildrenReplacers, runTree, runInside_mk]
  exact h

theorem process_eq (doc : Node) (strip : Bool) :
    process doc strip
      = normalizeMd (getNodeContent (runTree strip (prepareChildrenReplacers [] strip doc).2) true) := by
  simp only [process, convertTree_eq]

/-! ## Facts about the string helpers -/

theorem goLen_eq_zero_iff (s : List Char) : goLen s = 0 ↔ s = [] := by
  cases s with
  | nil => simp [goLen]
  | cons c rest =>
    have := Char.utf8Size_pos c
    simp only [goLen, reduceCtorEq, iff_false]
    omega

theorem goLen_gt_one (a b : Char) (rest : List Char) : goLen (a :: b :: rest) > 1 := by
  have h1 := Char.utf8Size_pos a
  have h2 := Char.utf8Size_pos b
  simp only [goLen]
  omega

theorem reSpace_unicode {c : Char} (h : reSpace c = true) : unicodeIsSpace c = true := by
  unfold reSpace at h
  simp only [Bool.or_eq_true, beq_iff_eq] at h
  rcases h with (((h | h) | h) | h) | h <;> subst h <;> decide

theorem wsFree_not_reSpace {s : List Char} (h : WsFree s) : ∀ c ∈ s, reSpace c = false := by
  intro c hc
  cases hr : reSpace c
  · rfl
  · have := h c hc
    rw [reSpace_unicode hr] at this
    cases this

theorem wsFree_append {s t : List Char} (hs : WsFree s) (ht : WsFree t) : WsFree (s ++ t) := by
  intro c hc
  rcases List.mem_append.mp hc with h | h
  · exact hs c h
  · exact ht c h

theorem replaceAllString_Ws (s : List Char) : replaceAllString reMultiWs s [' '] = passWs s := by
  cases s <;> rfl

theorem passWs_copy (w v : List Char) (hw : ∀ c ∈ w, reSpace c = false) :
    passWs (w ++ v) = w ++ passWs v := by
  induction w with
  | nil => rfl
  | cons a rest ih =>
    have ha := hw a (List.mem_cons_self _ _)
    have hnone : reMultiWs false (a :: (rest ++ v)) = none := by
      simp [reMultiWs, List.takeWhile_cons, ha]
    simp only [passWs, List.cons_append]
    rw [replaceAllAux_none _ _ _ _ _ hnone]
    exact congrArg _ (ih (fun c hc => hw c (List.mem_cons_of_mem _ hc)))

theorem passWs_run (a v : List Char) (hne : a ≠ []) (ha : ∀ c ∈ a, reSpace c = true)
    (hv : StartsNonWs v) : passWs (a ++ v) = ' ' :: passWs v := by
  cases a with
  | nil => exact absurd rfl hne
  | cons x rest =>
    have hrun := takeWhile_append_startsNonWs ha hv
    have hm : reMultiWs false (x :: (rest ++ v)) = some (rest.length + 1) := by
      simp only [reMultiWs]
      rw [← List.cons_append, hrun]
      simp
    simp only [passWs, List.cons_append]
    rw [replaceAllAux_some _ _ _ _ _ _ hm]
    simp

theorem passWs_nil : passWs [] = [] := rfl

theorem startsNonWs_of_wsFree {w : List Char} (v : List Char) (hw : WsFree w) (hne : w ≠ []) :
    StartsNonWs (w ++ v) := by
  cases w with
  | nil => exact absurd rfl hne
  | cons a rest =>
    intro c hc
    simp only [List.cons_append, List.head?_cons, Option.some.injEq] at hc
    subst hc
    exact wsFree_not_reSpace hw _ (List.mem_cons_self _ _)

theorem startsNonWs_nil : StartsNonWs [] := by
  intro c hc; simp at hc

theorem trimSpace_wsFree {w : List Char} (hw : WsFree w) : trimSpace w = w := by
  have h1 : ∀ l : List Char, WsFree l → l.dropWhile unicodeIsSpace = l := by
    intro l hl
    cases l with
    | nil => rfl
    | cons a rest =>
      exact List.dropWhile_cons_of_neg (by simp [hl a (List.mem_cons_self _ _)])
  have hrev : WsFree w.reverse := fun c hc => hw c (List.mem_reverse.mp hc)
  simp only [trimSpace, trimLeftFunc, trimRightFunc, h1 w hw, h1 _ hrev, List.reverse_reverse]

theorem trimSpace_pad {w : List Char} (a b : List Char) (hw : WsFree w) (hne : w ≠ [])
    (ha : ∀ c ∈ a, unicodeIsSpace c = true) (hb : ∀ c ∈ b, unicodeIsSpace c = true) :
    trimSpace (a ++ w ++ b) = w := by
  have h1 : ∀ (x l v : List Char), (∀ c ∈ x, unicodeIsSpace c = true) → WsFree l → l ≠ [] →
      (x ++ l ++ v).dropWhile unicodeIsSpace = l ++ v := by
    intro x l v hx hl hln
    rw [List.append_assoc, List.dropWhile_append_of_pos hx]
    cases l with
    | nil => exact absurd rfl hln
    | cons y rest =>
      exact List.dropWhile_cons_of_neg (by simp [hl y (List.mem_cons_self _ _)])
  have hrev : WsFree w.reverse := fun c hc => hw c (List.mem_reverse.mp hc)
  have hrne : w.reverse ≠ [] := by simpa using hne
  simp only [trimSpace, trimLeftFunc, trimRightFunc, h1 a w b ha hw hne]
  have := h1 b.reverse w.reverse [] (fun c hc => hb c (List.mem_reverse.mp hc)) hrev hrne
  simp only [List.append_nil] at this
  rw [List.reverse_append, this, List.reverse_reverse]

/-- A text without whitespace is its own normal form. -/
theorem normalizeText_wsFree {w : List Char} (hw : WsFree w) : normalizeText w = w := by
  simp only [normalizeText, replaceAllString_Ws]
  have := passWs_copy w [] (wsFree_not_reSpace hw)
  simp only [List.append_nil, passWs_nil] at this
  rw [this, trimSpace_wsFree hw]

/-- Whitespace around a text without whitespace is trimmed away. -/
theorem normalizeText_pad {w : List Char} (a b : List Char) (hw : WsFree w) (hne : w ≠ [])
    (ha : ∀ c ∈ a, reSpace c = true) (hb : ∀ c ∈ b, reSpace c = true) :
    normalizeText (a ++ w ++ b) = w := by
  simp only [normalizeText, replaceAllString_Ws]
  have hcopy : passWs (w ++ b) = w ++ passWs b := passWs_copy w b (wsFree_not_reSpace hw)
  have hb1 : ∀ c ∈ passWs b, unicodeIsSpace c = true := by
    by_cases hbn : b = []
    · subst hbn; intro c hc; simp [passWs, replaceAllAux] at hc
    · have := passWs_run b [] hbn hb startsNonWs_nil
      simp only [List.append_nil, passWs_nil] at this
      rw [this]
      intro c hc
      simp only [List.mem_singleton] at hc
      subst hc; decide
  by_cases han : a = []
  · subst han
    simp only [List.nil_append, hcopy]
    have := trimSpace_pad [] (passWs b) hw hne (by simp) hb1
    simpa using this
  · rw [List.append_assoc, passWs_run a (w ++ b) han ha (startsNonWs_of_wsFree b hw hne), hcopy]
    have := trimSpace_pad [' '] (passWs b) hw hne (by simp [unicodeIsSpace]) hb1
    simpa using this

/-! ## The normalizer on a framed fragment -/

theorem trimEnd_append_ws (x t : List Char) (d : Char) (hd : x.getLast? = some d)
    (hds : reSpace d = false) (ht : t.all reSpace = true) : trimEnd (x ++ t) = x := by
  induction x with
  | nil => simp at hd
  | cons c rest ih =>
    have hall : ((c :: rest) ++ t).all reSpace = false := by
      rw [List.all_eq_false]
      exact ⟨d, List.mem_append_left _ (mem_of_getLast? hd), by simp [hds]⟩
    have hm : reMultiLTR false (c :: (rest ++ t)) = none := by
      rw [reMultiLTR_false]
      rw [List.cons_append] at hall
      simp [hall]
    simp only [trimEnd, List.cons_append]
    rw [replaceAllAux_none _ _ _ _ _ hm]
    cases rest with
    | nil =>
      have := (trimEnd_spec t).1 ht
      simp only [trimEnd] at this
      simp only [List.nil_append, this]
    | cons b r =>
      have := ih (by simpa using hd)
      simp only [trimEnd] at this
      rw [this]

/-- The first pass removes a frame of newlines around a fragment with trimmed
edges. -/
theorem passLTR_frame (a x b : List Char) (ha : ∀ c ∈ a, reTRN c = true)
    (hb : b.all reSpace = true) (hne : x ≠ []) (hx : Edge x) :
    replaceAllString reMultiLTR (a ++ x ++ b) [] = x := by
  obtain ⟨d, hd⟩ : ∃ d, x.getLast? = some d :=
    ⟨_, List.getLast?_eq_getLast _ hne⟩
  have hds := hx.2 d hd
  obtain ⟨c0, r0, hx0⟩ : ∃ c0 r0, x = c0 :: r0 := by
    cases x with
    | nil => exact absurd rfl hne
    | cons c0 r0 => exact ⟨c0, r0, rfl⟩
  have hc0 : reTRN c0 = false := hx.1 c0 (by rw [hx0]; rfl)
  have htw : ∀ l : List Char, (∀ c ∈ l, reTRN c = true) →
      (l ++ x ++ b).takeWhile reTRN = l := by
    intro l hl
    rw [List.append_assoc, List.takeWhile_append_of_pos hl, hx0]
    simp [List.takeWhile_cons, hc0]
  unfold replaceAllString
  cases a with
  | nil =>
    have h0 : reMultiLTR true (x ++ b) = reMultiLTR false (x ++ b) := by
      have := htw [] (by simp)
      simp only [List.nil_append] at this
      simp [reMultiLTR, this]
    have : replaceAllAux reMultiLTR [] 0 true (x ++ b) = trimEnd (x ++ b) := by
      rw [hx0] at h0 ⊢
      simp only [trimEnd, List.cons_append, replaceAllAux, List.append_eq] at h0 ⊢
      rw [h0]
    simp only [List.nil_append]
    rw [this, trimEnd_append_ws x b d hd hds hb]
  | cons a0 ar =>
    have hrun := htw (a0 :: ar) ha
    have hm : reMultiLTR true (a0 :: (ar ++ x ++ b)) = some (ar.length + 1) := by
      have h1 : a0 :: (ar ++ x ++ b) = (a0 :: ar) ++ x ++ b := by simp
      rw [h1]
      simp only [reMultiLTR, hrun]
      simp
    have h2 : (a0 :: ar) ++ x ++ b = a0 :: (ar ++ x ++ b) := by simp
    rw [h2, replaceAllAux_some _ _ _ _ _ _ hm]
    have h3 : (ar ++ x ++ b).drop ar.length = x ++ b := by
      rw [List.append_assoc, List.drop_left]
    rw [h3, List.nil_append]
    exact trimEnd_append_ws x b d hd hds hb

/-- The normalizer returns a fragment with trimmed edges and no match of
`\n\s+\n` when it is framed by newlines. -/
theorem normalizeMd_frame (a x b : List Char) (ha : ∀ c ∈ a, reTRN c = true)
    (hb : b.all reSpace = true) (hne : x ≠ []) (hx : Edge x)
    (hn : NoMatch reMultiNlW x) : normalizeMd (a ++ x ++ b) = x := by
  rw [normalizeMd_eq, passLTR_frame a x b ha hb hne hx]
  exact replaceAllAux_noMatch _ _ _ hn

theorem noMatch_of_no_nl (x : List Char) (h : ∀ c ∈ x, isNl c = false) :
    NoMatch reMultiNlW x := by
  have := noMatch_append_of_no_nl x [] h trivial
  simpa using this

theorem unicode_of_isNl {c : Char} (h : isNl c = true) : unicodeIsSpace c = true :=
  reSpace_unicode (isNl_reSpace h)

theorem wsFree_no_nl {s : List Char} (h : WsFree s) : ∀ c ∈ s, isNl c = false := by
  intro c hc
  cases hn : isNl c
  · rfl
  · have := h c hc
    rw [unicode_of_isNl hn] at this
    cases this

/-! ## Padding and rules on the shapes of the examples -/

theorem unicodeIsSpace_runeError : unicodeIsSpace runeError = false := by decide

theorem decodeFirstByte_wsFree {s : List Char} (v : List Char) (hs : WsFree s) (hne : s ≠ []) :
    unicodeIsSpace (decodeFirstByte (s ++ v)) = false := by
  cases s with
  | nil => exact absurd rfl hne
  | cons c rest =>
    simp only [List.cons_append, decodeFirstByte]
    split
    · exact hs c (List.mem_cons_self _ _)
    · exact unicodeIsSpace_runeError

theorem decodeLastRune_wsFree {s : List Char} (v : List Char) (hs : WsFree s) (hne : s ≠ []) :
    unicodeIsSpace (decodeLastRune (v ++ s)) = false := by
  obtain ⟨d, hd⟩ : ∃ d, s.getLast? = some d := ⟨_, List.getLast?_eq_getLast _ hne⟩
  simp only [decodeLastRune, getLast?_append_of_some v hd]
  exact hs d (mem_of_getLast? hd)

theorem decodeLastRune_snoc (v : List Char) (c : Char) : decodeLastRune (v ++ [c]) = c := by
  simp [decodeLastRune]

theorem getNodeSpaces_block (p : Ptr) (h : isBlock p.node.DataAtom = true) :
    getNodeSpaces p = ([], []) := by
  unfold getNodeSpaces
  simp only [h, if_true, ite_self]

theorem applyReplacer_block (f : replaceFn) (ty : NodeType) (a : Atom) (d : List Char)
    (attr : List Attribute) (cs : List Node) (par : Option Node) (i : Nat)
    (h : isBlock a = true) :
    applyReplacer f ⟨⟨ty, a, d, attr, cs⟩, par, i⟩
      = ⟨ty, a, f (getNodeContent ⟨ty, a, d, attr, cs⟩ true) ⟨⟨ty, a, d, attr, cs⟩, par, i⟩,
          attr, cs⟩ := by
  simp only [applyReplacer, getNodeSpaces_block ⟨⟨ty, a, d, attr, cs⟩, par, i⟩ h,
    List.nil_append, List.append_nil]

theorem runInside_leaf (strip : Bool) (ty : NodeType) (a : Atom) (d : List Char)
    (attr : List Attribute) : runInside strip ⟨ty, a, d, attr, []⟩ = [] := by
  rw [runInside_mk, runChildren]

theorem getNodeSpaces_inline (p : Ptr) (hne : getNodeContent p.node false ≠ [])
    (hb : isBlock p.node.DataAtom = false) :
    getNodeSpaces p
      = (if (unicodeIsSpace (decodeFirstByte (getNodeContent p.node false))
              || checkNodeSiblingWs p false) = true then [' '] else [],
         if (unicodeIsSpace (decodeLastRune (getNodeContent p.node false))
              || checkNodeSiblingWs p true) = true then [' '] else []) := by
  have h0 : ¬ goLen (getNodeContent p.node false) = 0 := fun h =>
    hne ((goLen_eq_zero_iff _).mp h)
  unfold getNodeSpaces
  simp only [h0, if_false, hb, Bool.false_eq_true]

/-- The padded output of a rule on an inline node with content, the two
padding tests being known. -/
theorem applyReplacer_inline (f : replaceFn) (ty : NodeType) (a : Atom) (d : List Char)
    (attr : List Attribute) (cs : List Node) (par : Option Node) (i : Nat) (bl br : Bool)
    (hne : getNodeContent ⟨ty, a, d, attr, cs⟩ false ≠ [])
    (hb : isBlock a = false)
    (hl : (unicodeIsSpace (decodeFirstByte (getNodeContent ⟨ty, a, d, attr, cs⟩ false))
              || checkNodeSiblingWs ⟨⟨ty, a, d, attr, cs⟩, par, i⟩ false) = bl)
    (hr : (unicodeIsSpace (decodeLastRune (getNodeContent ⟨ty, a, d, attr, cs⟩ false))
              || checkNodeSiblingWs ⟨⟨ty, a, d, attr, cs⟩, par, i⟩ true) = br) :
    applyReplacer f ⟨⟨ty, a, d, attr, cs⟩, par, i⟩
      = ⟨ty, a, (if bl = true then [' '] else [])
            ++ f (getNodeContent ⟨ty, a, d, attr, cs⟩ true) ⟨⟨ty, a, d, attr, cs⟩, par, i⟩
            ++ (if br = true then [' '] else []), attr, cs⟩ := by
  simp only [applyReplacer, getNodeSpaces_inline ⟨⟨ty, a, d, attr, cs⟩, par, i⟩ hne hb, hl, hr]

theorem checkNodeSiblingWs_none (p : Ptr) (next : Bool)
    (h : (if next = true then p.nextSiblings else p.prevSiblings).find? isElementOrText = none) :
    checkNodeSiblingWs p next = false := by
  unfold checkNodeSiblingWs
  rw [h]

/-- The sibling test when the nearest text or element sibling is a text node. -/
theorem checkNodeSiblingWs_text (p : Ptr) (next : Bool) (d : List Char)
    (attr : List Attribute) (cs : List Node)
    (h : (if next = true then p.nextSiblings else p.prevSiblings).find? isElementOrText
      = some ⟨.TextNode, .Unknown, d, attr, cs⟩) (hd : d ≠ []) :
    checkNodeSiblingWs p next
      = (unicodeIsSpace (if next = true then decodeFirstByte d else decodeLastRune d)
          && decide (goLen d > 1)) := by
  have h0 : ¬ goLen d = 0 := fun h => hd ((goLen_eq_zero_iff _).mp h)
  have hblock : isBlock Atom.Unknown = false := rfl
  unfold checkNodeSiblingWs
  rw [h]
  simp only [hblock, Bool.false_eq_true, if_false, if_true, h0]
  cases hu : unicodeIsSpace (if next = true then decodeFirstByte d else decodeLastRune d)
  · simp only [hu, Bool.false_and, Bool.false_eq_true, if_false]
  · cases hg : decide (goLen d > 1)
    · simp only [hu, hg, Bool.and_false, Bool.false_eq_true, if_false]
    · simp only [hu, hg, Bool.and_true, if_true]

/-- A lone text child whose first byte and last rune are not whitespace is left
as it is. -/
theorem runInside_text_edges (strip : Bool) (ty : NodeType) (a : Atom) (d : List Char)
    (attr : List Attribute) (s : List Char)
    (h1 : unicodeIsSpace (decodeFirstByte s) = false)
    (h2 : unicodeIsSpace (decodeLastRune s) = false) :
    runInside strip ⟨ty, a, d, attr, [⟨.TextNode, .Unknown, s, [], []⟩]⟩
      = [⟨.TextNode, .Unknown, s, [], []⟩] := by
  have hrun : runInside strip ⟨ty, a, d, attr, [⟨.TextNode, .Unknown, s, [], []⟩]⟩
      = [applyReplacer replaceText
          ⟨⟨.TextNode, .Unknown, s, [], []⟩,
            some ⟨ty, a, d, attr, [⟨.TextNode, .Unknown, s, [], []⟩]⟩, 0⟩] := rfl
  rw [hrun]
  by_cases hne : s = []
  · subst hne
    rfl
  · have hp := applyReplacer_inline replaceText .TextNode .Unknown s [] []
      (some ⟨ty, a, d, attr, [⟨.TextNode, .Unknown, s, [], []⟩]⟩) 0 false false hne rfl
      (by
        rw [checkNodeSiblingWs_none ⟨⟨.TextNode, .Unknown, s, [], []⟩,
          some ⟨ty, a, d, attr, [⟨.TextNode, .Unknown, s, [], []⟩]⟩, 0⟩ false rfl]
        simp only [Bool.or_false]
        exact h1)
      (by
        rw [checkNodeSiblingWs_none ⟨⟨.TextNode, .Unknown, s, [], []⟩,
          some ⟨ty, a, d, attr, [⟨.TextNode, .Unknown, s, [], []⟩]⟩, 0⟩ true rfl]
        simp only [Bool.or_false]
        exact h2)
    rw [hp]
    simp only [Bool.false_eq_true, if_false, List.nil_append, List.append_nil]
    rfl

/-- A lone text child without whitespace is left as it is. -/
theorem runInside_text_alone (strip : Bool) (ty : NodeType) (a : Atom) (d : List Char)
    (attr : List Attribute) (s : List Char) (hs : WsFree s) :
    runInside strip ⟨ty, a, d, attr, [⟨.TextNode, .Unknown, s, [], []⟩]⟩
      = [⟨.TextNode, .Unknown, s, [], []⟩] := by
  by_cases hne : s = []
  · subst hne
    rfl
  · have h1 := decodeFirstByte_wsFree [] hs hne
    have h2 := decodeLastRune_wsFree [] hs hne
    simp only [List.append_nil, List.nil_append] at h1 h2
    exact runInside_text_edges strip ty a d attr s h1 h2

theorem childContent_element (b : Bool) (a : Atom) (d : List Char) (attr : List Attribute)
    (cs : List Node) : childContent b ⟨.ElementNode, a, d, attr, cs⟩ = d := by
  unfold childContent
  by_cases h : goLen d = 0
  · simp only [h, if_true]
    exact ((goLen_eq_zero_iff d).mp h).symm
  · simp only [h, if_false]

theorem replaceTagsBlocks_eq (c : List Char) (p : Ptr) :
    replaceTagsBlocks c p = blockFrame c := rfl

/-- The text written for `docOf content` is the normalized, twice framed content
of the body. -/
theorem process_docOf (content : List Node) (strip : Bool) :
    process (docOf content) strip
      = normalizeMd (blockFrame (blockFrame (bodyContent content strip))) := by
  rw [process_eq]
  have hplan : (prepareChildrenReplacers [] strip (docOf content)).2
      = ⟨.DocumentNode, .Unknown, [], [],
          [⟨.ElementNode, .Html, "html".toList, [],
            [⟨.ElementNode, .Head, [], [], []⟩,
             bodyOf (prepareChildrenLoop [0, 1] strip 0 content).2]⟩]⟩ := rfl
  rw [hplan]
  have h1 : ∀ d cs, childReplacer strip ⟨.ElementNode, .Html, d, [], cs⟩
      = some replaceTagsBlocks := fun _ _ => rfl
  have h2 : ∀ d cs, childReplacer strip ⟨.ElementNode, .Body, d, [], cs⟩
      = some replaceTagsBlocks := fun _ _ => rfl
  have h3 : ∀ d cs, childReplacer strip ⟨.ElementNode, .Head, d, [], cs⟩ = none :=
    fun _ _ => rfl
  simp only [runTree, runInside_mk, runChildren_cons, runChildren, h1, h2, h3, bodyOf,
    List.nil_append, List.length_nil, List.length_cons]
  rw [applyReplacer_block _ _ Atom.Html _ _ _ _ _ rfl, applyReplacer_block _ _ Atom.Body _ _ _ _ _ rfl]
  simp only [replaceTagsBlocks_eq, getNodeContent, contentLoop, childContent_element,
    reduceCtorEq, if_false, List.append_nil, List.nil_append]

theorem childContent_text_raw (s : List Char) (attr : List Attribute) (cs : List Node) :
    childContent false ⟨.TextNode, .Unknown, s, attr, cs⟩ = s := by
  unfold childContent
  by_cases h : goLen s = 0
  · simp only [h, if_true]
    exact ((goLen_eq_zero_iff s).mp h).symm
  · simp only [h, if_false, Bool.false_eq_true]

theorem normalizeText_nil : normalizeText [] = [] := rfl

theorem childContent_text_norm (s : List Char) (attr : List Attribute) (cs : List Node) :
    childContent true ⟨.TextNode, .Unknown, s, attr, cs⟩ = normalizeText s := by
  unfold childContent
  by_cases h : goLen s = 0
  · simp only [h, if_true]
    rw [(goLen_eq_zero_iff s).mp h]
    rfl
  · simp only [h, if_false, if_true]

theorem goLen_pad_gt_one (w : List Char) (hw : w ≠ []) (v : List Char) :
    decide (goLen (' ' :: (w ++ v)) > 1) = true := by
  cases w with
  | nil => exact absurd rfl hw
  | cons a r =>
    simp only [List.cons_append, decide_eq_true_eq]
    exact goLen_gt_one _ _ _

/-- The content of the body for `strong[s]`, `" w "`, `em[t]`. -/
theorem bodyContent_inline (s w t : List Char) (hs : s ≠ []) (hw : w ≠ []) (ht : t ≠ [])
    (hsf : WsFree s) (hwf : WsFree w) (htf : WsFree t) (strip : Bool) :
    bodyContent [elem .Strong "strong" [] [text s], text ([' '] ++ w ++ [' ']),
        elem .Em "em" [] [text t]] strip
      = ['*', '*'] ++ s ++ ['*', '*', ' '] ++ w ++ [' ', '_'] ++ t ++ ['_'] := by
  have hplan : (prepareChildrenLoop [0, 1] strip 0
      [elem .Strong "strong" [] [text s], text ([' '] ++ w ++ [' ']),
        elem .Em "em" [] [text t]]).2
      = [⟨.ElementNode, .Strong, "strong".toList, [], [⟨.TextNode, .Unknown, s, [], []⟩]⟩,
         ⟨.TextNode, .Unknown, ' ' :: (w ++ [' ']), [], []⟩,
         ⟨.ElementNode, .Em, "em".toList, [], [⟨.TextNode, .Unknown, t, [], []⟩]⟩] := rfl
  simp only [bodyContent, hplan]
  have hcS : ∀ d cs, childReplacer strip ⟨.ElementNode, .Strong, d, [], cs⟩
      = some replaceTagsStrongB := fun _ _ => rfl
  have hcE : ∀ d cs, childReplacer strip ⟨.ElementNode, .Em, d, [], cs⟩
      = some replaceTagsEmI := fun _ _ => rfl
  have hcT : ∀ d, childReplacer strip ⟨.TextNode, .Unknown, d, [], []⟩
      = some replaceText := fun _ => rfl
  simp only [runChildren_cons, runChildren, hcS, hcE, hcT, runInside_leaf,
    runInside_text_alone strip _ _ _ _ s hsf, runInside_text_alone strip _ _ _ _ t htf,
    List.nil_append, List.length_nil, List.length_cons, List.cons_append, bodyOf]
  simp only [Nat.zero_add, Nat.reduceAdd]
  have hcs : getNodeContent ⟨.ElementNode, .Strong, "strong".toList, [], [⟨.TextNode, .Unknown, s, [], []⟩]⟩ false = s := by
    simp only [getNodeContent, contentLoop, childContent_text_raw, List.append_nil, reduceCtorEq,
      if_false]
  have hct : getNodeContent ⟨.ElementNode, .Em, "em".toList, [], [⟨.TextNode, .Unknown, t, [], []⟩]⟩ false = t := by
    simp only [getNodeContent, contentLoop, childContent_text_raw, List.append_nil, reduceCtorEq,
      if_false]
  have hcs1 : getNodeContent ⟨.ElementNode, .Strong, "strong".toList, [], [⟨.TextNode, .Unknown, s, [], []⟩]⟩ true = s := by
    simp only [getNodeContent, contentLoop, childContent_text_norm, List.append_nil, reduceCtorEq,
      if_false, normalizeText_wsFree hsf]
  have hct1 : getNodeContent ⟨.ElementNode, .Em, "em".toList, [], [⟨.TextNode, .Unknown, t, [], []⟩]⟩ true = t := by
    simp only [getNodeContent, contentLoop, childContent_text_norm, List.append_nil, reduceCtorEq,
      if_false, normalizeText_wsFree htf]
  have hsp : unicodeIsSpace ' ' = true := by decide
  have hfs := decodeFirstByte_wsFree [] hsf hs
  have hls := decodeLastRune_wsFree [] hsf hs
  have hft := decodeFirstByte_wsFree [] htf ht
  have hlt := decodeLastRune_wsFree [] htf ht
  simp only [List.append_nil, List.nil_append] at hfs hls hft hlt
  -- the emphasis: padded on the left by the space that ends the text before it
  have hE := applyReplacer_inline replaceTagsEmI .ElementNode .Em "em".toList []
    [⟨.TextNode, .Unknown, t, [], []⟩]
    (some ⟨.ElementNode, .Body, "body".toList, [], [⟨.ElementNode, .Strong, "strong".toList, [], [⟨.TextNode, .Unknown, s, [], []⟩]⟩, ⟨.TextNode, .Unknown, ' ' :: (w ++ [' ']), [], []⟩, ⟨.ElementNode, .Em, "em".toList, [], [⟨.TextNode, .Unknown, t, [], []⟩]⟩]⟩) 2 true false
    (by rw [hct]; exact ht) rfl
    (by
      rw [hct, hft, Bool.false_or]
      refine (checkNodeSiblingWs_text _ false (' ' :: (w ++ [' '])) [] [] ?_ ?_).trans ?_
      · rfl
      · exact List.cons_ne_nil _ _
      · have h1 : decodeLastRune (' ' :: (w ++ [' '])) = ' ' :=
          decodeLastRune_snoc (' ' :: w) ' '
        simp only [Bool.false_eq_true, if_false, h1, hsp, goLen_pad_gt_one w hw, Bool.and_self])
    (by
      rw [hct, hlt, Bool.false_or]
      refine checkNodeSiblingWs_none _ true ?_
      rfl)
  rw [hE, hct1]
  simp only [replaceTagsEmI, if_true, Bool.false_eq_true, if_false, List.cons_append,
    List.nil_append, List.append_nil, List.append_assoc]
  -- the text between them: padded on both sides by its own spaces
  have hX := applyReplacer_inline replaceText .TextNode .Unknown (' ' :: (w ++ [' '])) [] []
    (some ⟨.ElementNode, .Body, "body".toList, [], [⟨.ElementNode, .Strong, "strong".toList, [], [⟨.TextNode, .Unknown, s, [], []⟩]⟩, ⟨.TextNode, .Unknown, ' ' :: (w ++ [' ']), [], []⟩, ⟨.ElementNode, .Em, ' ' :: '_' :: (t ++ ['_']), [], [⟨.TextNode, .Unknown, t, [], []⟩]⟩]⟩) 1 true true
    (List.cons_ne_nil _ _) rfl
    (by
      have h1 : getNodeContent ⟨.TextNode, .Unknown, ' ' :: (w ++ [' ']), [], []⟩ false = ' ' :: (w ++ [' ']) := rfl
      rw [h1]
      have h2 : decodeFirstByte (' ' :: (w ++ [' '])) = ' ' := rfl
      rw [h2, hsp]
      rfl)
    (by
      have h1 : getNodeContent ⟨.TextNode, .Unknown, ' ' :: (w ++ [' ']), [], []⟩ false = ' ' :: (w ++ [' ']) := rfl
      rw [h1]
      have h2 : decodeLastRune (' ' :: (w ++ [' '])) = ' ' :=
        decodeLastRune_snoc (' ' :: w) ' '
      rw [h2, hsp]
      rfl)
  rw [hX]
  simp only [replaceText, if_true, Bool.false_eq_true, if_false, List.cons_append,
    List.nil_append, List.append_nil, List.append_assoc]
  -- the strong run: padded on the right by the space that begins the text after it
  have hS := applyReplacer_inline replaceTagsStrongB .ElementNode .Strong "strong".toList []
    [⟨.TextNode, .Unknown, s, [], []⟩]
    (some ⟨.ElementNode, .Body, "body".toList, [], [⟨.ElementNode, .Strong, "strong".toList, [], [⟨.TextNode, .Unknown, s, [], []⟩]⟩, ⟨.TextNode, .Unknown, ' ' :: ' ' :: (w ++ [' ', ' ']), [], []⟩, ⟨.ElementNode, .Em, ' ' :: '_' :: (t ++ ['_']), [], [⟨.TextNode, .Unknown, t, [], []⟩]⟩]⟩) 0 false true
    (by rw [hcs]; exact hs) rfl
    (by
      rw [hcs, hfs, Bool.false_or]
      refine checkNodeSiblingWs_none _ false ?_
      rfl)
    (by
      rw [hcs, hls, Bool.false_or]
      refine (checkNodeSiblingWs_text _ true (' ' :: ' ' :: (w ++ [' ', ' '])) [] [] ?_ ?_).trans ?_
      · rfl
      · exact List.cons_ne_nil _ _
      · have h1 : decodeFirstByte (' ' :: ' ' :: (w ++ [' ', ' '])) = ' ' := rfl
        have h2 : decide (goLen (' ' :: ' ' :: (w ++ [' ', ' '])) > 1) = true := by
          simp only [decide_eq_true_eq]
          exact goLen_gt_one _ _ _
        simp only [if_true, h1, hsp, h2, Bool.and_self])
  rw [hS, hcs1]
  simp only [replaceTagsStrongB, if_true, Bool.false_eq_true, if_false, List.cons_append,
    List.nil_append, List.append_nil, List.append_assoc, contentLoop, childContent_element,
    childContent_text_norm]
  have hn := normalizeText_pad [' ', ' '] [' ', ' '] hwf hw (by decide) (by decide)
  simp only [List.cons_append, List.nil_append, List.append_assoc] at hn
  rw [hn]

/-- Two block frames around a fragment are removed by the normalizer, together
with the newlines `a` and `b` the fragment itself is framed by. -/
theorem normalizeMd_blockFrame (a x b : List Char) (ha : ∀ c ∈ a, isNl c = true)
    (hb : ∀ c ∈ b, isNl c = true) (hne : x ≠ []) (hx : Edge x)
    (hn : NoMatch reMultiNlW x) :
    normalizeMd (blockFrame (blockFrame (a ++ x ++ b))) = x := by
  have h1 : ¬ goLen (a ++ x ++ b) = 0 := by
    rw [goLen_eq_zero_iff]
    intro h
    simp only [List.append_eq_nil] at h
    exact hne h.1.2
  have h2 : ¬ goLen (['\n', '\n'] ++ (a ++ x ++ b) ++ ['\n', '\n']) = 0 := by
    rw [goLen_eq_zero_iff]
    simp
  simp only [blockFrame, h1, h2, if_false]
  have hshape : ['\n', '\n'] ++ (['\n', '\n'] ++ (a ++ x ++ b) ++ ['\n', '\n']) ++ ['\n', '\n']
      = ('\n' :: '\n' :: '\n' :: '\n' :: a) ++ x ++ (b ++ ['\n', '\n', '\n', '\n']) := by
    simp
  rw [hshape]
  have hnl : ∀ c, isNl c = true → reTRN c = true := by
    intro c hc
    simp only [isNl, beq_iff_eq] at hc
    subst hc
    decide
  apply normalizeMd_frame _ _ _ _ _ hne hx hn
  · intro c hc
    apply hnl
    simp only [List.mem_cons] at hc
    rcases hc with h | h | h | h | h
    · subst h; rfl
    · subst h; rfl
    · subst h; rfl
    · subst h; rfl
    · exact ha c h
  · rw [List.all_eq_true]
    intro c hc
    apply isNl_reSpace
    rcases List.mem_append.mp hc with h | h
    · exact hb c h
    · simp only [List.mem_cons, List.mem_singleton] at h
      rcases h with h | h | h | h | h
      · subst h; rfl
      · subst h; rfl
      · subst h; rfl
      · subst h; rfl
      · cases h

/-! ## Lists -/

theorem digitChar_good (d : Nat) (h : d < 10) :
    reSpace (Nat.digitChar d) = false ∧ isNl (Nat.digitChar d) = false := by
  interval_cases d <;> exact ⟨by decide, by decide⟩

theorem toDigitsCore_good (fuel : Nat) : ∀ (n : Nat) (ds : List Char),
    (∀ c ∈ ds, reSpace c = false ∧ isNl c = false) →
    ∀ c ∈ Nat.toDigitsCore 10 fuel n ds, reSpace c = false ∧ isNl c = false := by
  induction fuel with
  | zero => intro n ds h c hc; exact h c (by simpa [Nat.toDigitsCore] using hc)
  | succ fuel ih =>
    intro n ds h c hc
    have hd := digitChar_good (n % 10) (Nat.mod_lt _ (by decide))
    have hds : ∀ c ∈ Nat.digitChar (n % 10) :: ds, reSpace c = false ∧ isNl c = false := by
      intro x hx
      rcases List.mem_cons.mp hx with h1 | h1
      · subst h1; exact hd
      · exact h x h1
    simp only [Nat.toDigitsCore] at hc
    split at hc
    · exact hds c hc
    · exact ih _ _ hds c hc

theorem toDigitsCore_ne_nil (fuel : Nat) : ∀ (n : Nat) (ds : List Char),
    (ds ≠ [] ∨ 0 < fuel) → Nat.toDigitsCore 10 fuel n ds ≠ [] := by
  induction fuel with
  | zero =>
    intro n ds h
    rcases h with h | h
    · simpa [Nat.toDigitsCore] using h
    · exact absurd h (by decide)
  | succ fuel ih =>
    intro n ds _
    simp only [Nat.toDigitsCore]
    split
    · exact List.cons_ne_nil _ _
    · exact ih _ _ (Or.inl (List.cons_ne_nil _ _))

theorem toDigits_good (n : Nat) :
    Nat.toDigits 10 n ≠ [] ∧ ∀ c ∈ Nat.toDigits 10 n, reSpace c = false ∧ isNl c = false :=
  ⟨toDigitsCore_ne_nil _ _ _ (Or.inr (Nat.succ_pos _)),
   toDigitsCore_good _ _ _ (by simp)⟩

theorem liCount_at (prevs : List Node) (c1 : Node) (rest : List Node)
    (hp : ∀ c ∈ prevs, c.DataAtom.isLi = true) (hc : c1.DataAtom.isLi = true) :
    ∀ j i, liCount (j + prevs.length) j (prevs ++ c1 :: rest) i = i + prevs.length + 1 := by
  induction prevs with
  | nil =>
    intro j i
    simp [liCount, hc]
  | cons c ps ih =>
    intro j i
    have hcl := hp c (List.mem_cons_self _ _)
    have hne : ¬ j = j + (ps.length + 1) := by omega
    simp only [List.cons_append, liCount, hcl, if_true, List.length_cons, hne, if_false,
      List.append_eq]
    have := ih (fun x hx => hp x (List.mem_cons_of_mem _ hx)) (j + 1) (i + 1)
    have h2 : j + 1 + ps.length = j + (ps.length + 1) := by omega
    rw [h2] at this
    rw [this]
    omega

theorem dropWhile_wsFree {a : List Char} (h : WsFree a) : a.dropWhile unicodeIsSpace = a := by
  cases a with
  | nil => rfl
  | cons x rest => exact List.dropWhile_cons_of_neg (by simp [h x (List.mem_cons_self _ _)])

theorem indentNewlines_no_nl {a : List Char} (h : ∀ c ∈ a, isNl c = false) :
    indentNewlines a = a := by
  induction a with
  | nil => rfl
  | cons x rest ih =>
    have hx := h x (List.mem_cons_self _ _)
    have := ih (fun c hc => h c (List.mem_cons_of_mem _ hc))
    simp only [indentNewlines, List.flatMap_cons, hx, Bool.false_eq_true, if_false,
      List.singleton_append] at this ⊢
    rw [this]

theorem plan_li (strip : Bool) (items : List (List Char)) : ∀ (p : List Nat) (i : Nat),
    (prepareChildrenLoop p strip i (items.map liOf)).2 = items.map liOf := by
  induction items with
  | nil => intro p i; rfl
  | cons a rest ih =>
    intro p i
    have h : (prepareChildrenLoop p strip i (liOf a :: rest.map liOf)).2
        = liOf a :: (prepareChildrenLoop p strip (i + 1) (rest.map liOf)).2 := rfl
    rw [List.map_cons, h, ih]

/-- The list-item rule on an item text without whitespace, below a list whose
earlier children are all list items. -/
theorem replaceTagsLi_item (a : List Char) (hw : WsFree a) (node : Node) (la : Atom)
    (d : List Char) (prevs : List Node) (c1 : Node) (rest1 : List Node)
    (hp : ∀ c ∈ prevs, c.DataAtom.isLi = true) (hc1 : c1.DataAtom.isLi = true) :
    replaceTagsLi a ⟨node, some ⟨.ElementNode, la, d, [], prevs ++ c1 :: rest1⟩, prevs.length⟩
      = (if la.isOl = true then Nat.toDigits 10 (prevs.length + 1) ++ ['.', ' ', ' ', ' ']
          else ['*', ' ', ' ', ' ']) ++ a := by
  have hcount := liCount_at prevs c1 rest1 hp hc1 0 0
  simp only [Nat.zero_add] at hcount
  simp only [replaceTagsLi, trimLeftFunc, dropWhile_wsFree hw,
    indentNewlines_no_nl (wsFree_no_nl hw), hcount, fmtDecimal]

theorem liData_cons_li (ty : NodeType) (d : List Char) (attr : List Attribute)
    (cs : List Node) (rest : List Node) :
    liData (⟨ty, .Li, d, attr, cs⟩ :: rest) = d :: liData rest := rfl

/-- The lines collected by the list rule once the engine has handled the items. -/
theorem liData_runChildren (strip : Bool) (la : Atom) (d : List Char)
    (items : List (List Char)) (hit : ∀ a ∈ items, a ≠ [] ∧ WsFree a) :
    ∀ prevs : List Node, (∀ c ∈ prevs, c.DataAtom.isLi = true) →
    liData (runChildren strip (fun cs1 => ⟨.ElementNode, la, d, [], cs1⟩) prevs
        (items.map liOf))
      = if la.isOl = true then olLines (prevs.length + 1) items else ulLines items := by
  induction items with
  | nil =>
    intro prevs _
    simp only [List.map_nil, runChildren, liData, olLines, ulLines, ite_self]
  | cons a rest ih =>
    intro prevs hp
    have ha := hit a (List.mem_cons_self _ _)
    have hli : liOf a = ⟨.ElementNode, .Li, "li".toList, [],
        [⟨.TextNode, .Unknown, a, [], []⟩]⟩ := rfl
    have hcr : childReplacer strip (liOf a) = some replaceTagsLi := rfl
    have hin : runInside strip (liOf a) = [⟨.TextNode, .Unknown, a, [], []⟩] := by
      rw [hli]; exact runInside_text_alone strip _ _ _ _ a ha.2
    have hprev : ∀ c ∈ prevs ++ [liOf a], c.DataAtom.isLi = true := by
      intro c hc
      rcases List.mem_append.mp hc with h | h
      · exact hp c h
      · simp only [List.mem_singleton] at h
        subst h; rfl
    have hrest := ih (fun x hx => hit x (List.mem_cons_of_mem _ hx)) (prevs ++ [liOf a]) hprev
    simp only [List.length_append, List.length_singleton] at hrest
    rw [List.map_cons, runChildren_cons, hcr]
    simp only [hin]
    rw [hli]
    simp only []
    rw [applyReplacer_block _ _ Atom.Li _ _ _ _ _ rfl, liData_cons_li]
    rw [← hli, hrest]
    have hcont : getNodeContent (liOf a) true = a := by
      rw [hli]
      simp only [getNodeContent, contentLoop, childContent_text_norm, List.append_nil,
        reduceCtorEq, if_false, normalizeText_wsFree ha.2]
    rw [hcont, replaceTagsLi_item a ha.2 _ la d prevs (liOf a) _ hp rfl]
    cases la.isOl <;> simp [olLines, ulLines]

theorem not_reTRN_of_not_reSpace {c : Char} (h : reSpace c = false) : reTRN c = false := by
  cases ht : reTRN c
  · rfl
  · rw [reTRN_reSpace ht] at h; cases h

/-- Good lines joined by single newlines form a fragment the normalizer keeps. -/
theorem join_good : ∀ lines : List (List Char), lines ≠ [] → (∀ l ∈ lines, GoodLine l) →
    stringsJoin lines ['\n'] ≠ [] ∧ Edge (stringsJoin lines ['\n']) ∧
    NoMatch reMultiNlW (stringsJoin lines ['\n']) ∧ StartsNonWs (stringsJoin lines ['\n'])
  | [], h, _ => absurd rfl h
  | [l], _, hg => by
    obtain ⟨h1, h2, h3, h4⟩ := hg l (List.mem_singleton.mpr rfl)
    exact ⟨h1, ⟨fun c hc => not_reTRN_of_not_reSpace (h2 c hc), h4⟩,
      noMatch_of_no_nl l h3, h2⟩
  | l :: l2 :: rest, _, hg => by
    obtain ⟨h1, h2, h3, h4⟩ := hg l (List.mem_cons_self _ _)
    obtain ⟨i1, i2, i3, i4⟩ := join_good (l2 :: rest) (List.cons_ne_nil _ _)
      (fun x hx => hg x (List.mem_cons_of_mem _ hx))
    have hj : stringsJoin (l :: l2 :: rest) ['\n']
        = l ++ '\n' :: stringsJoin (l2 :: rest) ['\n'] := by
      simp [stringsJoin]
    rw [hj]
    obtain ⟨c0, r0, hl⟩ : ∃ c0 r0, l = c0 :: r0 := by
      cases l with
      | nil => exact absurd rfl h1
      | cons c0 r0 => exact ⟨c0, r0, rfl⟩
    obtain ⟨d, hd⟩ : ∃ d, (stringsJoin (l2 :: rest) ['\n']).getLast? = some d :=
      ⟨_, List.getLast?_eq_getLast _ i1⟩
    have hhead : ∀ c, (l ++ '\n' :: stringsJoin (l2 :: rest) ['\n']).head? = some c →
        reSpace c = false := by
      intro c hc
      apply h2 c
      rw [hl] at hc ⊢
      simpa using hc
    refine ⟨by simp [hl], ⟨fun c hc => not_reTRN_of_not_reSpace (hhead c hc), ?_⟩, ?_, hhead⟩
    · intro e he
      have := getLast?_append_of_some l (getLast?_cons_of_some '\n' hd)
      rw [this] at he
      cases he
      exact i2.2 d hd
    · apply noMatch_append_of_no_nl l _ h3
      refine ⟨?_, i3⟩
      have := reMultiNlW_run_none false '\n' [] (stringsJoin (l2 :: rest) ['\n'])
        (by simp) i4 (by simp)
      simpa using this

theorem goodLine_item (pre a : List Char) (ha : a ≠ []) (hw : WsFree a) (hpre : pre ≠ [])
    (hp : ∀ c ∈ pre, isNl c = false)
    (hh : ∀ c, pre.head? = some c → reSpace c = false) : GoodLine (pre ++ a) := by
  obtain ⟨d, hd⟩ : ∃ d, a.getLast? = some d := ⟨_, List.getLast?_eq_getLast _ ha⟩
  refine ⟨by simp [hpre], ?_, ?_, ?_⟩
  · intro c hc
    apply hh c
    cases pre with
    | nil => exact absurd rfl hpre
    | cons x r => simpa using hc
  · intro c hc
    rcases List.mem_append.mp hc with h | h
    · exact hp c h
    · exact wsFree_no_nl hw c h
  · intro e he
    rw [getLast?_append_of_some pre hd] at he
    cases he
    exact wsFree_not_reSpace hw d (mem_of_getLast? hd)

theorem goodLine_ul (items : List (List Char)) (hit : ∀ a ∈ items, a ≠ [] ∧ WsFree a) :
    ∀ l ∈ ulLines items, GoodLine l := by
  intro l hl
  simp only [ulLines, List.mem_map] at hl
  obtain ⟨a, ha, rfl⟩ := hl
  have := hit a ha
  exact goodLine_item ['*', ' ', ' ', ' '] a this.1 this.2 (by simp) (by decide) (by decide)

theorem goodLine_ol (items : List (List Char)) (hit : ∀ a ∈ items, a ≠ [] ∧ WsFree a) :
    ∀ i, ∀ l ∈ olLines i items, GoodLine l := by
  induction items with
  | nil => intro i l hl; simp [olLines] at hl
  | cons a rest ih =>
    intro i l hl
    simp only [olLines, List.mem_cons] at hl
    rcases hl with h | h
    · subst h
      have ha := hit a (List.mem_cons_self _ _)
      obtain ⟨hne, hgood⟩ := toDigits_good i
      rw [List.append_assoc]
      have h2 := goodLine_item (Nat.toDigits 10 i ++ ['.', ' ', ' ', ' ']) a ha.1 ha.2
        (by simp)
        (by
          intro c hc
          rcases List.mem_append.mp hc with h | h
          · exact (hgood c h).2
          · have hdot : ∀ x ∈ ['.', ' ', ' ', ' '], isNl x = false := by decide
            exact hdot c h)
        (by
          intro c hc
          cases hdg : Nat.toDigits 10 i with
          | nil => exact absurd hdg hne
          | cons x r =>
            rw [hdg] at hc hgood
            simp only [List.cons_append, List.head?_cons, Option.some.injEq] at hc
            subst hc
            exact (hgood x (List.mem_cons_self _ _)).1)
      rw [List.append_assoc] at h2
      exact h2
    · exact ih (fun x hx => hit x (List.mem_cons_of_mem _ hx)) (i + 1) l h

theorem ulLines_ne_nil (items : List (List Char)) (h : items ≠ []) : ulLines items ≠ [] := by
  cases items with
  | nil => exact absurd rfl h
  | cons a r => simp [ulLines]

theorem olLines_ne_nil (i : Nat) (items : List (List Char)) (h : items ≠ []) :
    olLines i items ≠ [] := by
  cases items with
  | nil => exact absurd rfl h
  | cons a r => simp [olLines]

/-- The content of the body that holds one flat list. -/
theorem bodyContent_list (strip : Bool) (la : Atom) (name : String)
    (items : List (List Char)) (hit : ∀ a ∈ items, a ≠ [] ∧ WsFree a)
    (hcr : ∀ d cs, childReplacer strip ⟨.ElementNode, la, d, [], cs⟩ = some replaceTagsUlOl)
    (hb : isBlock la = true) :
    bodyContent [elem la name [] (items.map liOf)] strip
      = ['\n', '\n']
          ++ stringsJoin (if la.isOl = true then olLines 1 items else ulLines items) ['\n']
          ++ ['\n', '\n'] := by
  have hplan : (prepareChildrenLoop [0, 1] strip 0 [elem la name [] (items.map liOf)]).2
      = [⟨.ElementNode, la, name.toList, [], items.map liOf⟩] := by
    simp only [elem]
    rw [prepareChildrenLoop_cons]
    simp only [hcr, plan_li, prepareChildrenLoop]
  simp only [bodyContent, hplan]
  rw [runChildren_cons, hcr]
  simp only [runInside_mk, runChildren, List.nil_append, List.length_nil]
  rw [applyReplacer_block _ _ la _ _ _ _ _ hb]
  have hrule : ∀ (c : List Char) (R : List Node) (ps : List Node),
      replaceTagsUlOl c ⟨⟨.ElementNode, la, name.toList, [], R⟩, some (bodyOf ps), 0⟩
        = ['\n', '\n'] ++ stringsJoin (liData R) ['\n'] ++ ['\n', '\n'] := fun _ _ _ => rfl
  rw [hrule]
  simp only [contentLoop, childContent_element, List.append_nil]
  have hl := liData_runChildren strip la name.toList items hit [] (by simp)
  simp only [List.length_nil, Nat.zero_add] at hl
  rw [hl]

theorem stringsJoin_eq_intercalate (sep : List Char) :
    ∀ l : List (List Char), stringsJoin l sep = List.intercalate sep l
  | [] => rfl
  | [a] => by simp [stringsJoin, List.intercalate]
  | a :: b :: rest => by
    have ih := stringsJoin_eq_intercalate sep (b :: rest)
    simp only [stringsJoin, ih, List.intercalate, List.intersperse, List.flatten_cons,
      List.append_assoc]

/-- The attribute loop of the link rule keeps the value of the last `href`
entry and of the last `title` entry. -/
theorem linkAttrs_eq (attrs : List Attribute) : ∀ h0 t0 : List Char,
    linkAttrs attrs (h0, t0)
      = (match lastAttr "href".toList attrs with
          | some h => h
          | none => h0,
         match lastAttr "title".toList attrs with
          | some t => ' ' :: t
          | none => t0) := by
  induction attrs with
  | nil => intro h0 t0; rfl
  | cons a rest ih =>
    intro h0 t0
    by_cases hk : a.Key = "href".toList
    · have hnt : ¬ a.Key = "title".toList := by rw [hk]; decide
      simp only [linkAttrs, hk, if_true, ih, lastAttr]
      rw [← hk]
      simp only [hnt, if_false]
      cases lastAttr a.Key rest <;> cases lastAttr "title".toList rest <;> rfl
    · by_cases ht : a.Key = "title".toList
      · simp only [linkAttrs, hk, if_false, ht, if_true, ih, lastAttr]
        have hne : ¬ "title".toList = "href".toList := by decide
        simp only [hne, if_false]
        cases lastAttr "href".toList rest <;> cases lastAttr "title".toList rest <;> rfl
      · simp only [linkAttrs, hk, if_false, ht, ih, lastAttr]
        cases lastAttr "href".toList rest <;> cases lastAttr "title".toList rest <;> rfl

/-! ## Worklist entries and dropped nodes -/

/-- An assignment at one path leaves the `Data` at every other path as it is. -/
theorem setData_frame (d : List Char) : ∀ (q p : List Nat) (D : Node), p ≠ q →
    (nodeAt (setData D p d) q).map (fun n => n.Data) = (nodeAt D q).map (fun n => n.Data) := by
  intro q
  induction q with
  | nil =>
    intro p D hpq
    cases p with
    | nil => exact absurd rfl hpq
    | cons i rest =>
      simp only [setData, nodeAt]
      cases D.Children[i]? <;> rfl
  | cons j q1 ih =>
    intro p D hpq
    cases p with
    | nil => rfl
    | cons i rest =>
      simp only [setData]
      cases hc : D.Children[i]? with
      | none => rfl
      | some c =>
        have hi : i < D.Children.length := by
          by_contra hlt
          rw [List.getElem?_eq_none (by omega)] at hc
          cases hc
        simp only [nodeAt]
        by_cases hij : i = j
        · subst hij
          rw [List.getElem?_set_self hi, hc]
          exact ih rest c (fun h => hpq (by rw [h]))
        · rw [List.getElem?_set_ne hij]

theorem runReplacer_frame (hr : htmlReplace) (D : Node) (q : List Nat) (h : hr.nodePtr ≠ q) :
    (nodeAt (runReplacer hr D) q).map (fun n => n.Data)
      = (nodeAt D q).map (fun n => n.Data) := by
  unfold runReplacer
  cases getPtr D hr.nodePtr with
  | none => rfl
  | some p => exact setData_frame _ q hr.nodePtr D h

/-- The engine leaves the `Data` at a path alone when no entry of the worklist
points to it. -/
theorem runReplacers_frame (rs : List htmlReplace) (D : Node) (q : List Nat)
    (h : ∀ hr ∈ rs, hr.nodePtr ≠ q) :
    (nodeAt (runReplacers rs D) q).map (fun n => n.Data)
      = (nodeAt D q).map (fun n => n.Data) := by
  induction rs with
  | nil => rfl
  | cons hr rest ih =>
    simp only [runReplacers, List.foldr_cons]
    rw [runReplacer_frame hr _ q (h hr (List.mem_cons_self _ _))]
    exact ih (fun x hx => h x (List.mem_cons_of_mem _ hx))

/-- Every worklist entry points to a node below the planned one, and its rule
is the rule of that node. -/
theorem entries_path (strip : Bool) (n : Nat) : ∀ (cs : List Node), sizeOf cs ≤ n →
    ∀ (p : List Nat) (i : Nat) (hr : htmlReplace),
    hr ∈ (prepareChildrenLoop p strip i cs).1 →
    ∃ (j : Nat) (q : List Nat) (c e : Node), hr.nodePtr = p ++ (i + j) :: q ∧
      cs[j]? = some c ∧ nodeAt c q = some e ∧ childReplacer strip e = some hr.replacer := by
  induction n with
  | zero =>
    intro cs hsz
    cases cs with
    | nil => intro p i hr h; simp [prepareChildrenLoop] at h
    | cons c rest => simp at hsz
  | succ n ih =>
    intro cs hsz
    cases cs with
    | nil => intro p i hr h; simp [prepareChildrenLoop] at h
    | cons c rest =>
      intro p i hr h
      obtain ⟨ty, a, d, attr, ccs⟩ := c
      have hsz1 : sizeOf ccs ≤ n := by
        simp only [List.cons.sizeOf_spec, Node.mk.sizeOf_spec] at hsz
        omega
      have hsz2 : sizeOf rest ≤ n := by
        simp only [List.cons.sizeOf_spec, Node.mk.sizeOf_spec] at hsz
        omega
      rw [prepareChildrenLoop_cons] at h
      simp only [List.mem_append] at h
      rcases h with (h | h) | h
      · cases hc : childReplacer strip ⟨ty, a, d, attr, ccs⟩ with
        | none => rw [hc] at h; simp at h
        | some f =>
          rw [hc] at h
          simp only [List.mem_singleton] at h
          subst h
          exact ⟨0, [], ⟨ty, a, d, attr, ccs⟩, ⟨ty, a, d, attr, ccs⟩, rfl, by simp, rfl, hc⟩
      · obtain ⟨j, q, c1, e, h1, h2, h3, h4⟩ := ih ccs hsz1 (p ++ [i]) 0 hr h
        refine ⟨0, j :: q, ⟨ty, a, d, attr, ccs⟩, e, ?_, by simp, ?_, h4⟩
        · rw [h1]; simp
        · simp only [nodeAt, h2, h3]
      · obtain ⟨j, q, c1, e, h1, h2, h3, h4⟩ := ih rest hsz2 p (i + 1) hr h
        refine ⟨j + 1, q, c1, e, ?_, ?_, h3, h4⟩
        · rw [h1]
          have : i + 1 + j = i + (j + 1) := by omega
          rw [this]
        · simpa using h2

/-- The planner keeps the shape of the tree and clears the `Data` of exactly
the nodes it registers no rule for. -/
theorem plan_nodeAt (strip : Bool) (n : Nat) : ∀ (cs : List Node), sizeOf cs ≤ n →
    ∀ (p : List Nat) (i j : Nat) (q : List Nat) (c e : Node),
    cs[j]? = some c → nodeAt c q = some e →
    ∃ c1 e1 : Node, (prepareChildrenLoop p strip i cs).2[j]? = some c1 ∧
      nodeAt c1 q = some e1 ∧ e1.Typ = e.Typ ∧ e1.DataAtom = e.DataAtom ∧
      e1.Data = (if (childReplacer strip e).isSome then e.Data else []) := by
  induction n with
  | zero =>
    intro cs hsz
    cases cs with
    | nil => intro p i j q c e h; simp at h
    | cons c rest => simp at hsz
  | succ n ih =>
    intro cs hsz
    cases cs with
    | nil => intro p i j q c e h; simp at h
    | cons c0 rest =>
      intro p i j q c e hj hq
      obtain ⟨ty, a, d, attr, ccs⟩ := c0
      have hsz1 : sizeOf ccs ≤ n := by
        simp only [List.cons.sizeOf_spec, Node.mk.sizeOf_spec] at hsz
        omega
      have hsz2 : sizeOf rest ≤ n := by
        simp only [List.cons.sizeOf_spec, Node.mk.sizeOf_spec] at hsz
        omega
      rw [prepareChildrenLoop_cons]
      cases j with
      | succ j1 =>
        simp only [List.getElem?_cons_succ] at hj ⊢
        exact ih rest hsz2 p (i + 1) j1 q c e hj hq
      | zero =>
        simp only [List.getElem?_cons_zero, Option.some.injEq] at hj ⊢
        subst hj
        cases q with
        | nil =>
          simp only [nodeAt, Option.some.injEq] at hq
          subst hq
          cases hc : childReplacer strip ⟨ty, a, d, attr, ccs⟩ with
          | none => exact ⟨_, _, rfl, rfl, rfl, rfl, by simp⟩
          | some f => exact ⟨_, _, rfl, rfl, rfl, rfl, by simp⟩
        | cons k q1 =>
          simp only [nodeAt] at hq
          cases hk : ccs[k]? with
          | none => rw [hk] at hq; cases hq
          | some ck =>
            rw [hk] at hq
            obtain ⟨c1, e1, h1, h2, h3⟩ := ih ccs hsz1 (p ++ [i]) 0 k q1 ck e hk hq
            cases hc : childReplacer strip ⟨ty, a, d, attr, ccs⟩ with
            | none =>
              refine ⟨_, e1, rfl, ?_, h3⟩
              simp only [nodeAt, h1, h2]
            | some f =>
              refine ⟨_, e1, rfl, ?_, h3⟩
              simp only [nodeAt, h1, h2]

/-- Every node with a rule has its worklist entry. -/
theorem entries_complete (strip : Bool) (n : Nat) : ∀ (cs : List Node), sizeOf cs ≤ n →
    ∀ (p : List Nat) (i j : Nat) (q : List Nat) (c e : Node) (f : replaceFn),
    cs[j]? = some c → nodeAt c q = some e → childReplacer strip e = some f →
    ∃ hr ∈ (prepareChildrenLoop p strip i cs).1,
      hr.nodePtr = p ++ (i + j) :: q ∧ hr.replacer = f := by
  induction n with
  | zero =>
    intro cs hsz
    cases cs with
    | nil => intro p i j q c e f h; simp at h
    | cons c rest => simp at hsz
  | succ n ih =>
    intro cs hsz
    cases cs with
    | nil => intro p i j q c e f h; simp at h
    | cons c0 rest =>
      intro p i j q c e f hj hq hf
      obtain ⟨ty, a, d, attr, ccs⟩ := c0
      have hsz1 : sizeOf ccs ≤ n := by
        simp only [List.cons.sizeOf_spec, Node.mk.sizeOf_spec] at hsz
        omega
      have hsz2 : sizeOf rest ≤ n := by
        simp only [List.cons.sizeOf_spec, Node.mk.sizeOf_spec] at hsz
        omega
      rw [prepareChildrenLoop_cons]
      cases j with
      | succ j1 =>
        simp only [List.getElem?_cons_succ] at hj
        obtain ⟨hr, h1, h2, h3⟩ := ih rest hsz2 p (i + 1) j1 q c e f hj hq hf
        refine ⟨hr, List.mem_append_right _ h1, ?_, h3⟩
        rw [h2]
        have : i + 1 + j1 = i + (j1 + 1) := by omega
        rw [this]
      | zero =>
        simp only [List.getElem?_cons_zero, Option.some.injEq] at hj
        subst hj
        cases q with
        | nil =>
          simp only [nodeAt, Option.some.injEq] at hq
          subst hq
          rw [hf]
          exact ⟨⟨p ++ [i], f⟩, List.mem_append_left _ (List.mem_append_left _
            (List.mem_singleton.mpr rfl)), by simp, rfl⟩
        | cons k q1 =>
          simp only [nodeAt] at hq
          cases hk : ccs[k]? with
          | none => rw [hk] at hq; cases hq
          | some ck =>
            rw [hk] at hq
            obtain ⟨hr, h1, h2, h3⟩ := ih ccs hsz1 (p ++ [i]) 0 k q1 ck e f hk hq hf
            refine ⟨hr, List.mem_append_left _ (List.mem_append_right _ h1), ?_, h3⟩
            rw [h2]
            simp

theorem entries_doc (strip : Bool) (doc : Node) (hr : htmlReplace)
    (h : hr ∈ (prepareChildrenReplacers [] strip doc).1) :
    hr.nodePtr ≠ [] ∧ ∃ e, nodeAt doc hr.nodePtr = some e ∧
      childReplacer strip e = some hr.replacer := by
  obtain ⟨ty, a, d, attr, cs⟩ := doc
  simp only [prepareChildrenReplacers] at h
  obtain ⟨j, q, c, e, h1, h2, h3, h4⟩ := entries_path strip _ cs (Nat.le_refl _) [] 0 hr h
  simp only [List.nil_append, Nat.zero_add] at h1
  rw [h1]
  exact ⟨List.cons_ne_nil _ _, e, by simp only [nodeAt, h2, h3], h4⟩

theorem entries_doc_complete (strip : Bool) (doc : Node) (path : List Nat) (e : Node)
    (f : replaceFn) (hp : path ≠ []) (he : nodeAt doc path = some e)
    (hf : childReplacer strip e = some f) :
    ∃ hr ∈ (prepareChildrenReplacers [] strip doc).1,
      hr.nodePtr = path ∧ hr.replacer = f := by
  obtain ⟨ty, a, d, attr, cs⟩ := doc
  cases path with
  | nil => exact absurd rfl hp
  | cons j q =>
    simp only [nodeAt] at he
    cases hj : cs[j]? with
    | none => rw [hj] at he; cases he
    | some c =>
      rw [hj] at he
      obtain ⟨hr, h1, h2, h3⟩ :=
        entries_complete strip _ cs (Nat.le_refl _) [] 0 j q c e f hj he hf
      simp only [List.nil_append, Nat.zero_add] at h2
      exact ⟨hr, by simpa only [prepareChildrenReplacers] using h1, h2, h3⟩

theorem plan_doc (strip : Bool) (doc : Node) (path : List Nat) (e : Node)
    (hp : path ≠ []) (he : nodeAt doc path = some e) :
    ∃ e1, nodeAt (prepareChildrenReplacers [] strip doc).2 path = some e1 ∧
      e1.Typ = e.Typ ∧ e1.DataAtom = e.DataAtom ∧
      e1.Data = (if (childReplacer strip e).isSome then e.Data else []) := by
  obtain ⟨ty, a, d, attr, cs⟩ := doc
  cases path with
  | nil => exact absurd rfl hp
  | cons j q =>
    simp only [nodeAt] at he
    cases hj : cs[j]? with
    | none => rw [hj] at he; cases he
    | some c =>
      rw [hj] at he
      obtain ⟨c1, e1, h1, h2, h3⟩ :=
        plan_nodeAt strip _ cs (Nat.le_refl _) [] 0 j q c e hj he
      exact ⟨e1, by simp only [prepareChildrenReplacers, nodeAt, h1, h2], h3⟩

/-- A node the planner registers no rule for has empty `Data` once the engine
has run. -/
theorem dropped_data (strip : Bool) (doc : Node) (path : List Nat) (e : Node)
    (hp : path ≠ []) (he : nodeAt doc path = some e) (hn : childReplacer strip e = none) :
    (∀ hr ∈ (prepareChildrenReplacers [] strip doc).1, hr.nodePtr ≠ path) ∧
    (∃ e1, nodeAt (prepareChildrenReplacers [] strip doc).2 path = some e1 ∧ e1.Data = []) ∧
    (∃ e2, nodeAt (convertTree doc strip) path = some e2 ∧ e2.Data = [] ∧
      ∀ b, childContent b e2 = []) := by
  have hno : ∀ hr ∈ (prepareChildrenReplacers [] strip doc).1, hr.nodePtr ≠ path := by
    intro hr hmem heq
    obtain ⟨_, e0, h1, h2⟩ := entries_doc strip doc hr hmem
    rw [heq, he] at h1
    cases h1
    rw [hn] at h2
    cases h2
  obtain ⟨e1, h1, _, _, h4⟩ := plan_doc strip doc path e hp he
  have hd : e1.Data = [] := by
    rw [h4, hn]; rfl
  refine ⟨hno, ⟨e1, h1, hd⟩, ?_⟩
  have hfr := runReplacers_frame (prepareChildrenReplacers [] strip doc).1
    (prepareChildrenReplacers [] strip doc).2 path hno
  rw [h1] at hfr
  simp only [Option.map_some'] at hfr
  cases h2 : nodeAt (convertTree doc strip) path with
  | none =>
    simp only [convertTree] at h2
    rw [h2] at hfr
    cases hfr
  | some e2 =>
    simp only [convertTree] at h2
    rw [h2] at hfr
    simp only [Option.map_some', Option.some.injEq] at hfr
    refine ⟨e2, rfl, by rw [hfr, hd], ?_⟩
    intro b
    unfold childContent
    rw [hfr, hd]
    rfl

/-- The fragment of `pre` in `<pre><code>t</code></pre>` when the first byte and
the last rune of `t` are not whitespace: a blank line, `t` with four spaces
before each of its lines, a blank line. -/
theorem pre_code_block_clean (t : List Char) (strip : Bool)
    (h1 : unicodeIsSpace (decodeFirstByte t) = false)
    (h2 : unicodeIsSpace (decodeLastRune t) = false) :
    (nodeAt (convertTree (preCodeDoc t) strip) [0, 1, 0]).map (fun n => n.Data)
      = some (['\n', '\n', ' ', ' ', ' ', ' '] ++ indentNewlines t ++ ['\n', '\n']) := by
  rw [convertTree_eq]
  have hplan : (prepareChildrenReplacers [] strip (preCodeDoc t)).2
      = ⟨.DocumentNode, .Unknown, [], [],
          [⟨.ElementNode, .Html, "html".toList, [],
            [⟨.ElementNode, .Head, [], [], []⟩,
             bodyOf [⟨.ElementNode, .Pre, "pre".toList, [],
               [⟨.ElementNode, .Code, "code".toList, [],
                 [⟨.TextNode, .Unknown, t, [], []⟩]⟩]⟩]]⟩]⟩ := rfl
  rw [hplan]
  have hnode : nodeAt (runTree strip ⟨.DocumentNode, .Unknown, [], [],
          [⟨.ElementNode, .Html, "html".toList, [],
            [⟨.ElementNode, .Head, [], [], []⟩,
             bodyOf [⟨.ElementNode, .Pre, "pre".toList, [],
               [⟨.ElementNode, .Code, "code".toList, [],
                 [⟨.TextNode, .Unknown, t, [], []⟩]⟩]⟩]]⟩]⟩) [0, 1, 0]
      = some (applyReplacer replaceTagsCodePre
          ⟨⟨.ElementNode, .Pre, "pre".toList, [],
              [applyReplacer replaceTagsCodePre
                ⟨⟨.ElementNode, .Code, "code".toList, [],
                    runInside strip ⟨.ElementNode, .Code, "code".toList, [],
                      [⟨.TextNode, .Unknown, t, [], []⟩]⟩⟩,
                  some ⟨.ElementNode, .Pre, "pre".toList, [],
                    [⟨.ElementNode, .Code, "code".toList, [],
                      runInside strip ⟨.ElementNode, .Code, "code".toList, [],
                        [⟨.TextNode, .Unknown, t, [], []⟩]⟩⟩]⟩, 0⟩]⟩,
            some (bodyOf [⟨.ElementNode, .Pre, "pre".toList, [],
              [applyReplacer replaceTagsCodePre
                ⟨⟨.ElementNode, .Code, "code".toList, [],
                    runInside strip ⟨.ElementNode, .Code, "code".toList, [],
                      [⟨.TextNode, .Unknown, t, [], []⟩]⟩⟩,
                  some ⟨.ElementNode, .Pre, "pre".toList, [],
                    [⟨.ElementNode, .Code, "code".toList, [],
                      runInside strip ⟨.ElementNode, .Code, "code".toList, [],
                        [⟨.TextNode, .Unknown, t, [], []⟩]⟩⟩]⟩, 0⟩]⟩]), 0⟩) := rfl
  rw [hnode, runInside_text_edges strip _ _ _ _ t h1 h2,
    applyReplacer_block _ _ Atom.Pre _ _ _ _ _ rfl]
  rfl

/-! ## Attribute lookup -/

theorem lastAttr_cons_of_some (key : List Char) (a : Attribute) (rest : List Attribute)
    (v : List Char) (h : lastAttr key rest = some v) : lastAttr key (a :: rest) = some v := by
  simp only [lastAttr, h]

theorem lastAttr_cons_ne (key : List Char) (a : Attribute) (rest : List Attribute)
    (h : ¬ a.Key = key) : lastAttr key (a :: rest) = lastAttr key rest := by
  simp only [lastAttr, h, if_false]
  cases lastAttr key rest <;> rfl

theorem lastAttr_append_congr (key : List Char) (pre X Y : List Attribute)
    (h : lastAttr key X = lastAttr key Y) :
    lastAttr key (pre ++ X) = lastAttr key (pre ++ Y) := by
  induction pre with
  | nil => exact h
  | cons p rest ih => simp only [List.cons_append, lastAttr, List.append_eq, ih]

theorem lastAttr_of_mem (key : List Char) (b : Attribute) (hb : b.Key = key) :
    ∀ (mid post : List Attribute), ∃ v, lastAttr key (mid ++ b :: post) = some v := by
  intro mid post
  induction mid with
  | nil =>
    simp only [List.nil_append, lastAttr, hb, if_true]
    cases lastAttr key post with
    | none => exact ⟨_, rfl⟩
    | some v => exact ⟨_, rfl⟩
  | cons m rest ih =>
    obtain ⟨v, hv⟩ := ih
    exact ⟨v, lastAttr_cons_of_some key m _ v hv⟩

/-- An entry followed by another entry with the same key is not seen by the
lookup of any key. -/
theorem lastAttr_drop_earlier (key : List Char) (a b : Attribute) (hab : a.Key = b.Key)
    (pre mid post : List Attribute) :
    lastAttr key (pre ++ a :: (mid ++ b :: post)) = lastAttr key (pre ++ (mid ++ b :: post)) := by
  apply lastAttr_append_congr
  by_cases hk : b.Key = key
  · obtain ⟨v, hv⟩ := lastAttr_of_mem key b hk mid post
    rw [lastAttr_cons_of_some key a _ v hv, hv]
  · exact lastAttr_cons_ne key a _ (by rw [hab]; exact hk)

theorem lastAttr_last (key : List Char) (b : Attribute) (hb : b.Key = key)
    (pre post : List Attribute) (hpost : ∀ x ∈ post, ¬ x.Key = key) :
    lastAttr key (pre ++ b :: post) = some b.Val := by
  have hp : lastAttr key post = none := by
    induction post with
    | nil => rfl
    | cons x rest ih =>
      rw [lastAttr_cons_ne key x rest (hpost x (List.mem_cons_self _ _))]
      exact ih (fun y hy => hpost y (List.mem_cons_of_mem _ hy))
  have h1 : lastAttr key (b :: post) = some b.Val := by
    simp only [lastAttr, hp, hb, if_true]
  induction pre with
  | nil => exact h1
  | cons p rest ih => exact lastAttr_cons_of_some key p _ _ ih

theorem replaceTagsA_eq (c : List Char) (p : Ptr) :
    replaceTagsA c p
      = match lastAttr "href".toList p.node.Attr with
        | none => []
        | some h =>
          if h = [] then []
          else ['['] ++ c ++ [']', '('] ++ h
            ++ (match lastAttr "title".toList p.node.Attr with
                | some t => [' '] ++ t
                | none => [])
            ++ [')'] := by
  unfold replaceTagsA
  rw [linkAttrs_eq]
  cases hh : lastAttr "href".toList p.node.Attr with
  | none => simp [goLen]
  | some h =>
    by_cases he : h = []
    · subst he
      simp [goLen]
    · have hg : goLen h ≠ 0 := fun h0 => he ((goLen_eq_zero_iff h).mp h0)
      simp only [ne_eq, hg, not_false_eq_true, if_true, he, if_false]
      cases lastAttr "title".toList p.node.Attr <;> rfl

/-! ## Attribute lists as the parser delivers them -/

theorem replaceTagsA_linkOutput (c : List Char) (p : Ptr) :
    replaceTagsA c p
      = linkOutput c (lastAttr "href".toList p.node.Attr) (lastAttr "title".toList p.node.Attr) :=
  replaceTagsA_eq c p

theorem lastAttr_none_of_no_key (key : List Char) (l : List Attribute)
    (h : ∀ x ∈ l, ¬ x.Key = key) : lastAttr key l = none := by
  induction l with
  | nil => rfl
  | cons x rest ih =>
    rw [lastAttr_cons_ne key x rest (h x (List.mem_cons_self _ _))]
    exact ih (fun y hy => h y (List.mem_cons_of_mem _ hy))

theorem firstAttr_cons_ne (key : List Char) (a : Attribute) (rest : List Attribute)
    (h : ¬ a.Key = key) : firstAttr key (a :: rest) = firstAttr key rest := by
  simp only [firstAttr, h, if_false]

/-- Dropping the entries of another key does not change a lookup. -/
theorem firstAttr_filter_ne (key k : List Char) (hk : ¬ k = key) (l : List Attribute) :
    firstAttr key (l.filter (fun b => b.Key != k)) = firstAttr key l := by
  induction l with
  | nil => rfl
  | cons x rest ih =>
    by_cases hx : x.Key = k
    · have e : (x :: rest).filter (fun b => b.Key != k) = rest.filter (fun b => b.Key != k) := by
        simp [List.filter_cons, hx]
      rw [e, ih, firstAttr_cons_ne key x rest (by rw [hx]; exact hk)]
    · have e : (x :: rest).filter (fun b => b.Key != k)
          = x :: rest.filter (fun b => b.Key != k) := by
        simp [List.filter_cons, hx]
      rw [e]
      by_cases hxe : x.Key = key
      · simp only [firstAttr, hxe, if_true]
      · rw [firstAttr_cons_ne key x _ hxe, firstAttr_cons_ne key x _ hxe, ih]

theorem lastAttr_filter_ne (key k : List Char) (hk : ¬ k = key) (l : List Attribute) :
    lastAttr key (l.filter (fun b => b.Key != k)) = lastAttr key l := by
  induction l with
  | nil => rfl
  | cons x rest ih =>
    by_cases hx : x.Key = k
    · have e : (x :: rest).filter (fun b => b.Key != k) = rest.filter (fun b => b.Key != k) := by
        simp [List.filter_cons, hx]
      rw [e, ih, lastAttr_cons_ne key x rest (by rw [hx]; exact hk)]
    · have e : (x :: rest).filter (fun b => b.Key != k)
          = x :: rest.filter (fun b => b.Key != k) := by
        simp [List.filter_cons, hx]
      rw [e]
      simp only [lastAttr, ih]

/-- The list the parser delivers holds no name twice. -/
theorem parsedAttrs_nodup (raw : List Attribute) :
    ((parsedAttrs raw).map (fun a => a.Key)).Nodup := by
  induction raw with
  | nil => exact List.nodup_nil
  | cons a rest ih =>
    simp only [parsedAttrs, List.map_cons, List.nodup_cons]
    constructor
    · intro hmem
      obtain ⟨b, hb, hbk⟩ := List.mem_map.1 hmem
      have := (List.mem_filter.1 hb).2
      simp [hbk] at this
    · exact ih.sublist ((List.filter_sublist _).map _)

/-- A list without a repeated name is delivered as it is. -/
theorem parsedAttrs_of_nodup (attrs : List Attribute)
    (h : (attrs.map (fun a => a.Key)).Nodup) : parsedAttrs attrs = attrs := by
  induction attrs with
  | nil => rfl
  | cons a rest ih =>
    simp only [List.map_cons, List.nodup_cons] at h
    simp only [parsedAttrs, ih h.2, List.cons.injEq, true_and]
    rw [List.filter_eq_self]
    intro b hb
    have hne : ¬ b.Key = a.Key := fun he => h.1 (he ▸ List.mem_map_of_mem _ hb)
    simp [hne]

/-- The first entry of each name survives in the delivered list. -/
theorem firstAttr_parsedAttrs (key : List Char) (raw : List Attribute) :
    firstAttr key (parsedAttrs raw) = firstAttr key raw := by
  induction raw with
  | nil => rfl
  | cons a rest ih =>
    by_cases ha : a.Key = key
    · simp only [parsedAttrs, firstAttr, ha, if_true]
    · rw [parsedAttrs, firstAttr_cons_ne key a _ ha, firstAttr_cons_ne key a _ ha,
        firstAttr_filter_ne key a.Key ha, ih]

/-- On the delivered list the loop of the link rule, which keeps the last
assignment, finds the first written entry of the name. -/
theorem lastAttr_parsedAttrs (key : List Char) (raw : List Attribute) :
    lastAttr key (parsedAttrs raw) = firstAttr key raw := by
  induction raw with
  | nil => rfl
  | cons a rest ih =>
    by_cases ha : a.Key = key
    · subst ha
      have hnone : lastAttr a.Key ((parsedAttrs rest).filter (fun b => b.Key != a.Key))
          = none := by
        apply lastAttr_none_of_no_key
        intro x hx hxk
        have := (List.mem_filter.1 hx).2
        simp [hxk] at this
      simp only [parsedAttrs, lastAttr, hnone, firstAttr, if_true]
    · rw [parsedAttrs, lastAttr_cons_ne key a _ ha, firstAttr_cons_ne key a _ ha,
        lastAttr_filter_ne key a.Key ha, ih]

/-- A written entry that follows an entry of the same name is never the first
of any name. -/
theorem firstAttr_drop_later (key : List Char) (a b : Attribute) (hab : a.Key = b.Key)
    (pre mid post : List Attribute) :
    firstAttr key (pre ++ a :: (mid ++ b :: post)) = firstAttr key (pre ++ a :: (mid ++ post)) := by
  induction pre with
  | nil =>
    by_cases ha : a.Key = key
    · simp only [List.nil_append, firstAttr, ha, if_true]
    · simp only [List.nil_append]
      rw [firstAttr_cons_ne key a _ ha, firstAttr_cons_ne key a _ ha]
      induction mid with
      | nil =>
        simp only [List.nil_append]
        exact firstAttr_cons_ne key b post (by rw [← hab]; exact ha)
      | cons m rest ih => simp only [List.cons_append, firstAttr, List.append_eq, ih]
  | cons p rest ih => simp only [List.cons_append, firstAttr, List.append_eq, ih]

/-! ## Lines and the blockquote rule -/

theorem splitLines_ne_nil (s : List Char) : splitLines s ≠ [] := by
  cases s with
  | nil => simp [splitLines]
  | cons c rest =>
    simp only [splitLines]
    split
    · exact List.cons_ne_nil _ _
    · split <;> exact List.cons_ne_nil _ _

theorem splitLines_cons_nl (c : Char) (rest : List Char) (h : isNl c = true) :
    splitLines (c :: rest) = [] :: splitLines rest := by
  simp only [splitLines, h, if_true]

theorem splitLines_cons_other (c : Char) (rest l : List Char) (ls : List (List Char))
    (h : isNl c = false) (hr : splitLines rest = l :: ls) :
    splitLines (c :: rest) = (c :: l) :: ls := by
  simp only [splitLines, h, Bool.false_eq_true, if_false, hr]

/-- A piece without newline in front of a text lengthens its first line. -/
theorem splitLines_append (x y l : List Char) (ls : List (List Char))
    (hx : ∀ c ∈ x, isNl c = false) (hy : splitLines y = l :: ls) :
    splitLines (x ++ y) = (x ++ l) :: ls := by
  induction x with
  | nil => exact hy
  | cons a rest ih =>
    have := ih (fun c hc => hx c (List.mem_cons_of_mem _ hc))
    exact splitLines_cons_other a (rest ++ y) (rest ++ l) ls (hx a (List.mem_cons_self _ _)) this

/-- Replacing `(?m)^` by a piece without newline puts the piece in front of
every line. -/
theorem splitLines_replaceLineStarts (r : List Char) (hr : ∀ c ∈ r, isNl c = false) :
    ∀ D : List Char,
      splitLines (replaceLineStarts D r) = (splitLines D).map (fun l => r ++ l) := by
  intro D
  unfold replaceLineStarts
  induction D with
  | nil =>
    have := splitLines_append r [] [] [] hr rfl
    simpa [splitLines] using this
  | cons c rest ih =>
    obtain ⟨l, ls, hl⟩ : ∃ l ls, splitLines rest = l :: ls := by
      cases h : splitLines rest with
      | nil => exact absurd h (splitLines_ne_nil rest)
      | cons l ls => exact ⟨l, ls, rfl⟩
    obtain ⟨g, gs, hg⟩ : ∃ g gs, splitLines
        (rest.flatMap (fun c => if isNl c = true then c :: r else [c])) = g :: gs := by
      cases h : splitLines (rest.flatMap (fun c => if isNl c = true then c :: r else [c])) with
      | nil => exact absurd h (splitLines_ne_nil _)
      | cons g gs => exact ⟨g, gs, rfl⟩
    have ih2 := ih
    rw [splitLines_append r _ g gs hr hg, hl] at ih2
    simp only [List.map_cons, List.cons.injEq, List.append_cancel_left_eq] at ih2
    cases hc : isNl c with
    | true =>
      simp only [List.flatMap_cons, hc, if_true, List.cons_append]
      rw [splitLines_append r _ [] _ hr (splitLines_cons_nl c _ hc), ih,
        splitLines_cons_nl c rest hc]
      rfl
    | false =>
      simp only [List.flatMap_cons, hc, Bool.false_eq_true, if_false, List.singleton_append]
      rw [splitLines_append r _ (c :: g) gs hr (splitLines_cons_other c _ g gs hc hg),
        splitLines_cons_other c rest l ls hc hl, ih2.1, ih2.2]
      rfl

theorem takeWhile_dropWhile_nil (p : Char → Bool) (s : List Char) :
    (s.dropWhile p).takeWhile p = [] := by
  induction s with
  | nil => rfl
  | cons a rest ih =>
    by_cases ha : p a = true
    · rw [List.dropWhile_cons_of_pos ha]; exact ih
    · rw [List.dropWhile_cons_of_neg ha, List.takeWhile_cons_of_neg ha]

theorem reMultiNl_eq (s : List Char) :
    reMultiNl false s
      = if 3 ≤ (s.takeWhile isNl).length then some (s.takeWhile isNl).length else none := rfl

/-- The scan for `\n\n\n+` leaves no run of three newlines, and at the
beginning of its output at most two newlines, none where the input has none. -/
theorem noMatch_passNl_aux (n : Nat) : ∀ u : List Char, u.length ≤ n →
    NoMatch reMultiNl (replaceAllAux reMultiNl ['\n', '\n'] 0 false u) ∧
    ((replaceAllAux reMultiNl ['\n', '\n'] 0 false u).takeWhile isNl).length
      ≤ min 2 (u.takeWhile isNl).length := by
  induction n with
  | zero =>
    intro u hu
    cases u with
    | nil => exact ⟨trivial, by simp [replaceAllAux]⟩
    | cons c rest => simp at hu
  | succ n ih =>
    intro u hu
    cases u with
    | nil => exact ⟨trivial, by simp [replaceAllAux]⟩
    | cons c rest =>
      have hrest : rest.length ≤ n := by simp only [List.length_cons] at hu; omega
      by_cases hm : 3 ≤ ((c :: rest).takeWhile isNl).length
      · obtain ⟨k, hk⟩ : ∃ k, ((c :: rest).takeWhile isNl).length = k + 1 :=
          ⟨((c :: rest).takeWhile isNl).length - 1, by omega⟩
        have hsome : reMultiNl false (c :: rest) = some (k + 1) := by
          rw [reMultiNl_eq, if_pos hm, hk]
        have hdrop : rest.drop k = (c :: rest).dropWhile isNl := by
          rw [← drop_length_takeWhile, hk, List.drop_succ_cons]
        rw [replaceAllAux_some _ _ _ _ _ k hsome, hdrop]
        have hlen : ((c :: rest).dropWhile isNl).length ≤ n := by
          rw [← hdrop, List.length_drop]
          omega
        obtain ⟨h1, h2⟩ := ih _ hlen
        rw [takeWhile_dropWhile_nil] at h2
        simp only [List.length_nil, Nat.min_zero, Nat.le_zero_eq, List.length_eq_zero] at h2
        have hnl : isNl '\n' = true := by decide
        have hcons : ∀ X : List Char, ['\n', '\n'] ++ X = '\n' :: '\n' :: X := fun _ => rfl
        rw [hcons]
        refine ⟨⟨?_, ?_, h1⟩, ?_⟩
        · rw [reMultiNl_eq]
          simp only [List.takeWhile_cons_of_pos hnl, h2, List.length_cons, List.length_nil]
          rfl
        · rw [reMultiNl_eq]
          simp only [List.takeWhile_cons_of_pos hnl, h2, List.length_cons, List.length_nil]
          rfl
        · simp only [List.takeWhile_cons_of_pos hnl, h2, List.length_cons, List.length_nil]
          omega
      · have hnone : reMultiNl false (c :: rest) = none := by
          rw [reMultiNl_eq, if_neg hm]
        rw [replaceAllAux_none _ _ _ _ _ hnone]
        obtain ⟨h1, h2⟩ := ih rest hrest
        by_cases hc : isNl c = true
        · rw [List.takeWhile_cons_of_pos hc] at hm ⊢
          simp only [List.length_cons] at hm ⊢
          refine ⟨⟨?_, h1⟩, ?_⟩
          · rw [reMultiNl_eq, List.takeWhile_cons_of_pos hc, if_neg]
            simp only [List.length_cons]
            omega
          · rw [List.takeWhile_cons_of_pos hc, List.length_cons]
            omega
        · refine ⟨⟨?_, h1⟩, ?_⟩
          · rw [reMultiNl_eq, List.takeWhile_cons_of_neg hc, if_neg]
            simp
          · rw [List.takeWhile_cons_of_neg hc]
            simp

/-- After the replacement of `\n\n\n+` by two newlines no run of three
newlines is left. -/
theorem noMatch_passNl (u : List Char) :
    NoMatch reMultiNl (replaceAllString reMultiNl u ['\n', '\n']) := by
  have h : replaceAllString reMultiNl u ['\n', '\n']
      = replaceAllAux reMultiNl ['\n', '\n'] 0 false u := by
    cases u with
    | nil => rfl
    | cons c rest => rfl
  rw [h]
  exact (noMatch_passNl_aux u.length u (Nat.le_refl _)).1

/-! ## The dispatch table -/

/-- The rules the planner can register. -/
theorem childReplacer_rules (strip : Bool) (e : Node) (f : replaceFn)
    (h : childReplacer strip e = some f) :
    f = replaceTagsBr ∨ f = replaceTagsH ∨ f = replaceTagsHr ∨ f = replaceTagsEmI ∨
    f = replaceTagsStrongB ∨ f = replaceTagsCodePre ∨ f = replaceTagsA ∨
    f = replaceTagsBlockquote ∨ f = replaceTagsLi ∨ f = replaceTagsUlOl ∨
    f = replaceTagsBlocks ∨ f = replaceTagsOther ∨ f = replaceText := by
  unfold childReplacer at h
  cases hty : e.Typ <;> rw [hty] at h <;> simp only [reduceCtorEq] at h
  · simp only [Option.some.injEq] at h
    subst h
    simp
  · cases hat : e.DataAtom <;> rw [hat] at h <;> cases strip <;>
      first
      | (have h2 : (none : Option replaceFn) = some f := h
         cases h2)
      | (have h2 : some replaceTagsBlocks = some f := h
         cases h2; simp)
      | (have h2 : some replaceTagsH = some f := h
         cases h2; simp)
      | (have h2 : some replaceTagsBr = some f := h
         cases h2; simp)
      | (have h2 : some replaceTagsHr = some f := h
         cases h2; simp)
      | (have h2 : some replaceTagsEmI = some f := h
         cases h2; simp)
      | (have h2 : some replaceTagsStrongB = some f := h
         cases h2; simp)
      | (have h2 : some replaceTagsCodePre = some f := h
         cases h2; simp)
      | (have h2 : some replaceTagsA = some f := h
         cases h2; simp)
      | (have h2 : some replaceTagsBlockquote = some f := h
         cases h2; simp)
      | (have h2 : some replaceTagsLi = some f := h
         cases h2; simp)
      | (have h2 : some replaceTagsUlOl = some f := h
         cases h2; simp)
      | (have h2 : some replaceTagsOther = some f := h
         cases h2; simp)

/-- The image rule differs from every rule of the dispatch table: on the probe
with empty content it returns `![](s)`. -/
theorem rule_ne_img (f : replaceFn)
    (h : f = replaceTagsBr ∨ f = replaceTagsH ∨ f = replaceTagsHr ∨ f = replaceTagsEmI ∨
      f = replaceTagsStrongB ∨ f = replaceTagsCodePre ∨ f = replaceTagsA ∨
      f = replaceTagsBlockquote ∨ f = replaceTagsLi ∨ f = replaceTagsUlOl ∨
      f = replaceTagsBlocks ∨ f = replaceTagsOther ∨ f = replaceText) :
    f ≠ replaceTagsImg := by
  intro heq
  have himg : replaceTagsImg [] imgProbe = "![](s)".toList := by decide
  have hf : f [] imgProbe = "![](s)".toList := by rw [heq]; exact himg
  rcases h with h | h | h | h | h | h | h | h | h | h | h | h | h <;> subst h <;>
    revert hf <;> decide

theorem childReplacer_unhandled (strip : Bool) (e : Node) (hty : e.Typ = .ElementNode)
    (hu : e.DataAtom.unhandled = true) : childReplacer strip e = none := by
  unfold childReplacer
  rw [hty]
  cases hat : e.DataAtom <;> rw [hat] at hu <;>
    first
    | rfl
    | exact absurd hu (by decide)

/-- No position comes before itself in document order. -/
theorem docBefore_irrefl : ∀ p : List Nat, ¬ docBefore p p
  | [] => fun h => h
  | i :: p => fun h => by
    rcases h with h | ⟨_, h⟩
    · exact Nat.lt_irrefl _ h
    · exact docBefore_irrefl p h

/-- A common ancestor path does not change document order. -/
theorem docBefore_append (p : List Nat) (a b : List Nat) :
    docBefore (p ++ a) (p ++ b) ↔ docBefore a b := by
  induction p with
  | nil => rfl
  | cons i p ih =>
    simp only [List.cons_append, docBefore, Nat.lt_irrefl, true_and, false_or]
    exact ih

/-- A node comes before each of its proper descendants. -/
theorem docBefore_descendant (p q : List Nat) (hq : q ≠ []) : docBefore p (p ++ q) := by
  have h : docBefore (p ++ []) (p ++ q) := by
    rw [docBefore_append]
    cases q with
    | nil => exact absurd rfl hq
    | cons j q => trivial
  simpa using h

/-- A proper descendant never comes before its ancestor. -/
theorem not_docBefore_ancestor (p q : List Nat) : ¬ docBefore (p ++ q) p := by
  intro h
  have h2 : docBefore (p ++ q) (p ++ []) := by simpa using h
  rw [docBefore_append] at h2
  cases q with
  | nil => exact h2
  | cons j q => exact h2

/-- The worklist of a sibling list is in document order. -/
theorem entries_sorted (strip : Bool) (n : Nat) : ∀ (cs : List Node), sizeOf cs ≤ n →
    ∀ (p : List Nat) (i : Nat),
    ((prepareChildrenLoop p strip i cs).1.map (fun hr => hr.nodePtr)).Pairwise docBefore := by
  induction n with
  | zero =>
    intro cs hsz
    cases cs with
    | nil => intro p i; simp [prepareChildrenLoop]
    | cons c rest => simp at hsz
  | succ n ih =>
    intro cs hsz
    cases cs with
    | nil => intro p i; simp [prepareChildrenLoop]
    | cons c rest =>
      intro p i
      obtain ⟨ty, a, d, attr, ccs⟩ := c
      have hsz1 : sizeOf ccs ≤ n := by
        simp only [List.cons.sizeOf_spec, Node.mk.sizeOf_spec] at hsz
        omega
      have hsz2 : sizeOf rest ≤ n := by
        simp only [List.cons.sizeOf_spec, Node.mk.sizeOf_spec] at hsz
        omega
      rw [prepareChildrenLoop_cons]
      have hsub : ∀ x ∈ (prepareChildrenLoop (p ++ [i]) strip 0 ccs).1,
          ∃ q : List Nat, q ≠ [] ∧ x.nodePtr = p ++ i :: q := by
        intro x hx
        obtain ⟨j, q, _, _, h1, _⟩ := entries_path strip n ccs hsz1 (p ++ [i]) 0 x hx
        exact ⟨(0 + j) :: q, by simp, by rw [h1]; simp⟩
      have hrest : ∀ x ∈ (prepareChildrenLoop p strip (i + 1) rest).1,
          ∃ (j : Nat) (q : List Nat), x.nodePtr = p ++ (i + 1 + j) :: q := by
        intro x hx
        obtain ⟨j, q, _, _, h1, _⟩ := entries_path strip n rest hsz2 p (i + 1) x hx
        exact ⟨j, q, h1⟩
      have hown : ∀ x ∈ (match childReplacer strip ⟨ty, a, d, attr, ccs⟩ with
            | some f => [(⟨p ++ [i], f⟩ : htmlReplace)]
            | none => []), x.nodePtr = p ++ [i] := by
        intro x hx
        cases hc : childReplacer strip ⟨ty, a, d, attr, ccs⟩ with
        | none => rw [hc] at hx; simp at hx
        | some f =>
          rw [hc] at hx
          simp only [List.mem_singleton] at hx
          rw [hx]
      simp only [List.map_append, List.pairwise_append, List.mem_append, List.mem_map]
      refine ⟨⟨?_, ih ccs hsz1 (p ++ [i]) 0, ?_⟩, ih rest hsz2 p (i + 1), ?_⟩
      · cases hc : childReplacer strip ⟨ty, a, d, attr, ccs⟩ with
        | none => simp
        | some f => simp
      · rintro _ ⟨x, hx, rfl⟩ _ ⟨y, hy, rfl⟩
        obtain ⟨q, hq, h2⟩ := hsub y hy
        rw [hown x hx, h2, docBefore_append]
        cases q with
        | nil => exact absurd rfl hq
        | cons j q => exact Or.inr ⟨rfl, trivial⟩
      · rintro _ (⟨x, hx, rfl⟩ | ⟨x, hx, rfl⟩) _ ⟨y, hy, rfl⟩
        · obtain ⟨j, q, h2⟩ := hrest y hy
          rw [hown x hx, h2, docBefore_append]
          exact Or.inl (by omega)
        · obtain ⟨q, _, h1⟩ := hsub x hx
          obtain ⟨j, q2, h2⟩ := hrest y hy
          rw [h1, h2, docBefore_append]
          exact Or.inl (by omega)

/-- The worklist of a document is in document order. -/
theorem worklist_sorted (strip : Bool) (doc : Node) :
    ((prepareChildrenReplacers [] strip doc).1.map (fun hr => hr.nodePtr)).Pairwise
      docBefore := by
  obtain ⟨ty, a, d, attr, cs⟩ := doc
  simp only [prepareChildrenReplacers]
  exact entries_sorted strip _ cs (Nat.le_refl _) [] 0

/-- In a list sorted by a relation, an entry that is not after another one and
differs from it stands at an earlier index. -/
theorem index_of_pairwise {α : Type} (R : α → α → Prop) (L : List α) (h : L.Pairwise R)
    (i j : Nat) (a b : α) (ha : L[i]? = some a) (hb : L[j]? = some b)
    (hne : a ≠ b) (hnot : ¬ R b a) : i < j := by
  obtain ⟨hi, hia⟩ := List.getElem?_eq_some.1 ha
  obtain ⟨hj, hjb⟩ := List.getElem?_eq_some.1 hb
  by_contra hn
  rcases Nat.lt_or_eq_of_le (Nat.le_of_not_lt hn) with hlt | heq
  · have := List.pairwise_iff_getElem.1 h j i hj hi hlt
    rw [hia, hjb] at this
    exact hnot this
  · subst heq
    rw [ha] at hb
    exact hne (Option.some.inj hb)

/-- Document order is asymmetric. -/
theorem docBefore_asymm : ∀ p q : List Nat, docBefore p q → ¬ docBefore q p
  | [], [] => fun h _ => h
  | [], _ :: _ => fun _ h => h
  | _ :: _, [] => fun h _ => h
  | i :: p, j :: q => fun h1 h2 => by
    rcases h1 with h1 | ⟨h1, h1r⟩
    · rcases h2 with h2 | ⟨h2, _⟩
      · exact Nat.lt_asymm h1 h2
      · omega
    · rcases h2 with h2 | ⟨_, h2r⟩
      · omega
      · exact docBefore_asymm p q h1r h2r

/-- The loop of `process` is the run of the reversed worklist from its first
entry on. -/
theorem runReplacers_eq_runInOrder (rs : List htmlReplace) (D : Node) :
    runReplacers rs D = runInOrder rs.reverse D := by
  simp only [runReplacers, runInOrder, List.foldl_reverse]

/-- A sequence of the worklist entries in which every entry comes after the
entries later in document order is the reversed worklist. -/
theorem later_first_unique (strip : Bool) (doc : Node) (rs : List htmlReplace)
    (hperm : rs.Perm (prepareChildrenReplacers [] strip doc).1)
    (hord : rs.Pairwise (fun a b => docBefore b.nodePtr a.nodePtr)) :
    rs = (prepareChildrenReplacers [] strip doc).1.reverse := by
  haveI : IsAntisymm htmlReplace (fun a b => docBefore b.nodePtr a.nodePtr) :=
    ⟨fun a b h1 h2 => absurd h2 (docBefore_asymm _ _ h1)⟩
  refine List.eq_of_perm_of_sorted (hperm.trans (List.reverse_perm _).symm) hord ?_
  exact List.pairwise_reverse.2 (List.pairwise_map.1 (worklist_sorted strip doc))

/-- A proper ancestor comes first in document order. -/
theorem docBefore_of_properAncestor : ∀ p q : List Nat, properAncestor p q = true →
    docBefore p q
  | [], [] => fun h => by simp [properAncestor] at h
  | [], _ :: _ => fun _ => trivial
  | _ :: _, [] => fun h => by simp [properAncestor] at h
  | i :: p, j :: q => fun h => by
    simp only [properAncestor, Bool.and_eq_true, beq_iff_eq] at h
    exact Or.inr ⟨h.1, docBefore_of_properAncestor p q h.2⟩

/-- A sequence of rounds that takes every entry after the entries later in
document order takes every node after its descendants. -/
theorem childrenFirst_of_later_first : ∀ ps : List (List Nat),
    ps.Pairwise (fun a b => docBefore b a) → childrenFirst ps = true
  | [] => fun _ => rfl
  | a :: rest => fun h => by
    rw [List.pairwise_cons] at h
    simp only [childrenFirst, Bool.and_eq_true, List.all_eq_true, Bool.not_eq_true']
    refine ⟨fun b hb => ?_, childrenFirst_of_later_first rest h.2⟩
    cases hpa : properAncestor a b with
    | false => rfl
    | true => exact absurd (docBefore_of_properAncestor a b hpa) (docBefore_asymm _ _ (h.1 b hb))

/-- The slice `s[0:1]` is in range for a non-empty string. -/
theorem decodeFirstByteE_ok (s : List Char) (h : goLen s ≠ 0) :
    decodeFirstByteE s = .ok (decodeFirstByte s) := by
  cases s with
  | nil => exact absurd rfl h
  | cons c rest => rfl

/-- The sibling test never faults. -/
theorem checkNodeSiblingWsE_ok (n : Ptr) (next : Bool) :
    checkNodeSiblingWsE n next = .ok (checkNodeSiblingWs n next) := by
  unfold checkNodeSiblingWsE checkNodeSiblingWs
  cases (if next then n.nextSiblings else n.prevSiblings).find? isElementOrText with
  | none => rfl
  | some s =>
    simp only []
    by_cases hb : isBlock s.DataAtom = true
    · simp only [hb, if_true]
    · simp only [hb, if_false, Bool.false_eq_true]
      by_cases h0 : goLen (if s.Typ = .TextNode then s.Data else getNodeContent s true) = 0
      · simp only [h0, if_true]
      · simp only [h0, if_false]
        cases next with
        | true => simp only [if_true, decodeFirstByteE_ok _ h0]
        | false => simp only [Bool.false_eq_true, if_false]

/-- The padding test never faults. -/
theorem getNodeSpacesE_ok (n : Ptr) : getNodeSpacesE n = .ok (getNodeSpaces n) := by
  unfold getNodeSpacesE getNodeSpaces
  by_cases h0 : goLen (getNodeContent n.node false) = 0
  · simp only [h0, if_true]
  · simp only [h0, if_false]
    by_cases hb : isBlock n.node.DataAtom = true
    · simp only [hb, if_true]
    · simp only [hb, if_false, Bool.false_eq_true, decodeFirstByteE_ok _ h0, spaceOrSiblingE,
        checkNodeSiblingWsE_ok]
      cases h1 : unicodeIsSpace (decodeFirstByte (getNodeContent n.node false)) <;>
      cases h2 : unicodeIsSpace (decodeLastRune (getNodeContent n.node false)) <;>
      simp

/-- The rule of `code` and `pre` never faults. -/
theorem replaceTagsCodePreE_ok (c : List Char) (n : Ptr) :
    replaceTagsCodePreE c n = .ok (replaceTagsCodePre c n) := by
  obtain ⟨⟨ty, a, d, attr, cs⟩, par, idx⟩ := n
  unfold replaceTagsCodePreE replaceTagsCodePre preCodeCondE parentAtomE
  cases hpre : a.isPre <;> cases hc2 : a.isCode <;> cases cs with
  | nil => cases par <;> simp [hpre, hc2, Node.FirstChild, deref]
  | cons fc rest =>
    obtain ⟨ty1, a1, d1, attr1, cs1⟩ := fc
    cases hcode : a1.isCode <;> cases cs1 <;> cases par <;>
      simp [hpre, hc2, hcode, Node.FirstChild, deref]

/-- The rule of `li` never faults. -/
theorem replaceTagsLiE_ok (c : List Char) (n : Ptr) :
    replaceTagsLiE c n = .ok (replaceTagsLi c n) := by
  obtain ⟨nd, par, idx⟩ := n
  unfold replaceTagsLiE replaceTagsLi
  cases par with
  | none => simp
  | some p => simp [deref]

/-- The rule of `ul` and `ol` never faults. -/
theorem replaceTagsUlOlE_ok (c : List Char) (n : Ptr) :
    replaceTagsUlOlE c n = .ok (replaceTagsUlOl c n) := by
  obtain ⟨nd, par, idx⟩ := n
  unfold replaceTagsUlOlE replaceTagsUlOl parentAtomE
  cases par with
  | none => simp
  | some p => simp [deref]

/-- The two dispatch tables agree, and no registered rule faults. -/
theorem atomReplacerE_ok (strip : Bool) (a : Atom) :
    (atomReplacerE strip a = none ∧ atomReplacer strip a = none) ∨
    ∃ g f, atomReplacerE strip a = some g ∧ atomReplacer strip a = some f ∧ RuleOk g f := by
  cases a <;> cases strip <;>
    first
    | exact Or.inl ⟨rfl, rfl⟩
    | exact Or.inr ⟨_, _, rfl, rfl, fun _ _ => rfl⟩
    | exact Or.inr ⟨_, _, rfl, rfl, replaceTagsCodePreE_ok⟩
    | exact Or.inr ⟨_, _, rfl, rfl, replaceTagsLiE_ok⟩
    | exact Or.inr ⟨_, _, rfl, rfl, replaceTagsUlOlE_ok⟩

theorem childReplacerE_ok (strip : Bool) (c : Node) :
    (childReplacerE strip c = none ∧ childReplacer strip c = none) ∨
    ∃ g f, childReplacerE strip c = some g ∧ childReplacer strip c = some f ∧ RuleOk g f := by
  unfold childReplacerE childReplacer
  cases c.Typ with
  | ElementNode => exact atomReplacerE_ok strip c.DataAtom
  | TextNode => exact Or.inr ⟨_, _, rfl, rfl, fun _ _ => rfl⟩
  | _ => exact Or.inl ⟨rfl, rfl⟩

theorem prepareChildrenLoopE_cons (p : List Nat) (strip : Bool) (i : Nat)
    (ty : NodeType) (a : Atom) (d : List Char) (attr : List Attribute) (ccs rest : List Node) :
    prepareChildrenLoopE p strip i (⟨ty, a, d, attr, ccs⟩ :: rest)
      = ((match childReplacerE strip ⟨ty, a, d, attr, ccs⟩ with
          | some f => [(⟨p ++ [i], f⟩ : htmlReplaceE)]
          | none => [])
          ++ (prepareChildrenLoopE (p ++ [i]) strip 0 ccs).1
          ++ (prepareChildrenLoopE p strip (i + 1) rest).1,
         (match childReplacerE strip ⟨ty, a, d, attr, ccs⟩ with
          | some _ => (⟨ty, a, d, attr, (prepareChildrenLoopE (p ++ [i]) strip 0 ccs).2⟩ : Node)
          | none => ⟨ty, a, [], attr, (prepareChildrenLoopE (p ++ [i]) strip 0 ccs).2⟩)
          :: (prepareChildrenLoopE p strip (i + 1) rest).2) := by
  rw [prepareChildrenLoopE]
  simp only [prepareChildrenReplacersE]

/-- The planner with the checked rules builds the same tree and a worklist
for the same nodes, with rules that never fault. -/
theorem planE_ok (strip : Bool) (n : Nat) : ∀ (cs : List Node), sizeOf cs ≤ n →
    ∀ (p : List Nat) (i : Nat),
    List.Forall₂ EntryOk (prepareChildrenLoopE p strip i cs).1 (prepareChildrenLoop p strip i cs).1 ∧
    (prepareChildrenLoopE p strip i cs).2 = (prepareChildrenLoop p strip i cs).2 := by
  induction n with
  | zero =>
    intro cs hsz
    cases cs with
    | nil => intro p i; exact ⟨List.Forall₂.nil, rfl⟩
    | cons c rest => simp at hsz
  | succ n ih =>
    intro cs hsz
    cases cs with
    | nil => intro p i; exact ⟨List.Forall₂.nil, rfl⟩
    | cons c rest =>
      intro p i
      obtain ⟨ty, a, d, attr, ccs⟩ := c
      have hsz1 : sizeOf ccs ≤ n := by
        simp only [List.cons.sizeOf_spec, Node.mk.sizeOf_spec] at hsz
        omega
      have hsz2 : sizeOf rest ≤ n := by
        simp only [List.cons.sizeOf_spec, Node.mk.sizeOf_spec] at hsz
        omega
      rw [prepareChildrenLoopE_cons, prepareChildrenLoop_cons]
      obtain ⟨hs1, hs2⟩ := ih ccs hsz1 (p ++ [i]) 0
      obtain ⟨hr1, hr2⟩ := ih rest hsz2 p (i + 1)
      rcases childReplacerE_ok strip ⟨ty, a, d, attr, ccs⟩ with ⟨h1, h2⟩ | ⟨g, f, h1, h2, h3⟩
      · rw [h1, h2]
        simp only [List.nil_append, hs2, hr2, and_true]
        exact List.rel_append hs1 hr1
      · rw [h1, h2]
        simp only [hs2, hr2, and_true]
        exact List.rel_append (List.rel_append (List.Forall₂.cons ⟨rfl, h3⟩ List.Forall₂.nil) hs1) hr1

theorem planE_doc (strip : Bool) (doc : Node) :
    List.Forall₂ EntryOk (prepareChildrenReplacersE [] strip doc).1
      (prepareChildrenReplacers [] strip doc).1 ∧
    (prepareChildrenReplacersE [] strip doc).2 = (prepareChildrenReplacers [] strip doc).2 := by
  obtain ⟨ty, a, d, attr, cs⟩ := doc
  simp only [prepareChildrenReplacersE, prepareChildrenReplacers]
  obtain ⟨h1, h2⟩ := planE_ok strip _ cs (Nat.le_refl _) [] 0
  exact ⟨h1, by rw [h2]⟩

/-- A node pointer can be followed exactly when its path addresses a node. -/
theorem getPtrFrom_isSome (p : List Nat) : ∀ (par : Option Node) (idx : Nat) (n : Node),
    (getPtrFrom par idx n p).isSome = (nodeAt n p).isSome := by
  induction p with
  | nil => intro par idx n; rfl
  | cons i rest ih =>
    intro par idx n
    simp only [getPtrFrom, nodeAt]
    cases n.Children[i]? with
    | none => rfl
    | some c => exact ih (some n) i c

/-- Writing a `Data` field keeps the shape of the tree: the same paths address
a node before and after. -/
theorem nodeAt_setData_isSome (d : List Char) (p : List Nat) : ∀ (n : Node) (q : List Nat),
    (nodeAt (setData n q d) p).isSome = (nodeAt n p).isSome := by
  induction p with
  | nil => intro n q; rfl
  | cons i rest ih =>
    intro n q
    cases q with
    | nil => rfl
    | cons j qs =>
      simp only [setData]
      cases hj : n.Children[j]? with
      | none => rfl
      | some cj =>
        simp only [nodeAt]
        by_cases hij : j = i
        · subst hij
          have hlt : j < n.Children.length := (List.getElem?_eq_some.1 hj).1
          rw [List.getElem?_set_self hlt, hj]
          exact ih cj qs
        · rw [List.getElem?_set_ne hij]

theorem nodeAt_runReplacer_isSome (hr : htmlReplace) (D : Node) (p : List Nat) :
    (nodeAt (runReplacer hr D) p).isSome = (nodeAt D p).isSome := by
  unfold runReplacer
  cases getPtr D hr.nodePtr with
  | none => rfl
  | some q => exact nodeAt_setData_isSome _ p D hr.nodePtr

theorem nodeAt_runReplacers_isSome (rs : List htmlReplace) (D : Node) (p : List Nat) :
    (nodeAt (runReplacers rs D) p).isSome = (nodeAt D p).isSome := by
  induction rs with
  | nil => rfl
  | cons hr rest ih =>
    simp only [runReplacers, List.foldr_cons]
    rw [nodeAt_runReplacer_isSome]
    exact ih

/-- A round on an entry whose pointer addresses a node does not fault. -/
theorem runReplacerE_ok (e : htmlReplaceE) (h : htmlReplace) (D : Node) (he : EntryOk e h)
    (hv : (nodeAt D h.nodePtr).isSome = true) :
    runReplacerE e D = .ok (runReplacer h D) := by
  obtain ⟨h1, h2⟩ := he
  unfold runReplacerE runReplacer
  rw [h1]
  have hp : (getPtr D h.nodePtr).isSome = true := by
    unfold getPtr
    rw [getPtrFrom_isSome]
    exact hv
  cases hg : getPtr D h.nodePtr with
  | none => rw [hg] at hp; cases hp
  | some p => simp only [getNodeSpacesE_ok, h2 _ p]

/-- The loop does not fault when every pointer of the worklist addresses a
node. -/
theorem runReplacersE_ok (D : Node) : ∀ (es : List htmlReplaceE) (hs : List htmlReplace),
    List.Forall₂ EntryOk es hs → (∀ h ∈ hs, (nodeAt D h.nodePtr).isSome = true) →
    runReplacersE es D = .ok (runReplacers hs D) := by
  intro es hs hrel
  induction hrel with
  | nil => intro _; rfl
  | @cons e h es1 hs1 he _ ih =>
    intro hv
    rw [runReplacersE, ih (fun x hm => hv x (List.mem_cons_of_mem _ hm))]
    have hrun : runReplacers (h :: hs1) D = runReplacer h (runReplacers hs1 D) := rfl
    rw [hrun]
    refine runReplacerE_ok e h _ he ?_
    rw [nodeAt_runReplacers_isSome hs1 D h.nodePtr]
    exact hv h (List.mem_cons_self _ _)

/-- Every pointer of the worklist addresses a node of the planned tree. -/
theorem worklist_valid (strip : Bool) (doc : Node) (hr : htmlReplace)
    (h : hr ∈ (prepareChildrenReplacers [] strip doc).1) :
    (nodeAt (prepareChildrenReplacers [] strip doc).2 hr.nodePtr).isSome = true := by
  obtain ⟨hne, e, he, _⟩ := entries_doc strip doc hr h
  obtain ⟨e1, h1, _⟩ := plan_doc strip doc hr.nodePtr e hne he
  rw [h1]
  rfl

/-- The checked core returns the text of `process`. -/
theorem processE_ok (doc : Node) (strip : Bool) :
    processE doc strip = .ok (process doc strip) := by
  obtain ⟨h1, h2⟩ := planE_doc strip doc
  unfold processE
  simp only []
  rw [h2, runReplacersE_ok _ _ _ h1 (worklist_valid strip doc)]
  rfl

/-! ## Claims about the normalizer -/

/-- Claim C1. `normalizeMd` is idempotent: normalizing an already normalized
text changes nothing. -/
theorem normalizeMd_idempotent (s : List Char) :
    normalizeMd (normalizeMd s) = normalizeMd s :=
  normalizeMd_fixed _ (edge_normalizeMd s) (noMatch_normalizeMd s)

/-- Claim C2. The output of `normalizeMd` contains no newline followed by one
or more `\s` characters and a newline; in particular it contains no three
consecutive newlines. -/
theorem normalizeMd_no_blank_run (s : List Char) :
    (¬ ∃ pre w post, w ≠ [] ∧ (∀ c ∈ w, reSpace c = true) ∧
        normalizeMd s = pre ++ '\n' :: (w ++ '\n' :: post)) ∧
    (¬ ∃ pre post, normalizeMd s = pre ++ '\n' :: '\n' :: '\n' :: post) := by
  have key : ¬ ∃ pre w post, w ≠ [] ∧ (∀ c ∈ w, reSpace c = true) ∧
      normalizeMd s = pre ++ '\n' :: (w ++ '\n' :: post) := by
    rintro ⟨pre, w, post, hne, hw, heq⟩
    have h := noMatch_normalizeMd s
    rw [heq] at h
    exact reMultiNlW_blank_run w post hne hw (noMatch_of_append _ _ _ h).1
  refine ⟨key, ?_⟩
  rintro ⟨pre, post, heq⟩
  exact key ⟨pre, ['\n'], post, by simp, by simp [reSpace], by simpa using heq⟩

/-- Claim C3, as stated, fails: the edge trim keeps leading spaces, so the
output for `" \na"` is non-empty and its first line is a single space. -/
theorem normalizeMd_first_line_blank :
    normalizeMd [' ', '\n', 'a'] ≠ [] ∧
    blankOnly (firstLine (normalizeMd [' ', '\n', 'a'])) = true := by
  decide

/-- Claim C3, amended. A non-empty output of `normalizeMd` does not begin with
a tab, carriage return or newline, so its first line is not empty, and its
last line is neither empty nor made of `\s` characters only. -/
theorem normalizeMd_edge_lines (s : List Char) (h : normalizeMd s ≠ []) :
    (∃ c, (normalizeMd s).head? = some c ∧ reTRN c = false) ∧
    firstLine (normalizeMd s) ≠ [] ∧
    blankOnly (lastLine (normalizeMd s)) = false := by
  obtain ⟨h1, h2⟩ := edge_normalizeMd s
  generalize normalizeMd s = u at h h1 h2
  cases u with
  | nil => exact absurd rfl h
  | cons c rest =>
    have hc := h1 c rfl
    have hnl : isNl c = false := by
      cases hn : isNl c
      · rfl
      · simp only [isNl, beq_iff_eq] at hn
        subst hn
        exact absurd hc (by decide)
    refine ⟨⟨c, rfl, hc⟩, by simp [firstLine, List.takeWhile_cons, hnl], ?_⟩
    obtain ⟨d, hd⟩ : ∃ d, (c :: rest).getLast? = some d :=
      ⟨_, List.getLast?_eq_getLast _ (List.cons_ne_nil _ _)⟩
    have hds := h2 d hd
    obtain ⟨ys, hys⟩ := List.getLast?_eq_some_iff.mp hd
    have hdn : isNl d = false := by
      cases hn : isNl d
      · rfl
      · rw [isNl_reSpace hn] at hds; cases hds
    rw [hys]
    simp only [blankOnly, lastLine, List.reverse_append, List.reverse_cons, List.reverse_nil,
      List.nil_append, List.singleton_append, List.takeWhile_cons, hdn, Bool.not_false, if_true]
    rw [List.all_eq_false]
    exact ⟨d, by simp, by simp [hds]⟩

/-- Witness for the amended claim C3 at `" \na"`. -/
theorem normalizeMd_edge_lines_witness :
    normalizeMd [' ', '\n', 'a'] ≠ [] ∧
    ((∃ c, (normalizeMd [' ', '\n', 'a']).head? = some c ∧ reTRN c = false) ∧
      firstLine (normalizeMd [' ', '\n', 'a']) ≠ [] ∧
      blankOnly (lastLine (normalizeMd [' ', '\n', 'a'])) = false) :=
  ⟨by decide, normalizeMd_edge_lines [' ', '\n', 'a'] (by decide)⟩

/-! ## Claims about the rules -/

/-- Claim C4. For every level `k` from 1 to 6, the heading rule on a node with
the atom of `hk` and content `c` returns a blank line, `k` characters `#`, one
space, `c` and a blank line; that rule is the one the planner registers for
`hk`, the engine adds no padding to it, and the tree of `<h2>Title</h2>` is
converted to `## Title`. -/
theorem heading_rule :
    (∀ (k : Nat) (c : List Char) (p : Ptr), 1 ≤ k → k ≤ 6 →
      p.node.DataAtom = headingAtom k →
        replaceTagsH c p
          = ['\n', '\n'] ++ List.replicate k '#' ++ [' '] ++ c ++ ['\n', '\n'] ∧
        (applyReplacer replaceTagsH p).Data
          = ['\n', '\n'] ++ List.replicate k '#' ++ [' '] ++ getNodeContent p.node true
              ++ ['\n', '\n'] ∧
        ∀ strip, atomReplacer strip (headingAtom k) = some replaceTagsH) ∧
    (∀ strip, process (docOf [elem .H2 "h2" [] [text "Title".toList]]) strip
      = "## Title".toList) := by
  constructor
  · intro k c p h1 h6 hp
    have hrule : ∀ c : List Char, replaceTagsH c p
        = ['\n', '\n'] ++ List.replicate k '#' ++ [' '] ++ c ++ ['\n', '\n'] := by
      intro c
      unfold replaceTagsH
      rw [hp]
      interval_cases k <;> rfl
    have hblock : isBlock p.node.DataAtom = true := by
      rw [hp]
      interval_cases k <;> rfl
    refine ⟨hrule c, ?_, ?_⟩
    · simp only [applyReplacer, getNodeSpaces_block p hblock, List.nil_append, List.append_nil]
      exact hrule _
    · intro strip
      interval_cases k <;> rfl
  · intro strip
    cases strip <;> decide

/-- Witness for claim C4: the heading rule at level 2 on the content `Title`. -/
theorem heading_rule_witness :
    replaceTagsH "Title".toList ⟨elem .H2 "h2" [] [text "Title".toList], none, 0⟩
      = "\n\n## Title\n\n".toList :=
  (heading_rule.1 2 "Title".toList ⟨elem .H2 "h2" [] [text "Title".toList], none, 0⟩
    (by decide) (by decide) rfl).1

/-- Claim C5. For non-empty texts `s`, `w`, `t` without whitespace, the document
whose body holds `strong[s]`, the text `" w "` and `em[t]` is converted to
`**s** w _t_`: the whitespace between the inline runs is kept as one space. -/
theorem inline_runs_single_space (s w t : List Char) (hs : s ≠ []) (hw : w ≠ [])
    (ht : t ≠ []) (hsf : WsFree s) (hwf : WsFree w) (htf : WsFree t) (strip : Bool) :
    process (docOf [elem .Strong "strong" [] [text s], text ([' '] ++ w ++ [' ']),
        elem .Em "em" [] [text t]]) strip
      = ['*', '*'] ++ s ++ ['*', '*', ' '] ++ w ++ [' ', '_'] ++ t ++ ['_'] := by
  rw [process_docOf, bodyContent_inline s w t hs hw ht hsf hwf htf strip]
  have hx : ['*', '*'] ++ s ++ ['*', '*', ' '] ++ w ++ [' ', '_'] ++ t ++ ['_']
      = '*' :: ('*' :: (s ++ ['*', '*', ' '] ++ w ++ [' ', '_'] ++ t)) ++ ['_'] := by simp
  have h := normalizeMd_blockFrame []
    (['*', '*'] ++ s ++ ['*', '*', ' '] ++ w ++ [' ', '_'] ++ t ++ ['_']) []
    (by simp) (by simp) (by simp)
    ⟨fun c hc => by
        simp only [List.cons_append, List.nil_append, List.head?_cons, Option.some.injEq] at hc
        subst hc; decide,
     fun d hd => by
        rw [hx, List.getLast?_concat] at hd
        cases hd; decide⟩
    (noMatch_of_no_nl _ (by
      intro c hc
      simp only [List.mem_append, List.mem_cons, List.mem_singleton, List.not_mem_nil,
        or_false] at hc
      rcases hc with (((((h | h) | h) | h) | h) | h) | h
      · rcases h with h | h <;> subst h <;> rfl
      · exact wsFree_no_nl hsf c h
      · rcases h with h | h | h <;> subst h <;> rfl
      · exact wsFree_no_nl hwf c h
      · rcases h with h | h <;> subst h <;> rfl
      · exact wsFree_no_nl htf c h
      · subst h; rfl))
  simpa using h

/-- Witness for claim C5: `<strong>bold</strong> and <em>it</em>`. -/
theorem inline_runs_single_space_witness :
    process (docOf [elem .Strong "strong" [] [text "bold".toList],
        text ([' '] ++ "and".toList ++ [' ']), elem .Em "em" [] [text "it".toList]]) false
      = "**bold** and _it_".toList :=
  inline_runs_single_space "bold".toList "and".toList "it".toList (by decide) (by decide)
    (by decide) (by decide) (by decide) (by decide) false

/-- Claim C6. A flat list renders one line per item: for a non-empty list of
non-empty item texts without whitespace, `ul[li[a1] .. li[an]]` is converted to
the lines `*   ai` joined by single newlines, and `ol[li[a1] .. li[an]]` to the
lines `i.   ai`, `i` being the decimal 1-based position of the item. -/
theorem flat_list_lines (items : List (List Char)) (hne : items ≠ [])
    (hit : ∀ a ∈ items, a ≠ [] ∧ WsFree a) (strip : Bool) :
    process (docOf [elem .Ul "ul" [] (items.map liOf)]) strip
        = List.intercalate ['\n'] (ulLines items) ∧
    process (docOf [elem .Ol "ol" [] (items.map liOf)]) strip
        = List.intercalate ['\n'] (olLines 1 items) := by
  constructor
  · rw [process_docOf, bodyContent_list strip .Ul "ul" items hit (fun _ _ => rfl) rfl,
      ← stringsJoin_eq_intercalate]
    obtain ⟨h1, h2, h3, _⟩ := join_good (ulLines items) (ulLines_ne_nil items hne)
      (goodLine_ul items hit)
    exact normalizeMd_blockFrame ['\n', '\n'] _ ['\n', '\n'] (by decide) (by decide) h1 h2 h3
  · rw [process_docOf, bodyContent_list strip .Ol "ol" items hit (fun _ _ => rfl) rfl,
      ← stringsJoin_eq_intercalate]
    obtain ⟨h1, h2, h3, _⟩ := join_good (olLines 1 items) (olLines_ne_nil 1 items hne)
      (goodLine_ol items hit 1)
    exact normalizeMd_blockFrame ['\n', '\n'] _ ['\n', '\n'] (by decide) (by decide) h1 h2 h3

/-- Witness for claim C6: `<ul><li>a</li><li>b</li></ul>` and
`<ol><li>x</li><li>y</li></ol>`. -/
theorem flat_list_lines_witness :
    process (docOf [elem .Ul "ul" [] [liOf ['a'], liOf ['b']]]) false = "*   a\n*   b".toList ∧
    process (docOf [elem .Ol "ol" [] [liOf ['x'], liOf ['y']]]) false
      = "1.   x\n2.   y".toList :=
  ⟨(flat_list_lines [['a'], ['b']] (by decide) (by decide) false).1,
   (flat_list_lines [['x'], ['y']] (by decide) (by decide) false).2⟩

theorem indentNewlines_append (x y : List Char) :
    indentNewlines (x ++ y) = indentNewlines x ++ indentNewlines y := by
  simp only [indentNewlines, List.flatMap_append]

/-- Re-indentation of a nested block of lines: every line gets four spaces. -/
theorem indentNewlines_lines : ∀ lines : List (List Char), lines ≠ [] →
    (∀ l ∈ lines, ∀ c ∈ l, isNl c = false) →
    indentNewlines ('\n' :: stringsJoin lines ['\n'])
      = '\n' :: stringsJoin (lines.map (fun l => [' ', ' ', ' ', ' '] ++ l)) ['\n']
  | [], h, _ => absurd rfl h
  | [l], _, hl => by
    have h1 := indentNewlines_no_nl (hl l (List.mem_singleton.mpr rfl))
    have h2 : indentNewlines ('\n' :: l) = indentNewlines ['\n'] ++ indentNewlines l :=
      indentNewlines_append ['\n'] l
    simp only [stringsJoin, List.map_cons, List.map_nil]
    rw [h2, h1]
    rfl
  | l :: l2 :: rest, _, hl => by
    have h1 := indentNewlines_no_nl (hl l (List.mem_cons_self _ _))
    have ih := indentNewlines_lines (l2 :: rest) (List.cons_ne_nil _ _)
      (fun x hx => hl x (List.mem_cons_of_mem _ hx))
    have h2 : indentNewlines ('\n' :: (l ++ ['\n'] ++ stringsJoin (l2 :: rest) ['\n']))
        = indentNewlines ['\n'] ++ (indentNewlines l
            ++ indentNewlines ('\n' :: stringsJoin (l2 :: rest) ['\n'])) := by
      rw [← indentNewlines_append, ← indentNewlines_append]
      simp
    simp only [stringsJoin, List.map_cons] at ih ⊢
    rw [h2, h1, ih]
    have hnl : isNl '\n' = true := by decide
    simp [indentNewlines, hnl]

/-- Claim C7. The list rule returns only the `Data` of the direct `li` children
of the list, joined by newlines: after one newline when the parent of the list
is an `li`, inside a blank-line frame otherwise. The list-item rule re-indents
a nested list by four spaces, and `<ul><li>a<ul><li>b</li></ul></li></ul>` is
converted to `*   a`, newline, four spaces, `*   b`. -/
theorem list_rule :
    (∀ (c : List Char) (p : Ptr),
      replaceTagsUlOl c p
        = if (match p.parent with
              | some q => q.DataAtom.isLi
              | none => false) = true
          then ['\n'] ++ List.intercalate ['\n']
              ((p.node.Children.filter (fun x => x.DataAtom.isLi)).map (fun x => x.Data))
          else ['\n', '\n'] ++ List.intercalate ['\n']
              ((p.node.Children.filter (fun x => x.DataAtom.isLi)).map (fun x => x.Data))
            ++ ['\n', '\n']) ∧
    (∀ (a : List Char) (lines : List (List Char)) (p : Ptr), a ≠ [] → WsFree a →
      lines ≠ [] → (∀ l ∈ lines, ∀ c ∈ l, isNl c = false) →
      replaceTagsLi (a ++ ['\n'] ++ List.intercalate ['\n'] lines) p
        = replaceTagsLi [] p ++ a ++ ['\n']
            ++ List.intercalate ['\n'] (lines.map (fun l => [' ', ' ', ' ', ' '] ++ l))) ∧
    (∀ strip, process (docOf [elem .Ul "ul" [] [elem .Li "li" []
        [text ['a'], elem .Ul "ul" [] [liOf ['b']]]]]) strip
      = "*   a\n    *   b".toList) := by
  refine ⟨?_, ?_, ?_⟩
  · intro c p
    have hl : ∀ cs : List Node,
        liData cs = (cs.filter (fun x => x.DataAtom.isLi)).map (fun x => x.Data) := by
      intro cs
      induction cs with
      | nil => rfl
      | cons x rest ih =>
        cases hx : x.DataAtom.isLi <;> simp [liData, hx, ih, List.filter_cons]
    simp only [replaceTagsUlOl, stringsJoin_eq_intercalate, hl]
  · intro a lines p ha hw hlines hnl
    have hsplit : ∀ x : List Char, replaceTagsLi x p
        = replaceTagsLi [] p ++ indentNewlines (trimLeftFunc x unicodeIsSpace) := by
      intro x
      simp only [replaceTagsLi, trimLeftFunc, List.dropWhile_nil, indentNewlines,
        List.flatMap_nil, List.append_nil]
    have htrim : trimLeftFunc (a ++ ['\n'] ++ List.intercalate ['\n'] lines) unicodeIsSpace
        = a ++ ['\n'] ++ List.intercalate ['\n'] lines := by
      cases a with
      | nil => exact absurd rfl ha
      | cons x r =>
        simp only [trimLeftFunc, List.cons_append]
        exact List.dropWhile_cons_of_neg (by simp [hw x (List.mem_cons_self _ _)])
    rw [hsplit, htrim, List.append_assoc a, indentNewlines_append,
      indentNewlines_no_nl (wsFree_no_nl hw)]
    have := indentNewlines_lines lines hlines hnl
    simp only [stringsJoin_eq_intercalate] at this
    simp only [List.singleton_append, this, List.append_assoc]
  · intro strip
    cases strip <;> decide

/-- Witness for claim C7: an item text `a` followed by the nested line `*   b`. -/
theorem list_rule_witness :
    replaceTagsLi "a\n*   b".toList
        ⟨elem .Li "li" [] [], some (elem .Ul "ul" [] [elem .Li "li" [] []]), 0⟩
      = "*   a\n    *   b".toList :=
  list_rule.2.1 ['a'] ["*   b".toList]
    ⟨elem .Li "li" [] [], some (elem .Ul "ul" [] [elem .Li "li" [] []]), 0⟩
    (by decide) (by decide) (by decide) (by decide)

/-- Claim C8, as stated, fails: an anchor whose `href` attribute has the empty
value has an `href` attribute, and the link rule returns the empty string for
it, not `[x]()`. -/
theorem link_rule_empty_href :
    (⟨[], "href".toList, []⟩ : Attribute) ∈ (elem .A "a" [⟨[], "href".toList, []⟩] []).Attr ∧
    replaceTagsA ['x'] ⟨elem .A "a" [⟨[], "href".toList, []⟩] [], none, 0⟩ = [] ∧
    replaceTagsA ['x'] ⟨elem .A "a" [⟨[], "href".toList, []⟩] [], none, 0⟩
      ≠ "[x]()".toList := by
  decide

/-- Claim C8, amended. With `h` the value of the last `href` attribute of the
node: when `h` is not empty the link rule returns `[c](h`, then a space and the
value of the last `title` attribute when there is one, then `)`; when the node
has no `href` attribute or `h` is empty it returns the empty string. So
`<a href="http://x.com" title="T">link</a>` gives `[link](http://x.com T)`. -/
theorem link_rule :
    (∀ (c : List Char) (p : Ptr),
      replaceTagsA c p
        = match lastAttr "href".toList p.node.Attr with
          | none => []
          | some h =>
            if h = [] then []
            else ['['] ++ c ++ [']', '('] ++ h
              ++ (match lastAttr "title".toList p.node.Attr with
                  | some t => [' '] ++ t
                  | none => [])
              ++ [')']) ∧
    (∀ strip, process (docOf [elem .A "a"
        [⟨[], "href".toList, "http://x.com".toList⟩, ⟨[], "title".toList, ['T']⟩]
        [text "link".toList]]) strip = "[link](http://x.com T)".toList) := by
  constructor
  · intro c p
    unfold replaceTagsA
    rw [linkAttrs_eq]
    cases hh : lastAttr "href".toList p.node.Attr with
    | none => simp [goLen]
    | some h =>
      by_cases he : h = []
      · subst he
        simp [goLen]
      · have hg : goLen h ≠ 0 := fun h0 => he ((goLen_eq_zero_iff h).mp h0)
        simp only [ne_eq, hg, not_false_eq_true, if_true, he, if_false]
        cases lastAttr "title".toList p.node.Attr <;> rfl
  · intro strip
    cases strip <;> decide

/-- Claim C9. For an element with an unknown tag named `T`: with stripping
disabled the planner registers the passthrough rule, whose output on the
content `c` is `<T>c</T>` whatever the attributes; with stripping enabled the
element has no worklist entry, its `Data` is cleared by the planner and is
still empty after the engine has run, so it adds nothing to the content of
its parent. `<foo>bar</foo>` is converted to itself with stripping off and to
the empty text with stripping on. -/
theorem unknown_tag :
    (∀ (c : List Char) (p : Ptr),
      replaceTagsOther c p
        = ['<'] ++ p.node.Data ++ ['>'] ++ c ++ ['<', '/'] ++ p.node.Data ++ ['>']) ∧
    (∀ (doc : Node) (path : List Nat) (e : Node), path ≠ [] → nodeAt doc path = some e →
      e.Typ = .ElementNode → e.DataAtom = .Unknown →
      (∃ hr ∈ (prepareChildrenReplacers [] false doc).1,
        hr.nodePtr = path ∧ hr.replacer = replaceTagsOther) ∧
      (∀ hr ∈ (prepareChildrenReplacers [] true doc).1, hr.nodePtr ≠ path) ∧
      (∃ e1, nodeAt (prepareChildrenReplacers [] true doc).2 path = some e1 ∧ e1.Data = []) ∧
      (∃ e2, nodeAt (convertTree doc true) path = some e2 ∧ e2.Data = [] ∧
        ∀ b, childContent b e2 = [])) ∧
    process fooDoc false = "<foo>bar</foo>".toList ∧
    process fooDoc true = [] := by
  refine ⟨fun _ _ => rfl, ?_, by decide, by decide⟩
  intro doc path e hp he hty hat
  have hoff : childReplacer false e = some replaceTagsOther := by
    unfold childReplacer
    rw [hty, hat]
    rfl
  have hon : childReplacer true e = none := by
    unfold childReplacer
    rw [hty, hat]
    rfl
  exact ⟨entries_doc_complete false doc path e _ hp he hoff,
    dropped_data true doc path e hp he hon⟩

/-- Witness for claim C9: the element `foo` of `<foo>bar</foo>`, at the path
`[0, 1, 0]` of the document. -/
theorem unknown_tag_witness :
    (∃ hr ∈ (prepareChildrenReplacers [] false fooDoc).1,
      hr.nodePtr = [0, 1, 0] ∧ hr.replacer = replaceTagsOther) ∧
    (∀ hr ∈ (prepareChildrenReplacers [] true fooDoc).1, hr.nodePtr ≠ [0, 1, 0]) ∧
    (∃ e1, nodeAt (prepareChildrenReplacers [] true fooDoc).2 [0, 1, 0] = some e1 ∧
      e1.Data = []) ∧
    (∃ e2, nodeAt (convertTree fooDoc true) [0, 1, 0] = some e2 ∧ e2.Data = [] ∧
      ∀ b, childContent b e2 = []) :=
  unknown_tag.2.1 fooDoc [0, 1, 0] (elem .Unknown "foo" [] [text "bar".toList])
    (by decide) rfl rfl rfl

/-- Claim C10 at `<pre><code> a</code></pre>`: the engine pads the text node,
whose raw text begins with a space, before the rule of `pre` reads it, so the
fragment of `pre` holds six spaces before `a` where four spaces of indentation
and the text ` a` make five; the text written has the same extra space. -/
theorem pre_code_leading_space :
    (nodeAt (convertTree (preCodeDoc [' ', 'a']) false) [0, 1, 0]).map (fun n => n.Data)
      = some "\n\n      a\n\n".toList ∧
    ['\n', '\n'] ++ [' ', ' ', ' ', ' '] ++ indentNewlines [' ', 'a'] ++ ['\n', '\n']
      = "\n\n     a\n\n".toList ∧
    process (preCodeDoc [' ', 'a']) false = "      a".toList ∧
    process (preCodeDoc "line1\nline2".toList) false = "    line1\n    line2".toList := by
  decide

/-- Claim C11, as stated, fails: a `code` element with siblings, inside a `p`,
has its non-empty content wrapped in backticks. -/
theorem code_rule_with_siblings :
    replaceTagsCodePre ['x']
        ⟨elem .Code "code" [] [text ['x']],
          some (elem .P "p" [] [text ['a'], elem .Code "code" [] [text ['x']], text ['b']]), 1⟩
      = [backtick, 'x', backtick] ∧
    replaceTagsCodePre ['x']
        ⟨elem .Code "code" [] [text ['x']],
          some (elem .P "p" [] [text ['a'], elem .Code "code" [] [text ['x']], text ['b']]), 1⟩
      ≠ ['x'] := by
  decide

/-- Claim C11, amended. On a `code` element the code rule wraps the content in
backticks when the content is not empty, unless the element is the only child
of a `pre` parent; when the content is empty, or the element is the only child
of a `pre`, it returns the content unchanged. -/
theorem code_rule (c : List Char) (p : Ptr) (hcode : p.node.DataAtom.isCode = true) :
    replaceTagsCodePre c p
      = if c = [] ∨ ((match p.parent with
                      | some q => q.DataAtom.isPre
                      | none => false) = true ∧ p.noSiblings = true)
        then c else [backtick] ++ c ++ [backtick] := by
  have hpre : p.node.DataAtom.isPre = false := by
    cases h : p.node.DataAtom <;> simp_all [Atom.isCode, Atom.isPre]
  unfold replaceTagsCodePre
  simp only [hpre, hcode, Bool.false_eq_true, if_false, if_true]
  by_cases hc : c = []
  · subst hc
    simp [goLen]
  · have hg : goLen c > 0 := Nat.pos_of_ne_zero (fun h => hc ((goLen_eq_zero_iff c).mp h))
    cases hpar : p.parent with
    | none => simp [hc, hg]
    | some q =>
      cases hq : q.DataAtom.isPre <;> cases hs : p.noSiblings <;> simp [hc, hg, hq]

/-- Witness for the amended claim C11: a `code` element between two texts. -/
theorem code_rule_witness :
    replaceTagsCodePre ['x']
        ⟨elem .Code "code" [] [text ['x']],
          some (elem .P "p" [] [text ['a'], elem .Code "code" [] [text ['x']], text ['b']]), 1⟩
      = [backtick, 'x', backtick] :=
  code_rule ['x']
    ⟨elem .Code "code" [] [text ['x']],
      some (elem .P "p" [] [text ['a'], elem .Code "code" [] [text ['x']], text ['b']]), 1⟩ rfl

/-- Claim C17. With `D` the content trimmed by `strings.TrimSpace` and then
collapsed by the pattern `\n\n\n+`, the blockquote rule returns a blank line,
`Q` and a blank line, where the lines of `Q` are the lines of `D`, each with
`> ` in front: every line of `Q`, the empty ones and the single line of an empty
content too, begins with `> `, and `Q` has as many lines as `D`; `D` holds no
three consecutive newlines, and the empty content gives a blank line, `> `
and a blank line. -/
theorem blockquote_rule (c : List Char) (p : Ptr) :
    ∃ Q : List Char,
      replaceTagsBlockquote c p = ['\n', '\n'] ++ Q ++ ['\n', '\n'] ∧
      splitLines Q
        = (splitLines (replaceAllString reMultiNl (trimSpace c) ['\n', '\n'])).map
            (fun l => ['>', ' '] ++ l) ∧
      (∀ l ∈ splitLines Q, ∃ r, l = '>' :: ' ' :: r) ∧
      (splitLines Q).length
        = (splitLines (replaceAllString reMultiNl (trimSpace c) ['\n', '\n'])).length ∧
      (¬ ∃ pre post, replaceAllString reMultiNl (trimSpace c) ['\n', '\n']
        = pre ++ '\n' :: '\n' :: '\n' :: post) ∧
      replaceTagsBlockquote [] p = ['\n', '\n', '>', ' ', '\n', '\n'] := by
  refine ⟨replaceLineStarts (replaceAllString reMultiNl (trimSpace c) ['\n', '\n']) ['>', ' '],
    rfl, ?_, ?_, ?_, ?_, rfl⟩
  · exact splitLines_replaceLineStarts ['>', ' '] (by decide) _
  · intro l hl
    rw [splitLines_replaceLineStarts ['>', ' '] (by decide)] at hl
    obtain ⟨x, _, hx⟩ := List.mem_map.mp hl
    exact ⟨x, hx.symm⟩
  · rw [splitLines_replaceLineStarts ['>', ' '] (by decide), List.length_map]
  · rintro ⟨pre, post, heq⟩
    have h := noMatch_passNl (trimSpace c)
    rw [heq] at h
    have h1 := (noMatch_of_append _ _ _ h).1
    have hnl : isNl '\n' = true := by decide
    rw [reMultiNl_eq] at h1
    simp only [List.takeWhile_cons_of_pos hnl, List.length_cons] at h1
    rw [if_pos (by omega)] at h1
    cases h1

/-- Claim C19. With the attribute list of an anchor taken as `html.Parse`
delivers it (`parsedAttrs` of the entries written in the tag): the delivered
list holds no name twice; the link rule returns the output for the value of
the first written `href` entry and of the first written `title` entry; a
written entry that follows an entry of the same name does not affect the
output. On every attribute list without a repeated name, which is delivered
as it is, the lookup of the rule is first-match. The anchor written
`<a title="s" href="a" href="b" title="t">x</a>` is converted to
`[x](a s)`. -/
theorem link_rule_first_match (c : List Char) (ty : NodeType) (at1 : Atom) (d : List Char)
    (cs : List Node) (par : Option Node) (i : Nat) :
    (∀ raw : List Attribute, ((parsedAttrs raw).map (fun a => a.Key)).Nodup) ∧
    (∀ raw : List Attribute,
      replaceTagsA c ⟨⟨ty, at1, d, parsedAttrs raw, cs⟩, par, i⟩
        = linkOutput c (firstAttr "href".toList raw) (firstAttr "title".toList raw)) ∧
    (∀ (a b : Attribute) (pre mid post : List Attribute), a.Key = b.Key →
      replaceTagsA c ⟨⟨ty, at1, d, parsedAttrs (pre ++ a :: (mid ++ b :: post)), cs⟩, par, i⟩
        = replaceTagsA c ⟨⟨ty, at1, d, parsedAttrs (pre ++ a :: (mid ++ post)), cs⟩, par, i⟩) ∧
    (∀ attrs : List Attribute, (attrs.map (fun a => a.Key)).Nodup →
      parsedAttrs attrs = attrs ∧
      replaceTagsA c ⟨⟨ty, at1, d, attrs, cs⟩, par, i⟩
        = linkOutput c (firstAttr "href".toList attrs) (firstAttr "title".toList attrs)) ∧
    (∀ strip, process (docOf [elem .A "a"
        (parsedAttrs [⟨[], "title".toList, ['s']⟩, ⟨[], "href".toList, ['a']⟩,
          ⟨[], "href".toList, ['b']⟩, ⟨[], "title".toList, ['t']⟩])
        [text ['x']]]) strip = "[x](a s)".toList) := by
  have hraw : ∀ raw : List Attribute,
      replaceTagsA c ⟨⟨ty, at1, d, parsedAttrs raw, cs⟩, par, i⟩
        = linkOutput c (firstAttr "href".toList raw) (firstAttr "title".toList raw) := by
    intro raw
    rw [replaceTagsA_linkOutput]
    simp only [lastAttr_parsedAttrs]
  refine ⟨parsedAttrs_nodup, hraw, ?_, ?_, ?_⟩
  · intro a b pre mid post hab
    rw [hraw, hraw, firstAttr_drop_later _ a b hab, firstAttr_drop_later _ a b hab]
  · intro attrs hnodup
    have h := hraw attrs
    rw [parsedAttrs_of_nodup attrs hnodup] at h
    exact ⟨parsedAttrs_of_nodup attrs hnodup, h⟩
  · intro strip
    cases strip <;> decide

/-- Witness for claim C19: in `title="s" href="a" href="b" title="t"` the
second `href` entry follows an entry of the same name, and the output is the
one of `title="s" href="a" title="t"`. -/
theorem link_rule_first_match_witness :
    replaceTagsA ['x'] ⟨⟨.ElementNode, .A, ['a'],
        parsedAttrs ([⟨[], "title".toList, ['s']⟩] ++ ⟨[], "href".toList, ['a']⟩
          :: ([] ++ ⟨[], "href".toList, ['b']⟩ :: [⟨[], "title".toList, ['t']⟩])), []⟩, none, 0⟩
      = replaceTagsA ['x'] ⟨⟨.ElementNode, .A, ['a'],
        parsedAttrs ([⟨[], "title".toList, ['s']⟩] ++ ⟨[], "href".toList, ['a']⟩
          :: ([] ++ [⟨[], "title".toList, ['t']⟩])), []⟩, none, 0⟩ :=
  (link_rule_first_match ['x'] .ElementNode .A ['a'] [] none 0).2.2.1
    ⟨[], "href".toList, ['a']⟩ ⟨[], "href".toList, ['b']⟩ [⟨[], "title".toList, ['s']⟩] []
    [⟨[], "title".toList, ['t']⟩] rfl

/-- Claim C20. The third pass of `normalizeMd` is redundant: after the edge trim
and the pass `\n\s+\n` the text holds no three consecutive newlines, the pass
`\n\n\n+` leaves it unchanged, and `normalizeMd` is the composition of its first
two passes. -/
theorem third_pass_redundant (s : List Char) :
    (¬ ∃ pre post, replaceAllString reMultiNlW (replaceAllString reMultiLTR s []) ['\n', '\n']
        = pre ++ '\n' :: '\n' :: '\n' :: post) ∧
    replaceAllString reMultiNl
        (replaceAllString reMultiNlW (replaceAllString reMultiLTR s []) ['\n', '\n'])
        ['\n', '\n']
      = replaceAllString reMultiNlW (replaceAllString reMultiLTR s []) ['\n', '\n'] ∧
    normalizeMd s
      = replaceAllString reMultiNlW (replaceAllString reMultiLTR s []) ['\n', '\n'] := by
  refine ⟨?_, ?_, ?_⟩
  · rintro ⟨pre, post, heq⟩
    have h := noMatch_passNlW (replaceAllString reMultiLTR s [])
    rw [replaceAllString_NlW] at heq
    rw [heq] at h
    have h1 := (noMatch_of_append _ _ _ h).1
    exact reMultiNlW_blank_run ['\n'] post (by simp) (by decide) h1
  · rw [replaceAllString_NlW]
    exact passNl_passNlW _
  · rw [replaceAllString_NlW]
    exact normalizeMd_eq s

/-- Claim C16. An element whose tag is a known atom outside the dispatch table
(`img`, `u`, `script`, `head`, `title`, any other atom) has no worklist entry,
its `Data` is cleared by the planner and is still empty after the engine has
run, so it adds nothing to the content of its parent, whatever the strip
option; and no worklist entry holds the image rule. -/
theorem unhandled_atoms :
    (Atom.Img.unhandled = true ∧ Atom.U.unhandled = true ∧ Atom.Script.unhandled = true ∧
      Atom.Head.unhandled = true ∧ Atom.Title.unhandled = true) ∧
    (∀ (doc : Node) (path : List Nat) (e : Node) (strip : Bool), path ≠ [] →
      nodeAt doc path = some e → e.Typ = .ElementNode → e.DataAtom.unhandled = true →
      (∀ hr ∈ (prepareChildrenReplacers [] strip doc).1, hr.nodePtr ≠ path) ∧
      (∃ e1, nodeAt (prepareChildrenReplacers [] strip doc).2 path = some e1 ∧
        e1.Data = []) ∧
      (∃ e2, nodeAt (convertTree doc strip) path = some e2 ∧ e2.Data = [] ∧
        ∀ b, childContent b e2 = [])) ∧
    (∀ (doc : Node) (strip : Bool), ∀ hr ∈ (prepareChildrenReplacers [] strip doc).1,
      hr.replacer ≠ replaceTagsImg) := by
  refine ⟨⟨rfl, rfl, rfl, rfl, rfl⟩, ?_, ?_⟩
  · intro doc path e strip hp he hty hu
    exact dropped_data strip doc path e hp he (childReplacer_unhandled strip e hty hu)
  · intro doc strip hr hmem
    obtain ⟨_, e, _, he⟩ := entries_doc strip doc hr hmem
    exact rule_ne_img _ (childReplacer_rules strip e _ he)

/-- Witness for claim C16: the `img` element of `<img src="s">`, at the path
`[0, 1, 0]`, with stripping off. -/
theorem unhandled_atoms_witness :
    (∀ hr ∈ (prepareChildrenReplacers [] false imgDoc).1, hr.nodePtr ≠ [0, 1, 0]) ∧
    (∃ e1, nodeAt (prepareChildrenReplacers [] false imgDoc).2 [0, 1, 0] = some e1 ∧
      e1.Data = []) ∧
    (∃ e2, nodeAt (convertTree imgDoc false) [0, 1, 0] = some e2 ∧ e2.Data = [] ∧
      ∀ b, childContent b e2 = []) :=
  unhandled_atoms.2.1 imgDoc [0, 1, 0] (elem .Img "img" [⟨[], "src".toList, ['s']⟩] []) false
    (by decide) rfl rfl rfl

/-- Claim C14. For every tree and either value of the strip option, in the
worklist of `prepareChildrenReplacers`: no node pointer occurs twice; the
entries stand in document order; the entry of a node stands at a smaller index
than the entry of each of its proper descendants, and every entry addresses a
node of the tree. The engine runs the entries from the last to the first, so
in the order of the rounds the entry of a proper descendant comes at a smaller
position than the entry of its ancestor; a round changes the `Data` of no
node but its own. -/
theorem bottom_up (doc : Node) (strip : Bool) :
    ((prepareChildrenReplacers [] strip doc).1.map (fun hr => hr.nodePtr)).Nodup ∧
    ((prepareChildrenReplacers [] strip doc).1.map (fun hr => hr.nodePtr)).Pairwise
      docBefore ∧
    (∀ (i j : Nat) (a b : htmlReplace) (q : List Nat),
      (prepareChildrenReplacers [] strip doc).1[i]? = some a →
      (prepareChildrenReplacers [] strip doc).1[j]? = some b →
      q ≠ [] → b.nodePtr = a.nodePtr ++ q → i < j) ∧
    (∀ hr ∈ (prepareChildrenReplacers [] strip doc).1,
      hr.nodePtr ≠ [] ∧ ∃ e, nodeAt doc hr.nodePtr = some e) ∧
    (∀ D : Node, runReplacers (prepareChildrenReplacers [] strip doc).1 D
      = (prepareChildrenReplacers [] strip doc).1.reverse.foldl
          (fun d hr => runReplacer hr d) D) ∧
    (∀ (i j : Nat) (a b : htmlReplace) (q : List Nat),
      (prepareChildrenReplacers [] strip doc).1.reverse[i]? = some a →
      (prepareChildrenReplacers [] strip doc).1.reverse[j]? = some b →
      q ≠ [] → b.nodePtr = a.nodePtr ++ q → j < i) ∧
    (∀ (hr : htmlReplace) (D : Node) (q : List Nat), hr.nodePtr ≠ q →
      (nodeAt (runReplacer hr D) q).map (fun n => n.Data)
        = (nodeAt D q).map (fun n => n.Data)) := by
  have hs := worklist_sorted strip doc
  have hne : ∀ (a b : htmlReplace) (q : List Nat), q ≠ [] →
      b.nodePtr = a.nodePtr ++ q → a ≠ b := by
    intro a b q hq hab heq
    subst heq
    exact hq (List.self_eq_append_right.1 hab)
  refine ⟨?_, hs, ?_, ?_, ?_, ?_, ?_⟩
  · refine hs.imp ?_
    intro a b hab heq
    rw [heq] at hab
    exact docBefore_irrefl b hab
  · intro i j a b q ha hb hq hab
    refine index_of_pairwise _ _ (List.pairwise_map.1 hs) i j a b ha hb (hne a b q hq hab) ?_
    rw [hab]
    exact not_docBefore_ancestor _ _
  · intro hr hmem
    obtain ⟨h1, e, h2, _⟩ := entries_doc strip doc hr hmem
    exact ⟨h1, e, h2⟩
  · intro D
    simp only [runReplacers, List.foldl_reverse]
  · intro i j a b q ha hb hq hab
    refine index_of_pairwise _ _ (List.pairwise_reverse.2 (List.pairwise_map.1 hs)) j i b a
      hb ha (fun h => hne a b q hq hab h.symm) ?_
    show ¬ docBefore b.nodePtr a.nodePtr
    rw [hab]
    exact not_docBefore_ancestor _ _
  · intro hr D q h
    exact runReplacer_frame hr D q h

/-- Witness for claim C14: in the worklist of `<foo>bar</foo>` the entry of
`body`, at index 1, stands before the entry of the text `bar`, at index 3. -/
theorem bottom_up_witness :
    (prepareChildrenReplacers [] false fooDoc).1.map (fun hr => hr.nodePtr)
      = [[0], [0, 1], [0, 1, 0], [0, 1, 0, 0]] ∧ 1 < 3 :=
  ⟨rfl, (bottom_up fooDoc false).2.2.1 1 3 ⟨[0, 1], replaceTagsBlocks⟩
    ⟨[0, 1, 0, 0], replaceText⟩ [0, 0] rfl rfl (by decide) rfl⟩

/-- Claim C12 fails at `<em>a</em><u><b> x</b></u><em>b</em>`. The element `u`
is dropped (a known atom outside the dispatch table), and so is `foo` with
stripping enabled; the characters under it do not reach the output. But
`checkNodeSiblingWs` reads `getNodeContent` of the dropped sibling, which is
built from the converted children and not from the cleared `Data`: the content
` **x**` begins with a space, so the `em` before it gets a trailing space. The
text written is `_a_ _b_`, where the tree whose dropped element has no
children gives `_a__b_`. -/
theorem dropped_content_leaks :
    (childReplacer false (elem .U "u" [] [elem .B "b" [] [text [' ', 'x']]])).isNone = true ∧
    (childReplacer true (elem .Unknown "foo" [] [elem .B "b" [] [text [' ', 'x']]])).isNone
      = true ∧
    process (betweenDoc .U "u" [elem .B "b" [] [text [' ', 'x']]]) false = "_a_ _b_".toList ∧
    process (betweenDoc .U "u" []) false = "_a__b_".toList ∧
    process (betweenDoc .Unknown "foo" [elem .B "b" [] [text [' ', 'x']]]) true
      = "_a_ _b_".toList ∧
    process (betweenDoc .Unknown "foo" []) true = "_a__b_".toList ∧
    checkNodeSiblingWs
      ⟨elem .Em "em" [] [text ['a']],
        some (elem .Body "body" []
          [elem .Em "em" [] [text ['a']],
           ⟨.ElementNode, .U, [], [],
             [⟨.ElementNode, .B, " **x**".toList, [], [text " x".toList]⟩]⟩]), 0⟩ true
      = true := by
  decide

/-- Claim C15 fails where a first character is a whitespace rune outside
ASCII. `getNodeSpaces` and `checkNodeSiblingWs` decode the one-byte slice
`c[0:1]`, which gives `RuneError` for the first byte of a longer encoding,
while the last character is decoded whole by `DecodeLastRuneInString`. For
the text node with the raw content U+00A0 `x` and no siblings the claim gives
`l = " "`, the code `l = ""`; the mirrored content `x` U+00A0 does get
`t = " "`. The same holds for the sibling tests, and the text written for
`<i>a</i>&nbsp;x` is `_a_x` where `x&nbsp;<i>a</i>` gives `x _a_`. -/
theorem leading_space_first_byte :
    unicodeIsSpace nbsp = true ∧
    decodeFirstByte [nbsp, 'x'] = runeError ∧
    decodeLastRune ['x', nbsp] = nbsp ∧
    getNodeSpaces ⟨text [nbsp, 'x'], none, 0⟩ = ([], []) ∧
    getNodeSpaces ⟨text ['x', nbsp], none, 0⟩ = ([], [' ']) ∧
    getNodeSpaces ⟨text [' ', 'x'], none, 0⟩ = ([' '], []) ∧
    checkNodeSiblingWs
      ⟨text ['a'], some (elem .Body "body" [] [text ['a'], text [nbsp, 'x']]), 0⟩ true = false ∧
    checkNodeSiblingWs
      ⟨text ['a'], some (elem .Body "body" [] [text ['x', nbsp], text ['a']]), 1⟩ false = true ∧
    process (docOf [elem .I "i" [] [text ['a']], text [nbsp, 'x']]) false = "_a_x".toList ∧
    process (docOf [text ['x', nbsp], elem .I "i" [] [text ['a']]]) false = "x _a_".toList := by
  decide

/-- Claim C18 fails at `<i><b>x </b></i><em>y</em>`. The worklist has seven
entries; taking them in the order 4, 3, 2, 6, 5, 1, 0 (the left-to-right
recursive conversion: `x `, `b`, `i`, then `y`, `em`, then `body`, `html`)
handles every node after all of its descendants, and gives `_**x** _  _y_`
with two spaces, as does the left-to-right recursion `processLR`: the round of
`em` finds the converted content of `i`, which ends with a space. The order
of `process` gives `_**x** _ _y_`: there the round of `em` comes before the
rounds under `i`. -/
theorem children_first_not_enough :
    (prepareChildrenReplacers [] false orderDoc).1.map (fun hr => hr.nodePtr)
      = [[0], [0, 1], [0, 1, 0], [0, 1, 0, 0], [0, 1, 0, 0, 0], [0, 1, 1], [0, 1, 1, 0]] ∧
    [4, 3, 2, 6, 5, 1, 0].Perm (List.range 7) ∧
    childrenFirst ((pickEntries (prepareChildrenReplacers [] false orderDoc).1
      [4, 3, 2, 6, 5, 1, 0]).map (fun hr => hr.nodePtr)) = true ∧
    normalizeMd (getNodeContent
      (runInOrder (pickEntries (prepareChildrenReplacers [] false orderDoc).1
        [4, 3, 2, 6, 5, 1, 0]) (prepareChildrenReplacers [] false orderDoc).2) true)
      = "_**x** _  _y_".toList ∧
    processLR orderDoc false = "_**x** _  _y_".toList ∧
    process orderDoc false = "_**x** _ _y_".toList := by
  decide

/-- Claim C18, amended. For every tree and either value of the strip option:
taking the worklist entries in any order in which every entry comes after the
entries of all nodes later in document order (its descendants, its following
siblings and their descendants) handles every node after all of its
descendants and yields the final document text of `process`; and that text is
the one of the recursive conversion `runTree`, which converts the children of
a node from the last to the first, each after its own children, and then
applies the rule of the node. -/
theorem later_first_order (doc : Node) (strip : Bool) :
    (∀ rs : List htmlReplace, rs.Perm (prepareChildrenReplacers [] strip doc).1 →
      rs.Pairwise (fun a b => docBefore b.nodePtr a.nodePtr) →
      childrenFirst (rs.map (fun hr => hr.nodePtr)) = true ∧
      normalizeMd (getNodeContent
        (runInOrder rs (prepareChildrenReplacers [] strip doc).2) true)
        = process doc strip) ∧
    process doc strip
      = normalizeMd (getNodeContent
          (runTree strip (prepareChildrenReplacers [] strip doc).2) true) := by
  refine ⟨?_, process_eq doc strip⟩
  intro rs hperm hord
  refine ⟨childrenFirst_of_later_first _ (List.pairwise_map.2 hord), ?_⟩
  rw [later_first_unique strip doc rs hperm hord, ← runReplacers_eq_runInOrder]
  rfl

/-- Witness for the amended claim C18: the reversed worklist of
`<i><b>x </b></i><em>y</em>`. -/
theorem later_first_order_witness :
    childrenFirst ((prepareChildrenReplacers [] false orderDoc).1.reverse.map
      (fun hr => hr.nodePtr)) = true ∧
    normalizeMd (getNodeContent
      (runInOrder (prepareChildrenReplacers [] false orderDoc).1.reverse
        (prepareChildrenReplacers [] false orderDoc).2) true)
      = process orderDoc false :=
  (later_first_order orderDoc false).1 (prepareChildrenReplacers [] false orderDoc).1.reverse
    (List.reverse_perm _)
    (List.pairwise_reverse.2 (List.pairwise_map.1 (worklist_sorted false orderDoc)))

/-- Claim C13. For every tree and either value of the strip option the core
with its run-time checks returns the text of `process` and no fault. The
planner, a structural recursion on the tree, registers for every node of the
worklist a checked rule that returns a text on every input; every element
atom has a rule, or is a known atom of the default case, or is the unknown atom
under stripping. The slice `c[0:1]` faults only on the empty string, and
`getNodeSpaces` and `checkNodeSiblingWs` take it only after the length test, so
they never fault; the rules that follow `n.FirstChild.FirstChild` and
`n.Parent` do so only after the nil tests and never fault either. -/
theorem core_total (doc : Node) (strip : Bool) :
    processE doc strip = .ok (process doc strip) ∧
    List.Forall₂ EntryOk (prepareChildrenReplacersE [] strip doc).1
      (prepareChildrenReplacers [] strip doc).1 ∧
    (prepareChildrenReplacersE [] strip doc).2 = (prepareChildrenReplacers [] strip doc).2 ∧
    (∀ hr ∈ (prepareChildrenReplacers [] strip doc).1,
      (getPtr (prepareChildrenReplacers [] strip doc).2 hr.nodePtr).isSome = true) ∧
    (∀ a : Atom, (atomReplacerE strip a).isSome = true ∨ a.unhandled = true ∨
      (a = .Unknown ∧ strip = true)) ∧
    (∀ s : List Char, decodeFirstByteE s = .error .sliceBounds ↔ s = []) ∧
    deref none = .error .nilDeref ∧
    (∀ n : Ptr, getNodeSpacesE n = .ok (getNodeSpaces n)) ∧
    (∀ (n : Ptr) (next : Bool), checkNodeSiblingWsE n next = .ok (checkNodeSiblingWs n next)) ∧
    (∀ (c : List Char) (n : Ptr), replaceTagsCodePreE c n = .ok (replaceTagsCodePre c n)) ∧
    (∀ (c : List Char) (n : Ptr), replaceTagsLiE c n = .ok (replaceTagsLi c n)) ∧
    (∀ (c : List Char) (n : Ptr), replaceTagsUlOlE c n = .ok (replaceTagsUlOl c n)) := by
  refine ⟨processE_ok doc strip, (planE_doc strip doc).1, (planE_doc strip doc).2, ?_, ?_, ?_,
    rfl, getNodeSpacesE_ok, checkNodeSiblingWsE_ok, replaceTagsCodePreE_ok, replaceTagsLiE_ok,
    replaceTagsUlOlE_ok⟩
  · intro hr hmem
    unfold getPtr
    rw [getPtrFrom_isSome]
    exact worklist_valid strip doc hr hmem
  · intro a
    cases a <;> cases strip <;>
      first
      | exact Or.inl rfl
      | exact Or.inr (Or.inl rfl)
      | exact Or.inr (Or.inr ⟨rfl, rfl⟩)
  · intro s
    cases s with
    | nil => exact ⟨fun _ => rfl, fun _ => rfl⟩
    | cons c rest =>
      constructor
      · intro h
        cases h
      · intro h
        cases h

end Html2md
